import Mathlib

/-!
# Verification of the Mongoose knapsack projection core

This development embeds, in Lean 4, the `QPnapdown` routine of the Mongoose
graph-partitioning library (`Source/Mongoose_QPNapDown.cpp`) together with the
indexed binary max-heap it relies on, and proves the behavioural properties
stated in the specification of the projection core.

Modelling conventions:
* C `double` values are modelled by `ℚ` (exact arithmetic); `-INFINITY`
  sentinels become `Option ℚ` with `none` playing the role of `-INFINITY`.
* The caller-owned arrays `bound_heap`/`free_heap` are modelled as the lists
  of live indices (slot `1..size` of the C array); `breakpts` and `x` are
  modelled as functions `Nat → ℚ` carried in the state.
* The heap routines (`QPmaxheap_build`, `QPmaxheap_delete`, `QPmaxheap_add`)
  are not part of the provided sources; they are modelled from the spec
  (section 4.1): a 1-based array binary heap with bottom-up build, delete by
  moving the last element to the root and sifting down, and insert by
  appending a leaf and sifting up.  Recursion is expressed with explicit
  fuel so that every definition is executable.
-/

namespace Mongoose

/-! ## Basic numeric helpers -/

/-- Clamp a rational to the unit interval, `max(0, min(1, t))`. -/
def clamp01 (t : ℚ) : ℚ := min 1 (max 0 t)

/-- The weight of coordinate `i`: `a[i]` when the weight vector is present,
`1` when `a == NULL`. -/
def aw (a : Option (Nat → ℚ)) (i : Nat) : ℚ :=
  match a with
  | none => 1
  | some f => f i

/-- The slope function of the projection dual:
`s(lambda) = sum_i clamp(x_i - a_i*lambda, 0, 1) * a_i` over `i < n`.
This is the specification-side formula the postcondition refers to. -/
def sTrue (x : Nat → ℚ) (a : Option (Nat → ℚ)) (n : Nat) (lam : ℚ) : ℚ :=
  ∑ i ∈ Finset.range n, clamp01 (x i - aw a i * lam) * aw a i

/-- The documented precondition on the weight vector: all entries strictly
positive (vacuous when `a` is absent). -/
def PosA (a : Option (Nat → ℚ)) (n : Nat) : Prop :=
  match a with
  | none => True
  | some f => ∀ i < n, 0 < f i

/-- `MONGOOSE_MAX2` against a possibly `-INFINITY` accumulator. -/
def omax (m : Option ℚ) (t : ℚ) : Option ℚ :=
  match m with
  | none => some t
  | some v => some (if t < v then v else t)

/-- `MONGOOSE_MAX2` of the two heap tops, either of which may be `-INFINITY`. -/
def omax2 (m1 m2 : Option ℚ) : Option ℚ :=
  match m1, m2 with
  | none, m2 => m2
  | some v, none => some v
  | some v, some w => some (if w < v then v else w)

/-! ## The indexed heap (modelled from the spec, section 4.1)

The heap is a list of indices into a key array `x : Nat → ℚ`; list position
`p - 1` holds heap slot `p` (slots are numbered `1..size` as in the C code).
All sift recursions carry explicit fuel; the public wrappers supply enough
fuel for the recursion to run to completion. -/

/-- Read heap slot `p` (1-based). -/
def hget (h : List Nat) (p : Nat) : Nat := h.getD (p - 1) 0

/-- Swap heap slots `p` and `q` (1-based). -/
def hswap (h : List Nat) (p q : Nat) : List Nat :=
  (h.set (p - 1) (hget h q)).set (q - 1) (hget h p)

/-- Comparator of the descending (max) heap: `cMax u v` says `u` must sit
strictly above `v`. -/
def cMax (u v : ℚ) : Bool := decide (v < u)

/-- Comparator of the ascending (min) heap. -/
def cMin (u v : ℚ) : Bool := decide (u < v)

/-- The child of `p` that should rise: the right child when it exists and
beats the left child, the left child otherwise. -/
def bestc (c : ℚ → ℚ → Bool) (x : Nat → ℚ) (h : List Nat) (p : Nat) : Nat :=
  if 2 * p + 1 ≤ h.length && c (x (hget h (2 * p + 1))) (x (hget h (2 * p))) then 2 * p + 1
  else 2 * p

/-- Sift the element at slot `p` down until both children are no better
(`QPmaxheapify`).  `fuel` bounds the recursion depth. -/
def heapifyF (c : ℚ → ℚ → Bool) (x : Nat → ℚ) : Nat → Nat → List Nat → List Nat
  | 0, _, h => h
  | _ + 1, 0, h => h
  | fuel + 1, p, h =>
    if 2 * p ≤ h.length then
      let b := bestc c x h p
      if c (x (hget h b)) (x (hget h p)) then heapifyF c x fuel b (hswap h p b) else h
    else h

/-- Sift-down with enough fuel for any start slot. -/
def heapify (c : ℚ → ℚ → Bool) (x : Nat → ℚ) (p : Nat) (h : List Nat) : List Nat :=
  heapifyF c x h.length p h

/-- Bottom-up heap construction: sift down slots `k, k-1, ..., 1`. -/
def heapBuildGo (c : ℚ → ℚ → Bool) (x : Nat → ℚ) : Nat → List Nat → List Nat
  | 0, h => h
  | k + 1, h => heapBuildGo c x k (heapify c x (k + 1) h)

/-- `build`: arrange an arbitrary list of indices into heap order
(`QPmaxheap_build`), sifting down from slot `size/2` to slot `1`. -/
def heapBuild (c : ℚ → ℚ → Bool) (x : Nat → ℚ) (h : List Nat) : List Nat :=
  heapBuildGo c x (h.length / 2) h

/-- `deleteTop`: move the last live element to the root, shrink the live
region and sift down (`QPmaxheap_delete`).  The old root `heap[1]` is read
by the caller before the call. -/
def heapDelete (c : ℚ → ℚ → Bool) (x : Nat → ℚ) (h : List Nat) : List Nat :=
  heapify c x 1 ((h.set 0 (hget h h.length)).dropLast)

/-- Sift the leaf at slot `p` up while it beats its parent. -/
def siftUpF (c : ℚ → ℚ → Bool) (x : Nat → ℚ) : Nat → Nat → List Nat → List Nat
  | 0, _, h => h
  | fuel + 1, p, h =>
    if p ≤ 1 then h
    else if c (x (hget h p)) (x (hget h (p / 2))) then
      siftUpF c x fuel (p / 2) (hswap h p (p / 2))
    else h

/-- `insert`: append a new leaf and sift it up (`QPmaxheap_add`). -/
def heapAdd (c : ℚ → ℚ → Bool) (x : Nat → ℚ) (i : Nat) (h : List Nat) : List Nat :=
  siftUpF c x (h.length + 1) (h.length + 1) (h ++ [i])

/-- The max-heap instances used by `QPnapdown`. -/
def QPmaxheap_build (h : List Nat) (x : Nat → ℚ) : List Nat := heapBuild cMax x h

/-- `QPmaxheap_delete`, returning the shrunken heap (the C function returns
the new size, which is the length of this list). -/
def QPmaxheap_delete (h : List Nat) (x : Nat → ℚ) : List Nat := heapDelete cMax x h

/-- `QPmaxheap_add`, returning the grown heap. -/
def QPmaxheap_add (e : Nat) (h : List Nat) (x : Nat → ℚ) : List Nat := heapAdd cMax x e h

/-- The min-heap instances (the ascending variant, `QPMinHeap_delete` of the
header). -/
def QPminheap_delete (h : List Nat) (x : Nat → ℚ) : List Nat := heapDelete cMin x h

/-- Heap-order property for comparator `c`: no slot beats its parent. -/
def heapOrdC (c : ℚ → ℚ → Bool) (x : Nat → ℚ) (h : List Nat) : Prop :=
  ∀ q ∈ Finset.Icc 2 h.length, c (x (hget h q)) (x (hget h (q / 2))) = false

instance (c : ℚ → ℚ → Bool) (x : Nat → ℚ) (h : List Nat) : Decidable (heapOrdC c x h) := by
  unfold heapOrdC; infer_instance

/-! ## The state of one `QPnapdown` invocation

The state gathers the function arguments (`x`, `a`, `b`, `n`), the local
variables of the C routine (`lambda`, `asum`, `a2sum`, `maxbound`,
`maxfree`) and the caller-owned work buffers (`breakpts`, `bound_heap`,
`free_heap`).  `n_bound` and `n_free` of the C code are the lengths of the
two heap lists. -/
structure NapState where
  x : Nat → ℚ
  a : Option (Nat → ℚ)
  b : ℚ
  n : Nat
  lambda : ℚ
  asum : ℚ
  a2sum : ℚ
  maxbound : Option ℚ
  maxfree : Option ℚ
  breakpts : Nat → ℚ
  bound_heap : List Nat
  free_heap : List Nat

/-- Point update of a modelled array. -/
def upd (f : Nat → ℚ) (e : Nat) (v : ℚ) : Nat → ℚ :=
  fun j => if j = e then v else f j

/-- One step of the initial partition pass (the body of the first `for`
loop), classifying coordinate `i` as bound-low, free or bound-high.  The
two branches mirror the duplicated `a == NULL` / `a != NULL` loops of the
source. -/
def partStep (st : NapState) (i : Nat) : NapState :=
  match st.a with
  | none =>
    let xi := st.x i - st.lambda
    if xi < 0 then
      { st with bound_heap := st.bound_heap ++ [i],
                maxbound := omax st.maxbound (st.x i),
                breakpts := upd st.breakpts i (st.x i) }
    else if xi < 1 then
      { st with free_heap := st.free_heap ++ [i],
                asum := st.asum + st.x i,
                a2sum := st.a2sum + 1,
                maxfree := omax st.maxfree (st.x i - 1),
                breakpts := upd st.breakpts i (st.x i - 1) }
    else
      { st with asum := st.asum + 1 }
  | some f =>
    let ai := f i
    let xi := st.x i - ai * st.lambda
    if xi < 0 then
      { st with bound_heap := st.bound_heap ++ [i],
                maxbound := omax st.maxbound (st.x i / ai),
                breakpts := upd st.breakpts i (st.x i / ai) }
    else if xi < 1 then
      { st with free_heap := st.free_heap ++ [i],
                asum := st.asum + st.x i * ai,
                a2sum := st.a2sum + ai * ai,
                maxfree := omax st.maxfree ((st.x i - 1) / ai),
                breakpts := upd st.breakpts i ((st.x i - 1) / ai) }
    else
      { st with asum := st.asum + ai }

/-- The state at entry of `QPnapdown`, before the partition pass.  The heap
buffers start with an empty live region and `breakpts` holds the arbitrary
scratch contents `bp0`. -/
def initState (x : Nat → ℚ) (n : Nat) (lam : ℚ) (a : Option (Nat → ℚ)) (b : ℚ)
    (bp0 : Nat → ℚ) : NapState :=
  ⟨x, a, b, n, lam, 0, 0, none, none, bp0, [], []⟩

/-- The partition pass: classify every coordinate `0 ≤ i < n`. -/
def partitionPass (x : Nat → ℚ) (n : Nat) (lam : ℚ) (a : Option (Nat → ℚ)) (b : ℚ)
    (bp0 : Nat → ℚ) : NapState :=
  (List.range n).foldl partStep (initState x n lam a b bp0)

/-- The closed-form step executed at loop exit:
`lambda = (asum - b) / a2sum` when `a2sum != 0`, the unmodified multiplier
otherwise. -/
def exitLambda (st : NapState) : ℚ :=
  if st.a2sum ≠ 0 then (st.asum - st.b) / st.a2sum else st.lambda

/-- The exit test at the top of a sweep round: with
`new_break = MAX2(maxfree, maxbound)` and `s = asum - new_break * a2sum`,
return the closed-form multiplier when `s >= b` or `new_break = -INFINITY`,
else `none` (the round continues). -/
def checkExit (st : NapState) : Option ℚ :=
  match omax2 st.maxfree st.maxbound with
  | none => some (exitLambda st)
  | some nbv => if st.b ≤ st.asum - nbv * st.a2sum then some (exitLambda st) else none

/-- Build both heaps (the `k == 1` lazy build). -/
def buildHeaps (st : NapState) : NapState :=
  { st with free_heap := QPmaxheap_build st.free_heap st.breakpts,
            bound_heap := QPmaxheap_build st.bound_heap st.breakpts }

/-- The free-heap pop loop, `a == NULL` branch: while the top breakpoint is
`>= lambda`, fold the top coordinate into the bound-high aggregates and
delete it.  `fuel` bounds the number of pops (one per live element). -/
def freeLoopN : Nat → NapState → NapState
  | 0, st => st
  | fuel + 1, st =>
    match st.free_heap with
    | [] => st
    | _ :: _ =>
      let e := hget st.free_heap 1
      if st.lambda ≤ st.breakpts e then
        let st1 := { st with a2sum := st.a2sum - 1,
                             asum := st.asum + (1 - st.x e),
                             free_heap := QPmaxheap_delete st.free_heap st.breakpts }
        if st1.free_heap.length = 0 then st1 else freeLoopN fuel st1
      else st

/-- The free-heap pop loop, weighted branch; on emptying the heap the code
resets `a2sum` to exactly `0`. -/
def freeLoopW (f : Nat → ℚ) : Nat → NapState → NapState
  | 0, st => st
  | fuel + 1, st =>
    match st.free_heap with
    | [] => st
    | _ :: _ =>
      let e := hget st.free_heap 1
      if st.lambda ≤ st.breakpts e then
        let ai := f e
        let st1 := { st with a2sum := st.a2sum - ai * ai,
                             asum := st.asum + ai * (1 - st.x e),
                             free_heap := QPmaxheap_delete st.free_heap st.breakpts }
        if st1.free_heap.length = 0 then { st1 with a2sum := 0 } else freeLoopW f fuel st1
      else st

/-- The guarded free-heap update (`if (n_free > 0)` with the
`a == NULL` / `a != NULL` branch split). -/
def freePhase (st : NapState) : NapState :=
  if st.free_heap.length = 0 then st
  else
    match st.a with
    | none => freeLoopN st.free_heap.length st
    | some f => freeLoopW f st.free_heap.length st

/-- The bound-heap pop loop, `a == NULL` branch: while the top breakpoint is
`>= lambda`, promote the top coordinate to the free set with its new
breakpoint `x[e] - 1`. -/
def boundLoopN : Nat → NapState → NapState
  | 0, st => st
  | fuel + 1, st =>
    match st.bound_heap with
    | [] => st
    | _ :: _ =>
      let e := hget st.bound_heap 1
      if st.lambda ≤ st.breakpts e then
        let bp1 := upd st.breakpts e (st.x e - 1)
        let st1 := { st with bound_heap := QPmaxheap_delete st.bound_heap st.breakpts,
                             a2sum := st.a2sum + 1,
                             asum := st.asum + st.x e,
                             breakpts := bp1,
                             free_heap := QPmaxheap_add e st.free_heap bp1 }
        if st1.bound_heap.length = 0 then st1 else boundLoopN fuel st1
      else st

/-- The bound-heap pop loop, weighted branch (new breakpoint
`(x[e] - 1) / a[e]`). -/
def boundLoopW (f : Nat → ℚ) : Nat → NapState → NapState
  | 0, st => st
  | fuel + 1, st =>
    match st.bound_heap with
    | [] => st
    | _ :: _ =>
      let e := hget st.bound_heap 1
      if st.lambda ≤ st.breakpts e then
        let ai := f e
        let bp1 := upd st.breakpts e ((st.x e - 1) / ai)
        let st1 := { st with bound_heap := QPmaxheap_delete st.bound_heap st.breakpts,
                             a2sum := st.a2sum + ai * ai,
                             asum := st.asum + ai * st.x e,
                             breakpts := bp1,
                             free_heap := QPmaxheap_add e st.free_heap bp1 }
        if st1.bound_heap.length = 0 then st1 else boundLoopW f fuel st1
      else st

/-- The guarded bound-heap update. -/
def boundPhase (st : NapState) : NapState :=
  if st.bound_heap.length = 0 then st
  else
    match st.a with
    | none => boundLoopN st.bound_heap.length st
    | some f => boundLoopW f st.bound_heap.length st

/-- Reread the biggest entry of each heap at the end of a round
(`-INFINITY` when a heap is empty). -/
def refreshMaxes (st : NapState) : NapState :=
  { st with
      maxfree := if 0 < st.free_heap.length then some (st.breakpts (hget st.free_heap 1)) else none,
      maxbound := if 0 < st.bound_heap.length then some (st.breakpts (hget st.bound_heap 1)) else none }

/-- The body of one sweep round after the exit test: set
`lambda = new_break`, build the heaps on the first round, run the two pop
loops, and reread the heap tops.  When both maxima are `-INFINITY` the
round would have exited; the state is returned unchanged. -/
def roundBody (first : Bool) (st : NapState) : NapState :=
  match omax2 st.maxfree st.maxbound with
  | none => st
  | some nbv =>
    let st1 := { st with lambda := nbv }
    let st2 := if first then buildHeaps st1 else st1
    refreshMaxes (boundPhase (freePhase st2))

/-- The sweep: up to `fuel` rounds of exit test plus round body.  `none`
models falling out of the `for (k = 1; k <= maxsteps; k++)` loop, i.e.
reaching the `ASSERT(false)` after it. -/
def napLoop : Nat → Bool → NapState → Option ℚ
  | 0, _, _ => none
  | fuel + 1, first, st =>
    match checkExit st with
    | some r => some r
    | none => napLoop fuel false (roundBody first st)

/-- `QPnapdown`: the partition pass followed by at most `2n + 1` sweep
rounds.  Returns `some lambda` on normal exit and `none` on invariant
exhaustion (the fatal assertion). -/
def QPnapdown (x : Nat → ℚ) (n : Nat) (lambda : ℚ) (a : Option (Nat → ℚ)) (b : ℚ)
    (bp0 : Nat → ℚ) : Option ℚ :=
  napLoop (2 * n + 1) true (partitionPass x n lambda a b bp0)

/-- The state at the start of sweep round `k + 1` (round numbering of the C
code: `stateAtRound st0 k` is the state after `k` completed round bodies;
the heaps are built during the first round body). -/
def stateAtRound (st0 : NapState) : Nat → NapState
  | 0 => st0
  | k + 1 => roundBody (k == 0) (stateAtRound st0 k)

/-! ## Specification-side views of the state -/

/-- The breakpoint a free coordinate must carry: `(x_i - 1) / a_i`
(`x_i - 1` in the unweighted branch). -/
def bpF (x : Nat → ℚ) (a : Option (Nat → ℚ)) (i : Nat) : ℚ :=
  match a with
  | none => x i - 1
  | some f => (x i - 1) / f i

/-- The breakpoint a bound-low coordinate must carry: `x_i / a_i`
(`x_i` in the unweighted branch). -/
def bpB (x : Nat → ℚ) (a : Option (Nat → ℚ)) (i : Nat) : ℚ :=
  match a with
  | none => x i
  | some f => x i / f i

/-- Sum of `f` over a multiset of coordinates. -/
def msum (s : Multiset Nat) (f : Nat → ℚ) : ℚ := (s.map f).sum

/-- The bound-high set: the coordinates of `0 ≤ i < n` in neither heap. -/
def highs (st : NapState) : Finset Nat :=
  (Finset.range st.n).filter (fun i => i ∉ st.free_heap ∧ i ∉ st.bound_heap)

/-- The from-scratch value of `asum`: the weighted key sum of the free
coordinates plus the weight sum of the bound-high coordinates. -/
def asumSpec (st : NapState) : ℚ :=
  msum (st.free_heap : Multiset Nat) (fun i => st.x i * aw st.a i) + ∑ i ∈ highs st, aw st.a i

/-- The from-scratch value of `a2sum`: the sum of squared weights of the
free coordinates. -/
def a2sumSpec (st : NapState) : ℚ :=
  msum (st.free_heap : Multiset Nat) (fun i => aw st.a i * aw st.a i)

/-- Structural well-formedness of the live heap regions: no duplicates, the
two heaps are disjoint, and every live index is a valid coordinate. -/
def WFst (st : NapState) : Prop :=
  st.free_heap.Nodup ∧ st.bound_heap.Nodup ∧
  (∀ i ∈ st.free_heap, i ∉ st.bound_heap) ∧
  (∀ i ∈ st.free_heap, i < st.n) ∧ (∀ i ∈ st.bound_heap, i < st.n)

/-- The running aggregates agree with their from-scratch recomputation. -/
def AggInv (st : NapState) : Prop :=
  st.asum = asumSpec st ∧ st.a2sum = a2sumSpec st

/-- Every live heap member carries the breakpoint of its set. -/
def BpInv (st : NapState) : Prop :=
  (∀ i ∈ st.free_heap, st.breakpts i = bpF st.x st.a i) ∧
  (∀ i ∈ st.bound_heap, st.breakpts i = bpB st.x st.a i)

/-- Maximum of a list of rationals (`none` for the empty list, playing the
role of `-INFINITY`). -/
def listMaxQ : List ℚ → Option ℚ
  | [] => none
  | v :: t =>
    some (match listMaxQ t with
          | none => v
          | some w => max v w)

/-- The tracked maxima are the true maxima of the heap members'
breakpoints. -/
def MaxInv (st : NapState) : Prop :=
  st.maxfree = listMaxQ (st.free_heap.map st.breakpts) ∧
  st.maxbound = listMaxQ (st.bound_heap.map st.breakpts)

/-- Both work arrays are in heap order (holds from the first-round build
on). -/
def HeapInv (st : NapState) : Prop :=
  heapOrdC cMax st.breakpts st.free_heap ∧ heapOrdC cMax st.breakpts st.bound_heap

/-- The bookkeeping invariant carried by every reachable state. -/
def Inv (st : NapState) : Prop := WFst st ∧ BpInv st ∧ AggInv st ∧ MaxInv st

/-- The regime invariant of the downward sweep at multiplier `lambda`:
free coordinates have not passed their lower bound, bound-high coordinates
stay saturated, and every live breakpoint lies strictly below `lambda`. -/
def RegInv (st : NapState) : Prop :=
  (∀ i ∈ st.free_heap, st.lambda * aw st.a i ≤ st.x i) ∧
  (∀ i ∈ highs st, 1 ≤ st.x i - aw st.a i * st.lambda) ∧
  (∀ i ∈ st.free_heap, st.breakpts i < st.lambda) ∧
  (∀ i ∈ st.bound_heap, st.breakpts i < st.lambda)

/-- The slope at the current multiplier has not overshot the target. -/
def SlopeLe (st : NapState) : Prop := sTrue st.x st.a st.n st.lambda ≤ st.b

/-- Positivity of the state's weight vector on valid coordinates. -/
def PosSt (st : NapState) : Prop := PosA st.a st.n

/-- The termination potential of the sweep: a bound-low coordinate can move
twice (to free, then to bound-high), a free coordinate once. -/
def phi (st : NapState) : Nat := 2 * st.bound_heap.length + st.free_heap.length

/-! ## Further specification-side views -/

/-- The classification value `x_i - a_i * lambda` of the partition pass. -/
def xiOf (x : Nat → ℚ) (a : Option (Nat → ℚ)) (lam : ℚ) (i : Nat) : ℚ :=
  x i - aw a i * lam

/-- Contribution of coordinate `i` to `asum` in the partition pass. -/
def pContrib (x : Nat → ℚ) (a : Option (Nat → ℚ)) (lam : ℚ) (i : Nat) : ℚ :=
  if xiOf x a lam i < 0 then 0
  else if xiOf x a lam i < 1 then x i * aw a i
  else aw a i

/-- Contribution of coordinate `i` to `a2sum` in the partition pass. -/
def pContrib2 (x : Nat → ℚ) (a : Option (Nat → ℚ)) (lam : ℚ) (i : Nat) : ℚ :=
  if xiOf x a lam i < 0 then 0
  else if xiOf x a lam i < 1 then aw a i * aw a i
  else 0

/-! ## A division-checked copy of the routine (for the no-division-by-zero
property).  `cdiv` fails precisely on a zero denominator; the checked
functions mirror the real ones, replacing every C division by `cdiv`. -/

/-- Checked division: `none` exactly when the denominator is zero. -/
def cdiv (u v : ℚ) : Option ℚ := if v = 0 then none else some (u / v)

/-- Checked partition step (divisions occur only in the weighted branch). -/
def partStepC (st : NapState) (i : Nat) : Option NapState :=
  match st.a with
  | none => some (partStep st i)
  | some f =>
    let ai := f i
    let xi := st.x i - ai * st.lambda
    if xi < 0 then
      (cdiv (st.x i) ai).map (fun t =>
        { st with bound_heap := st.bound_heap ++ [i],
                  maxbound := omax st.maxbound t,
                  breakpts := upd st.breakpts i t })
    else if xi < 1 then
      (cdiv (st.x i - 1) ai).map (fun t =>
        { st with free_heap := st.free_heap ++ [i],
                  asum := st.asum + st.x i * ai,
                  a2sum := st.a2sum + ai * ai,
                  maxfree := omax st.maxfree t,
                  breakpts := upd st.breakpts i t })
    else
      some { st with asum := st.asum + ai }

/-- Checked partition pass. -/
def partitionPassC (x : Nat → ℚ) (n : Nat) (lam : ℚ) (a : Option (Nat → ℚ)) (b : ℚ)
    (bp0 : Nat → ℚ) : Option NapState :=
  (List.range n).foldl (fun ost i => ost.bind (fun st => partStepC st i))
    (some (initState x n lam a b bp0))

/-- Checked closed-form step: the division is guarded by `a2sum != 0`. -/
def exitLambdaC (st : NapState) : Option ℚ :=
  if st.a2sum ≠ 0 then cdiv (st.asum - st.b) st.a2sum else some st.lambda

/-- Checked exit test. -/
def checkExitC (st : NapState) : Option (Option ℚ) :=
  match omax2 st.maxfree st.maxbound with
  | none => (exitLambdaC st).map some
  | some nbv =>
    if st.b ≤ st.asum - nbv * st.a2sum then (exitLambdaC st).map some
    else some none

/-- Checked weighted bound-heap loop. -/
def boundLoopWC (f : Nat → ℚ) : Nat → NapState → Option NapState
  | 0, st => some st
  | fuel + 1, st =>
    match st.bound_heap with
    | [] => some st
    | _ :: _ =>
      let e := hget st.bound_heap 1
      if st.lambda ≤ st.breakpts e then
        let ai := f e
        (cdiv (st.x e - 1) ai).bind (fun t =>
          let bp1 := upd st.breakpts e t
          let st1 := { st with bound_heap := QPmaxheap_delete st.bound_heap st.breakpts,
                               a2sum := st.a2sum + ai * ai,
                               asum := st.asum + ai * st.x e,
                               breakpts := bp1,
                               free_heap := QPmaxheap_add e st.free_heap bp1 }
          if st1.bound_heap.length = 0 then some st1 else boundLoopWC f fuel st1)
      else some st

/-- Checked bound phase (the unweighted branch has no division). -/
def boundPhaseC (st : NapState) : Option NapState :=
  if st.bound_heap.length = 0 then some st
  else
    match st.a with
    | none => some (boundLoopN st.bound_heap.length st)
    | some f => boundLoopWC f st.bound_heap.length st

/-- Checked round body (the free phase performs no division). -/
def roundBodyC (first : Bool) (st : NapState) : Option NapState :=
  match omax2 st.maxfree st.maxbound with
  | none => some st
  | some nbv =>
    let st1 := { st with lambda := nbv }
    let st2 := if first then buildHeaps st1 else st1
    (boundPhaseC (freePhase st2)).map refreshMaxes

/-- Checked sweep. -/
def napLoopC : Nat → Bool → NapState → Option (Option ℚ)
  | 0, _, _ => some none
  | fuel + 1, first, st =>
    (checkExitC st).bind (fun r =>
      match r with
      | some v => some (some v)
      | none => (roundBodyC first st).bind (napLoopC fuel false))

/-- Checked `QPnapdown`: `none` means some C division `u / v` was reached
with `v == 0`. -/
def QPnapdownC (x : Nat → ℚ) (n : Nat) (lambda : ℚ) (a : Option (Nat → ℚ)) (b : ℚ)
    (bp0 : Nat → ℚ) : Option (Option ℚ) :=
  (partitionPassC x n lambda a b bp0).bind (napLoopC (2 * n + 1) true)

/-! ## Toolkit: 1-based slot access and swaps -/

theorem hget_cons_one (a : Nat) (l : List Nat) : hget (a :: l) 1 = a := rfl

theorem hget_eq_getElem (h : List Nat) (p : Nat) (h1 : 1 ≤ p) (h2 : p ≤ h.length) :
    hget h p = h.get ⟨p - 1, by omega⟩ := by
  unfold hget
  rw [List.getD_eq_getElem h 0 (by omega : p - 1 < h.length)]
  simp [List.get_eq_getElem]

theorem hget_mem (h : List Nat) (p : Nat) (h1 : 1 ≤ p) (h2 : p ≤ h.length) :
    hget h p ∈ h := by
  rw [hget_eq_getElem h p h1 h2]
  exact List.get_mem _ _ _

@[simp] theorem length_hswap (h : List Nat) (p q : Nat) :
    (hswap h p q).length = h.length := by
  simp [hswap]

theorem hget_hswap_fst (h : List Nat) (p q : Nat) (h1 : 1 ≤ p) (h2 : p ≤ h.length) :
    hget (hswap h p q) p = hget h q := by
  unfold hswap hget
  rcases eq_or_ne (q - 1) (p - 1) with hqp | hqp
  · rw [hqp]
    rw [List.getD_eq_getElem?_getD, List.getElem?_set_self (by simp; omega), Option.getD_some]
  · rw [List.getD_eq_getElem?_getD, List.getElem?_set_ne hqp,
      List.getElem?_set_self (by omega), Option.getD_some]

theorem hget_hswap_snd (h : List Nat) (p q : Nat) (h1 : 1 ≤ q) (h2 : q ≤ h.length) :
    hget (hswap h p q) q = hget h p := by
  unfold hswap hget
  rw [List.getD_eq_getElem?_getD, List.getElem?_set_self (by simp; omega), Option.getD_some]

theorem hget_hswap_other (h : List Nat) (p q r : Nat) (hr1 : 1 ≤ r)
    (hrp : r ≠ p) (hrq : r ≠ q) (hp1 : 1 ≤ p) (hq1 : 1 ≤ q) :
    hget (hswap h p q) r = hget h r := by
  unfold hswap hget
  rw [List.getD_eq_getElem?_getD, List.getElem?_set_ne (by omega),
    List.getElem?_set_ne (by omega), ← List.getD_eq_getElem?_getD]

theorem getD_cons_set_perm :
    ∀ (t : List Nat) (k : Nat) (a : Nat), k < t.length →
      (t.getD k 0 :: t.set k a).Perm (a :: t) := by
  intro t
  induction t with
  | nil => intro k a hk; simp at hk
  | cons b t ih =>
    intro k a hk
    match k with
    | 0 => simpa using List.Perm.swap a b t
    | k + 1 =>
      simp only [List.getD_cons_succ, List.set_cons_succ]
      have h1 : (t.getD k 0 :: b :: t.set k a).Perm (b :: t.getD k 0 :: t.set k a) :=
        List.Perm.swap b (t.getD k 0) _
      have h2 : (b :: t.getD k 0 :: t.set k a).Perm (b :: a :: t) :=
        (ih k a (by simpa using hk)).cons b
      exact h1.trans (h2.trans (List.Perm.swap a b t))

theorem set_set_perm :
    ∀ (l : List Nat) (i j : Nat), i < j → j < l.length →
      ((l.set i (l.getD j 0)).set j (l.getD i 0)).Perm l := by
  intro l i
  induction i generalizing l with
  | zero =>
    intro j hij hj
    match l, j with
    | b :: t, j' + 1 =>
      simp only [List.getD_cons_succ, List.set_cons_succ, List.getD_cons_zero,
        List.set_cons_zero]
      exact getD_cons_set_perm t j' b (by simpa using hj)
  | succ i ih =>
    intro j hij hj
    match l, j with
    | b :: t, j' + 1 =>
      simp only [List.getD_cons_succ, List.set_cons_succ]
      exact (ih t j' (by omega) (by simpa using hj)).cons b

theorem hswap_perm (h : List Nat) (p q : Nat) (hp1 : 1 ≤ p) (hq1 : 1 ≤ q)
    (hp2 : p ≤ h.length) (hq2 : q ≤ h.length) (hpq : p ≠ q) : (hswap h p q).Perm h := by
  rcases Nat.lt_or_ge p q with hlt | hge
  · exact set_set_perm h (p - 1) (q - 1) (by omega) (by omega)
  · have hqp : q < p := by omega
    unfold hswap
    rw [List.set_comm _ _ _ (by omega : p - 1 ≠ q - 1)]
    exact set_set_perm h (q - 1) (p - 1) (by omega) (by omega)

/-! ## Heap verification: shape lemmas -/

theorem heapOrdC_def (c : ℚ → ℚ → Bool) (x : Nat → ℚ) (h : List Nat) :
    heapOrdC c x h ↔
      ∀ q, 2 ≤ q → q ≤ h.length → c (x (hget h q)) (x (hget h (q / 2))) = false := by
  unfold heapOrdC
  constructor
  · intro hh q h2 hl; exact hh q (Finset.mem_Icc.mpr ⟨h2, hl⟩)
  · intro hh q hq; exact hh q (Finset.mem_Icc.mp hq).1 (Finset.mem_Icc.mp hq).2

theorem bestc_ge (c : ℚ → ℚ → Bool) (x : Nat → ℚ) (h : List Nat) (p : Nat) :
    2 * p ≤ bestc c x h p := by
  unfold bestc; split <;> omega

theorem bestc_le2 (c : ℚ → ℚ → Bool) (x : Nat → ℚ) (h : List Nat) (p : Nat) :
    bestc c x h p ≤ 2 * p + 1 := by
  unfold bestc; split <;> omega

theorem bestc_le (c : ℚ → ℚ → Bool) (x : Nat → ℚ) (h : List Nat) (p : Nat)
    (hl : 2 * p ≤ h.length) : bestc c x h p ≤ h.length := by
  unfold bestc; split
  · next hcond =>
    have h1 : 2 * p + 1 ≤ h.length :=
      of_decide_eq_true ((Bool.and_eq_true _ _).mp hcond).1
    omega
  · exact hl

theorem bestc_div2 (c : ℚ → ℚ → Bool) (x : Nat → ℚ) (h : List Nat) (p : Nat) :
    bestc c x h p / 2 = p := by
  have h1 := bestc_ge c x h p
  have h2 := bestc_le2 c x h p
  omega

/-- The best child is no worse than any other child of `p`. -/
theorem bestc_other (c : ℚ → ℚ → Bool) (x : Nat → ℚ)
    (hA : ∀ u v, c u v = true → c v u = false) (h : List Nat) (p : Nat)
    (q : Nat) (hql : q ≤ h.length) (hqc : q / 2 = p) :
    q = bestc c x h p ∨ c (x (hget h q)) (x (hget h (bestc c x h p))) = false := by
  have hq : q = 2 * p ∨ q = 2 * p + 1 := by omega
  unfold bestc
  split
  · next hcond =>
    rcases hq with rfl | rfl
    · right
      have hc := ((Bool.and_eq_true _ _).mp hcond).2
      exact hA _ _ hc
    · left; rfl
  · next hcond =>
    rcases hq with rfl | rfl
    · left; rfl
    · right
      rw [Bool.and_eq_true] at hcond
      push_neg at hcond
      by_cases hle : 2 * p + 1 ≤ h.length
      · have := hcond (by simpa using hle)
        simpa using this
      · omega

theorem heapifyF_length (c : ℚ → ℚ → Bool) (x : Nat → ℚ) :
    ∀ (fuel p : Nat) (h : List Nat), (heapifyF c x fuel p h).length = h.length := by
  intro fuel
  induction fuel with
  | zero => intro p h; rfl
  | succ fuel ih =>
    intro p h
    match p with
    | 0 => rfl
    | p + 1 =>
      simp only [heapifyF]
      split
      · split
        · rw [ih]; simp
        · rfl
      · rfl

theorem heapifyF_perm (c : ℚ → ℚ → Bool) (x : Nat → ℚ) :
    ∀ (fuel p : Nat) (h : List Nat), 1 ≤ p → (heapifyF c x fuel p h).Perm h := by
  intro fuel
  induction fuel with
  | zero => intro p h _; exact List.Perm.refl h
  | succ fuel ih =>
    intro p h hp
    match p with
    | p + 1 =>
      simp only [heapifyF]
      split
      · next hl =>
        split
        · next hc =>
          have hb1 := bestc_ge c x h (p + 1)
          have hb3 := bestc_le c x h (p + 1) hl
          exact (ih _ _ (by omega)).trans
            (hswap_perm h (p + 1) (bestc c x h (p + 1)) (by omega) (by omega) (by omega)
              (by omega) (by omega))
        · exact List.Perm.refl h
      · exact List.Perm.refl h

theorem heapify_length (c : ℚ → ℚ → Bool) (x : Nat → ℚ) (p : Nat) (h : List Nat) :
    (heapify c x p h).length = h.length := heapifyF_length c x _ p h

theorem heapify_perm (c : ℚ → ℚ → Bool) (x : Nat → ℚ) (p : Nat) (h : List Nat)
    (hp : 1 ≤ p) : (heapify c x p h).Perm h := heapifyF_perm c x _ p h hp

theorem siftUpF_length (c : ℚ → ℚ → Bool) (x : Nat → ℚ) :
    ∀ (fuel p : Nat) (h : List Nat), (siftUpF c x fuel p h).length = h.length := by
  intro fuel
  induction fuel with
  | zero => intro p h; rfl
  | succ fuel ih =>
    intro p h
    simp only [siftUpF]
    split
    · rfl
    · split
      · rw [ih]; simp
      · rfl

theorem siftUpF_perm (c : ℚ → ℚ → Bool) (x : Nat → ℚ) :
    ∀ (fuel p : Nat) (h : List Nat), p ≤ h.length → (siftUpF c x fuel p h).Perm h := by
  intro fuel
  induction fuel with
  | zero => intro p h _; exact List.Perm.refl h
  | succ fuel ih =>
    intro p h hp
    simp only [siftUpF]
    split
    · exact List.Perm.refl h
    · next hp1 =>
      split
      · have hp2 : 2 ≤ p := by omega
        refine (ih _ _ ?_).trans
          (hswap_perm h p (p / 2) (by omega) (by omega) (by omega) (by omega) (by omega))
        simp; omega
      · exact List.Perm.refl h

/-! ## Heap verification: order correctness of sift-down -/

/-- Correctness of the fuelled sift-down, relative to a mask root `p0`:
if every edge with parent in `[p0, ∞) \ {p}` is in order, and (when the
sift has already moved below `p0`) the children of `p` are dominated by the
parent of `p`, then after sifting every edge with parent `≥ p0` is in
order.  Instantiated with `p0 = p` for `build` and `p0 = p = 1` for
`deleteTop`. -/
theorem heapifyF_ord (c : ℚ → ℚ → Bool) (x : Nat → ℚ)
    (hA : ∀ u v, c u v = true → c v u = false)
    (hT : ∀ u v w, c u v = false → c v w = false → c u w = false)
    (p0 : Nat) (hp0 : 1 ≤ p0) :
    ∀ (fuel p : Nat) (h : List Nat), p0 ≤ p → h.length < p * 2 ^ fuel →
    (∀ q, 2 ≤ q → q ≤ h.length → p0 ≤ q / 2 → q / 2 ≠ p →
      c (x (hget h q)) (x (hget h (q / 2))) = false) →
    (p ≠ p0 → p0 ≤ p / 2 ∧ (∀ q, 2 ≤ q → q ≤ h.length → q / 2 = p →
      c (x (hget h q)) (x (hget h (p / 2))) = false)) →
    ∀ q, 2 ≤ q → q ≤ (heapifyF c x fuel p h).length → p0 ≤ q / 2 →
      c (x (hget (heapifyF c x fuel p h) q)) (x (hget (heapifyF c x fuel p h) (q / 2))) = false := by
  intro fuel
  induction fuel with
  | zero =>
    intro p h hpp0 hfuel pre1 _ q hq2 hqlen hqp0
    rw [pow_zero, Nat.mul_one] at hfuel
    simp only [heapifyF] at hqlen ⊢
    rcases eq_or_ne (q / 2) p with hqp | hqp
    · omega
    · exact pre1 q hq2 hqlen hqp0 hqp
  | succ fuel ih =>
    intro p h hpp0 hfuel pre1 pre2 q hq2 hqlen hqp0
    obtain ⟨p, rfl⟩ : ∃ p', p = p' + 1 := ⟨p - 1, by omega⟩
    set P := p + 1 with hP
    rw [heapifyF] at hqlen ⊢
    by_cases hl : 2 * P ≤ h.length
    · simp only [if_pos hl] at hqlen ⊢
      set B := bestc c x h P with hB
      have hb1 : 2 * P ≤ B := bestc_ge c x h P
      have hb2 : B ≤ 2 * P + 1 := bestc_le2 c x h P
      have hb3 : B ≤ h.length := bestc_le c x h P hl
      by_cases hcb : c (x (hget h B)) (x (hget h P)) = true
      · simp only [if_pos hcb] at hqlen ⊢
        -- recurse at the best child after the swap
        have hlen' : (hswap h P B).length = h.length := length_hswap h P B
        have hPB : P ≠ B := by omega
        have hgP : hget (hswap h P B) P = hget h B := hget_hswap_fst h P B (by omega) (by omega)
        have hgB : hget (hswap h P B) B = hget h P := hget_hswap_snd h P B (by omega) (by omega)
        refine ih B (hswap h P B) (by omega) ?_ ?_ ?_ q hq2 hqlen hqp0
        · rw [hlen']
          calc h.length < P * 2 ^ (fuel + 1) := hfuel
            _ = 2 * P * 2 ^ fuel := by ring
            _ ≤ B * 2 ^ fuel := Nat.mul_le_mul_right _ hb1
        · -- pre1 for the recursive call
          intro r hr2 hrlen hrp0 hrB
          rw [hlen'] at hrlen
          rcases eq_or_ne (r / 2) P with hrP | hrP
          · -- r is a child of P
            rcases eq_or_ne r B with rfl | hrB'
            · rw [hgB, hrP, hgP]
              exact hA _ _ hcb
            · have hgr : hget (hswap h P B) r = hget h r :=
                hget_hswap_other h P B r (by omega) (by omega) hrB' (by omega) (by omega)
              rw [hgr, hrP, hgP]
              rcases bestc_other c x hA h P r hrlen hrP with heq | hok
              · exact absurd heq hrB'
              · exact hok
          · rcases eq_or_ne r P with rfl | hrP'
            · -- the edge from P up to its parent
              have hPne : P ≠ p0 := by omega
              have hPhalf : P / 2 ≠ P := by omega
              have hPhalfB : P / 2 ≠ B := by omega
              have hgh : hget (hswap h P B) (P / 2) = hget h (P / 2) :=
                hget_hswap_other h P B (P / 2) (by omega) hPhalf hPhalfB (by omega) (by omega)
              rw [hgP, hgh]
              exact (pre2 hPne).2 B (by omega) hb3 (by omega)
            · -- untouched edge
              have hrB'' : r ≠ B := by
                intro hrB3
                apply hrP
                rw [hrB3, hB, bestc_div2]
              have hgr : hget (hswap h P B) r = hget h r :=
                hget_hswap_other h P B r (by omega) hrP' hrB'' (by omega) (by omega)
              have hgr2 : hget (hswap h P B) (r / 2) = hget h (r / 2) :=
                hget_hswap_other h P B (r / 2) (by omega) hrP hrB (by omega) (by omega)
              rw [hgr, hgr2]
              exact pre1 r hr2 hrlen hrp0 hrP
        · -- pre2 for the recursive call
          intro _
          constructor
          · have : B / 2 = P := bestc_div2 c x h P
            omega
          · intro r hr2 hrlen hrB
            rw [hlen'] at hrlen
            have hBdiv : B / 2 = P := bestc_div2 c x h P
            rw [hBdiv, hgP]
            have hrneP : r ≠ P := by omega
            have hrneB : r ≠ B := by omega
            have hgr : hget (hswap h P B) r = hget h r :=
              hget_hswap_other h P B r (by omega) hrneP hrneB (by omega) (by omega)
            rw [hgr, ← hrB]
            exact pre1 r hr2 hrlen (by omega) (by omega)
      · -- the best child does not beat `P`: nothing moves
        simp only [if_neg hcb] at hqlen ⊢
        rcases eq_or_ne (q / 2) P with hqP | hqP
        · rcases bestc_other c x hA h P q hqlen hqP with heq | hok
          · rw [hqP, heq, ← hB]
            exact Bool.not_eq_true _ ▸ (by simpa using hcb)
          · rw [hqP]
            refine hT _ _ _ hok ?_
            simpa using hcb
        · exact pre1 q hq2 hqlen hqp0 hqP
    · simp only [if_neg hl] at hqlen ⊢
      rcases eq_or_ne (q / 2) P with hqP | hqP
      · omega
      · exact pre1 q hq2 hqlen hqp0 hqP
    all_goals (intro hPz; omega)

/-! ## Heap verification: build, delete, insert -/

theorem heapify_at_ord (c : ℚ → ℚ → Bool) (x : Nat → ℚ)
    (hA : ∀ u v, c u v = true → c v u = false)
    (hT : ∀ u v w, c u v = false → c v w = false → c u w = false)
    (p : Nat) (h : List Nat) (hp : 1 ≤ p)
    (pre : ∀ q, 2 ≤ q → q ≤ h.length → p ≤ q / 2 → q / 2 ≠ p →
      c (x (hget h q)) (x (hget h (q / 2))) = false) :
    ∀ q, 2 ≤ q → q ≤ (heapify c x p h).length → p ≤ q / 2 →
      c (x (hget (heapify c x p h) q)) (x (hget (heapify c x p h) (q / 2))) = false := by
  unfold heapify
  refine heapifyF_ord c x hA hT p hp h.length p h le_rfl ?_ pre (fun hc => absurd rfl hc)
  calc h.length < 2 ^ h.length := Nat.lt_two_pow _
    _ ≤ p * 2 ^ h.length := Nat.le_mul_of_pos_left _ hp

theorem heapBuildGo_ord (c : ℚ → ℚ → Bool) (x : Nat → ℚ)
    (hA : ∀ u v, c u v = true → c v u = false)
    (hT : ∀ u v w, c u v = false → c v w = false → c u w = false) :
    ∀ (k : Nat) (h : List Nat),
      (∀ q, 2 ≤ q → q ≤ h.length → k + 1 ≤ q / 2 →
        c (x (hget h q)) (x (hget h (q / 2))) = false) →
      heapOrdC c x (heapBuildGo c x k h) := by
  intro k
  induction k with
  | zero =>
    intro h hh
    rw [heapOrdC_def]
    intro q hq2 hqlen
    exact hh q hq2 hqlen (by omega)
  | succ k ih =>
    intro h hh
    simp only [heapBuildGo]
    refine ih _ ?_
    intro q hq2 hqlen hk
    rw [heapify_length] at hqlen
    rcases eq_or_ne (q / 2) (k + 1) with hq | hq
    · exact heapify_at_ord c x hA hT (k + 1) h (by omega)
        (fun r hr2 hrlen hrk hrne => hh r hr2 hrlen (by omega)) q hq2
        (by rw [heapify_length]; exact hqlen) (by omega)
    · exact heapify_at_ord c x hA hT (k + 1) h (by omega)
        (fun r hr2 hrlen hrk hrne => hh r hr2 hrlen (by omega)) q hq2
        (by rw [heapify_length]; exact hqlen) (by omega)

theorem heapBuild_ord (c : ℚ → ℚ → Bool) (x : Nat → ℚ)
    (hA : ∀ u v, c u v = true → c v u = false)
    (hT : ∀ u v w, c u v = false → c v w = false → c u w = false)
    (h : List Nat) : heapOrdC c x (heapBuild c x h) := by
  unfold heapBuild
  refine heapBuildGo_ord c x hA hT _ h ?_
  intro q hq2 hqlen hk
  have : q / 2 ≤ h.length / 2 := Nat.div_le_div_right hqlen
  omega

theorem heapBuild_perm (c : ℚ → ℚ → Bool) (x : Nat → ℚ) (h : List Nat) :
    (heapBuild c x h).Perm h := by
  unfold heapBuild
  generalize h.length / 2 = k
  induction k generalizing h with
  | zero => exact List.Perm.refl h
  | succ k ih =>
    simp only [heapBuildGo]
    exact (ih _).trans (heapify_perm c x (k + 1) h (by omega))

theorem heapBuild_length (c : ℚ → ℚ → Bool) (x : Nat → ℚ) (h : List Nat) :
    (heapBuild c x h).length = h.length := (heapBuild_perm c x h).length_eq

theorem hget_shrink (h : List Nat) (w : Nat) (r : Nat) (hr2 : 2 ≤ r)
    (hrlen : r ≤ h.length - 1) : hget ((h.set 0 w).dropLast) r = hget h r := by
  unfold hget
  have hlen : (h.set 0 w).length = h.length := by simp
  rw [List.getD_eq_getElem?_getD, List.getD_eq_getElem?_getD]
  have h1 : r - 1 < (h.set 0 w).dropLast.length := by
    simp [List.length_dropLast]; omega
  have h2 : r - 1 < h.length := by
    simp [List.length_dropLast] at h1; omega
  rw [List.getElem?_eq_getElem h1, List.getElem_dropLast,
    List.getElem_set_ne (by omega : (0 : Nat) ≠ r - 1) (by simp; omega),
    List.getElem?_eq_getElem h2]

theorem heapDelete_length (c : ℚ → ℚ → Bool) (x : Nat → ℚ) (h : List Nat) :
    (heapDelete c x h).length = h.length - 1 := by
  unfold heapDelete
  rw [heapify_length]
  simp

theorem heapDelete_ord (c : ℚ → ℚ → Bool) (x : Nat → ℚ)
    (hA : ∀ u v, c u v = true → c v u = false)
    (hT : ∀ u v w, c u v = false → c v w = false → c u w = false)
    (h : List Nat) (hh : heapOrdC c x h) : heapOrdC c x (heapDelete c x h) := by
  rw [heapOrdC_def]
  intro q hq2 hqlen
  unfold heapDelete at hqlen ⊢
  refine heapify_at_ord c x hA hT 1 _ le_rfl ?_ q hq2 hqlen (by omega)
  intro r hr2 hrlen hr1 hrne
  have hrlen' : r ≤ h.length - 1 := by
    simpa [List.length_dropLast] using hrlen
  have hr4 : 4 ≤ r := by omega
  rw [hget_shrink h _ r hr2 hrlen', hget_shrink h _ (r / 2) (by omega) (by omega)]
  exact (heapOrdC_def c x h).mp hh r hr2 (by omega)

theorem heapDelete_ms (c : ℚ → ℚ → Bool) (x : Nat → ℚ) (h : List Nat) (hne : h ≠ []) :
    hget h 1 ::ₘ ((heapDelete c x h : List Nat) : Multiset Nat) = (h : Multiset Nat) := by
  match h with
  | [v] =>
    have : heapDelete c x [v] = [] := rfl
    rw [this]
    rfl
  | v :: w :: t =>
    set h := v :: w :: t with hh
    have htne : (w :: t) ≠ [] := by simp
    have hlast : hget h h.length = (w :: t).getLast htne := by
      rw [hget_eq_getElem h h.length (by simp [hh]) le_rfl]
      rw [List.getLast_eq_getElem]
      simp [hh]
    have hset : h.set 0 (hget h h.length) = hget h h.length :: w :: t := by simp [hh]
    have hdrop : (h.set 0 (hget h h.length)).dropLast
        = hget h h.length :: (w :: t).dropLast := by
      rw [hset]
      exact List.dropLast_cons_of_ne_nil htne
    have hperm : (heapDelete c x h).Perm (hget h h.length :: (w :: t).dropLast) := by
      unfold heapDelete
      rw [hdrop]
      exact heapify_perm c x 1 _ le_rfl
    have hms : ((heapDelete c x h : List Nat) : Multiset Nat)
        = hget h h.length ::ₘ ((w :: t).dropLast : Multiset Nat) := by
      rw [Multiset.cons_coe]
      exact Multiset.coe_eq_coe.mpr hperm
    have hp2 : ((w :: t).getLast htne :: (w :: t).dropLast).Perm (w :: t) := by
      have hps := List.perm_append_singleton ((w :: t).getLast htne) ((w :: t).dropLast)
      rw [List.dropLast_append_getLast htne] at hps
      exact hps.symm
    rw [hms, hget_cons_one, hlast]
    calc v ::ₘ (w :: t).getLast htne ::ₘ ((w :: t).dropLast : Multiset Nat)
        = v ::ₘ (((w :: t).getLast htne :: (w :: t).dropLast : List Nat) : Multiset Nat) := by
          rw [Multiset.cons_coe]
      _ = v ::ₘ ((w :: t : List Nat) : Multiset Nat) := by
          rw [Multiset.coe_eq_coe.mpr hp2]
      _ = _ := by rw [Multiset.cons_coe]

/-- Correctness of the fuelled sift-up: if every edge except the one out of
`p` is in order and the children of `p` are dominated by the parent of `p`,
then after sifting the whole heap is in order. -/
theorem siftUpF_ord (c : ℚ → ℚ → Bool) (x : Nat → ℚ)
    (hA : ∀ u v, c u v = true → c v u = false)
    (hT : ∀ u v w, c u v = false → c v w = false → c u w = false) :
    ∀ (fuel p : Nat) (h : List Nat), 1 ≤ p → p ≤ h.length → p ≤ 2 ^ fuel →
    (∀ q, 2 ≤ q → q ≤ h.length → q ≠ p → c (x (hget h q)) (x (hget h (q / 2))) = false) →
    (2 ≤ p → ∀ r, 2 ≤ r → r ≤ h.length → r / 2 = p →
      c (x (hget h r)) (x (hget h (p / 2))) = false) →
    heapOrdC c x (siftUpF c x fuel p h) := by
  intro fuel
  induction fuel with
  | zero =>
    intro p h hp1 hplen hpfuel inv1 _
    have hp : p = 1 := by simpa using Nat.le_antisymm hpfuel hp1
    subst hp
    simp only [siftUpF]
    rw [heapOrdC_def]
    intro q hq2 hqlen
    exact inv1 q hq2 hqlen (by omega)
  | succ fuel ih =>
    intro p h hp1 hplen hpfuel inv1 inv2
    simp only [siftUpF]
    split
    · next hple =>
      rw [heapOrdC_def]
      intro q hq2 hqlen
      exact inv1 q hq2 hqlen (by omega)
    · next hpgt =>
      have hp2 : 2 ≤ p := by omega
      set par := p / 2 with hpar
      have hpar1 : 1 ≤ par := by omega
      have hparlt : par < p := by omega
      split
      · next hcb =>
        -- `p` beats its parent: swap and continue from the parent
        have hgp : hget (hswap h p par) p = hget h par :=
          hget_hswap_fst h p par (by omega) (by omega)
        have hgpar : hget (hswap h p par) par = hget h p :=
          hget_hswap_snd h p par (by omega) (by omega)
        have hlen' : (hswap h p par).length = h.length := length_hswap h p par
        have hpow : 2 ^ (fuel + 1) = 2 * 2 ^ fuel := by rw [pow_succ]; ring
        refine ih par (hswap h p par) hpar1 (by omega) (by omega) ?_ ?_
        · -- all edges except the one out of `par`
          intro q hq2 hqlen hqpar
          rw [hlen'] at hqlen
          rcases eq_or_ne q p with rfl | hqp
          · -- the edge from the position of `p` up to `par`
            rw [← hpar, hgp, hgpar]
            exact hA _ _ hcb
          · have hgq : hget (hswap h p par) q = hget h q :=
              hget_hswap_other h p par q (by omega) hqp hqpar (by omega) (by omega)
            rcases eq_or_ne (q / 2) par with hq2par | hq2par
            · -- the sibling of `p`
              rw [hgq, hq2par, hgpar]
              exact hT _ _ _ (inv1 q hq2 hqlen hqp) (by rw [hq2par]; exact hA _ _ hcb)
            · rcases eq_or_ne (q / 2) p with hq2p | hq2p
              · -- a child of `p`
                rw [hgq, hq2p, hgp]
                exact inv2 hp2 q hq2 hqlen hq2p
              · -- an untouched edge
                have hgq2 : hget (hswap h p par) (q / 2) = hget h (q / 2) :=
                  hget_hswap_other h p par (q / 2) (by omega) hq2p hq2par (by omega) (by omega)
                rw [hgq, hgq2]
                exact inv1 q hq2 hqlen hqp
        · -- the children of `par` are dominated by the parent of `par`
          intro hpar2 r hr2 hrlen hrpar
          rw [hlen'] at hrlen
          have hgpp : hget (hswap h p par) (par / 2) = hget h (par / 2) :=
            hget_hswap_other h p par (par / 2) (by omega) (by omega) (by omega)
              (by omega) (by omega)
          rcases eq_or_ne r p with rfl | hrp
          · rw [hgp, hgpp]
            exact inv1 par hpar2 (by omega) (by omega)
          · have hgr : hget (hswap h p par) r = hget h r :=
              hget_hswap_other h p par r (by omega) hrp (by omega) (by omega) (by omega)
            rw [hgr, hgpp]
            refine hT _ _ _ ?_ (inv1 par hpar2 (by omega) (by omega))
            have := inv1 r hr2 hrlen hrp
            rw [hrpar] at this
            exact this
      · next hcb =>
        rw [heapOrdC_def]
        intro q hq2 hqlen
        rcases eq_or_ne q p with rfl | hqp
        · simpa using hcb
        · exact inv1 q hq2 hqlen hqp

theorem hget_append (h : List Nat) (i : Nat) (r : Nat) (hr1 : 1 ≤ r) (hr2 : r ≤ h.length) :
    hget (h ++ [i]) r = hget h r := by
  unfold hget
  exact List.getD_append h [i] 0 (r - 1) (by omega)

theorem heapAdd_length (c : ℚ → ℚ → Bool) (x : Nat → ℚ) (i : Nat) (h : List Nat) :
    (heapAdd c x i h).length = h.length + 1 := by
  unfold heapAdd
  rw [siftUpF_length]
  simp

theorem heapAdd_ms (c : ℚ → ℚ → Bool) (x : Nat → ℚ) (i : Nat) (h : List Nat) :
    ((heapAdd c x i h : List Nat) : Multiset Nat) = i ::ₘ (h : Multiset Nat) := by
  unfold heapAdd
  have hperm : (siftUpF c x (h.length + 1) (h.length + 1) (h ++ [i])).Perm (h ++ [i]) :=
    siftUpF_perm c x _ _ _ (by simp)
  rw [Multiset.cons_coe]
  exact Multiset.coe_eq_coe.mpr (hperm.trans (List.perm_append_singleton i h))

theorem heapAdd_ord (c : ℚ → ℚ → Bool) (x : Nat → ℚ)
    (hA : ∀ u v, c u v = true → c v u = false)
    (hT : ∀ u v w, c u v = false → c v w = false → c u w = false)
    (i : Nat) (h : List Nat) (hh : heapOrdC c x h) : heapOrdC c x (heapAdd c x i h) := by
  unfold heapAdd
  refine siftUpF_ord c x hA hT (h.length + 1) (h.length + 1) (h ++ [i]) (by omega)
    (by simp) ?_ ?_ ?_
  · have h1 := Nat.lt_two_pow h.length
    have h2 : (2 : Nat) ^ h.length * 2 = 2 ^ (h.length + 1) := (pow_succ 2 h.length).symm
    omega
  · intro q hq2 hqlen hqp
    have hqlen' : q ≤ h.length := by simp at hqlen; omega
    rw [hget_append h i q (by omega) hqlen', hget_append h i (q / 2) (by omega) (by omega)]
    exact (heapOrdC_def c x h).mp hh q hq2 hqlen'
  · intro _ r hr2 hrlen hrp
    have : r ≥ 2 * (h.length + 1) := by omega
    simp at hrlen
    omega

/-- In a heap, no element beats the root. -/
theorem heapOrd_top (c : ℚ → ℚ → Bool) (x : Nat → ℚ)
    (hT : ∀ u v w, c u v = false → c v w = false → c u w = false)
    (hR : ∀ u, c u u = false)
    (h : List Nat) (hh : heapOrdC c x h) :
    ∀ q, 1 ≤ q → q ≤ h.length → c (x (hget h q)) (x (hget h 1)) = false := by
  intro q
  induction q using Nat.strong_induction_on with
  | _ q ih =>
    intro hq1 hqlen
    rcases eq_or_ne q 1 with rfl | hq
    · exact hR _
    · have hq2 : 2 ≤ q := by omega
      refine hT _ _ _ ((heapOrdC_def c x h).mp hh q hq2 hqlen) ?_
      exact ih (q / 2) (by omega) (by omega) (by omega)

/-- Membership version: the root key dominates every member's key. -/
theorem heapOrd_top_mem (c : ℚ → ℚ → Bool) (x : Nat → ℚ)
    (hT : ∀ u v w, c u v = false → c v w = false → c u w = false)
    (hR : ∀ u, c u u = false)
    (h : List Nat) (hh : heapOrdC c x h) :
    ∀ i ∈ h, c (x i) (x (hget h 1)) = false := by
  intro i hi
  obtain ⟨⟨k, hk⟩, hik⟩ := List.mem_iff_get.mp hi
  have : hget h (k + 1) = i := by
    rw [hget_eq_getElem h (k + 1) (by omega) (by omega)]
    simpa [List.get_eq_getElem] using hik
  rw [← this]
  exact heapOrd_top c x hT hR h hh (k + 1) (by omega) (by omega)

/-! ## The two comparator instances -/

theorem cMax_A : ∀ u v, cMax u v = true → cMax v u = false := by
  intro u v hv
  simp only [cMax, decide_eq_true_eq] at hv
  simp only [cMax, decide_eq_false_iff_not]
  exact not_lt.mpr hv.le

theorem cMax_T : ∀ u v w, cMax u v = false → cMax v w = false → cMax u w = false := by
  intro u v w h1 h2
  simp only [cMax, decide_eq_false_iff_not, not_lt] at h1 h2 ⊢
  exact h1.trans h2

theorem cMax_R : ∀ u, cMax u u = false := by
  intro u; simp [cMax]

theorem cMax_false_iff (u v : ℚ) : cMax u v = false ↔ u ≤ v := by
  simp [cMax, not_lt]

theorem cMax_true_iff (u v : ℚ) : cMax u v = true ↔ v < u := by
  simp [cMax]

theorem cMin_A : ∀ u v, cMin u v = true → cMin v u = false := by
  intro u v hv
  simp only [cMin, decide_eq_true_eq] at hv
  simp only [cMin, decide_eq_false_iff_not]
  exact not_lt.mpr hv.le

theorem cMin_T : ∀ u v w, cMin u v = false → cMin v w = false → cMin u w = false := by
  intro u v w h1 h2
  simp only [cMin, decide_eq_false_iff_not, not_lt] at h1 h2 ⊢
  exact h2.trans h1

theorem cMin_R : ∀ u, cMin u u = false := by
  intro u; simp [cMin]

theorem cMin_false_iff (u v : ℚ) : cMin u v = false ↔ v ≤ u := by
  simp [cMin, not_lt]

/-! ## Utility lemmas: maxima, multiset sums, key congruence -/

theorem listMaxQ_eq_none_iff (l : List ℚ) : listMaxQ l = none ↔ l = [] := by
  cases l with
  | nil => simp [listMaxQ]
  | cons v t => simp [listMaxQ]

theorem listMaxQ_spec : ∀ (l : List ℚ) (v : ℚ), listMaxQ l = some v →
    v ∈ l ∧ ∀ u ∈ l, u ≤ v := by
  intro l
  induction l with
  | nil => intro v hv; simp [listMaxQ] at hv
  | cons w t ih =>
    intro v hv
    simp only [listMaxQ] at hv
    rcases ht : listMaxQ t with _ | m
    · rw [ht] at hv
      rw [listMaxQ_eq_none_iff] at ht
      subst ht
      simp at hv
      simp [hv]
    · rw [ht] at hv
      simp only [Option.some_inj] at hv
      obtain ⟨hm, hub⟩ := ih m ht
      constructor
      · rcases max_choice w m with hc | hc
        · rw [← hv, hc]; exact List.mem_cons_self _ _
        · rw [← hv, hc]; exact List.mem_cons_of_mem _ hm
      · intro u hu
        rcases List.mem_cons.mp hu with rfl | hu
        · rw [← hv]; exact le_max_left _ _
        · rw [← hv]; exact le_trans (hub u hu) (le_max_right _ _)

theorem listMaxQ_of_mem_ub (l : List ℚ) (v : ℚ) (hv : v ∈ l) (hub : ∀ u ∈ l, u ≤ v) :
    listMaxQ l = some v := by
  rcases hl : listMaxQ l with _ | m
  · rw [listMaxQ_eq_none_iff] at hl
    subst hl
    simp at hv
  · obtain ⟨hm, hub'⟩ := listMaxQ_spec l m hl
    have := le_antisymm (hub m hm) (hub' v hv)
    rw [this]

theorem listMaxQ_perm {l l' : List ℚ} (hp : l.Perm l') : listMaxQ l = listMaxQ l' := by
  rcases hl : listMaxQ l with _ | m
  · rw [listMaxQ_eq_none_iff] at hl
    subst hl
    have : l' = [] := hp.symm.eq_nil
    rw [this]
    rfl
  · obtain ⟨hm, hub⟩ := listMaxQ_spec l m hl
    exact (listMaxQ_of_mem_ub l' m (hp.mem_iff.mp hm)
      (fun u hu => hub u (hp.mem_iff.mpr hu))).symm

theorem listMaxQ_append_singleton (l : List ℚ) (t : ℚ) :
    listMaxQ (l ++ [t]) = omax (listMaxQ l) t := by
  rcases hl : listMaxQ l with _ | m
  · rw [listMaxQ_eq_none_iff] at hl
    subst hl
    rfl
  · obtain ⟨hm, hub⟩ := listMaxQ_spec l m hl
    simp only [omax]
    refine listMaxQ_of_mem_ub _ _ ?_ ?_
    · split
      · exact List.mem_append_left _ hm
      · exact List.mem_append_right _ (List.mem_singleton_self t)
    · intro u hu
      rcases List.mem_append.mp hu with hu | hu
      · split
        · exact hub u hu
        · next hc => exact le_trans (hub u hu) (by push_neg at hc; exact hc)
      · rw [List.mem_singleton.mp hu]
        split
        · next hc => exact le_of_lt hc
        · exact le_rfl

theorem omax2_eq_none_iff (m1 m2 : Option ℚ) :
    omax2 m1 m2 = none ↔ m1 = none ∧ m2 = none := by
  cases m1 <;> cases m2 <;> simp [omax2]

/-- The value of `MAX2` dominates both arguments and is one of them. -/
theorem omax2_spec (m1 m2 : Option ℚ) (v : ℚ) (hv : omax2 m1 m2 = some v) :
    (m1 = some v ∨ m2 = some v) ∧
    (∀ w, m1 = some w → w ≤ v) ∧ (∀ w, m2 = some w → w ≤ v) := by
  cases m1 with
  | none =>
    cases m2 with
    | none => simp [omax2] at hv
    | some w2 =>
      simp only [omax2] at hv
      refine ⟨Or.inr hv, ?_, ?_⟩ <;> intro w hw <;> simp_all
  | some w1 =>
    cases m2 with
    | none =>
      simp only [omax2] at hv
      refine ⟨Or.inl hv, ?_, ?_⟩ <;> intro w hw <;> simp_all
    | some w2 =>
      simp only [omax2, Option.some_inj] at hv
      by_cases hc : w2 < w1
      · rw [if_pos hc] at hv
        subst hv
        refine ⟨Or.inl rfl, ?_, ?_⟩ <;> intro w hw <;> simp only [Option.some_inj] at hw
        · exact le_of_eq hw.symm
        · subst hw; exact le_of_lt hc
      · rw [if_neg hc] at hv
        subst hv
        push_neg at hc
        refine ⟨Or.inr rfl, ?_, ?_⟩ <;> intro w hw <;> simp only [Option.some_inj] at hw
        · subst hw; exact hc
        · exact le_of_eq hw.symm

@[simp] theorem msum_zero (f : Nat → ℚ) : msum 0 f = 0 := rfl

theorem msum_cons (e : Nat) (s : Multiset Nat) (f : Nat → ℚ) :
    msum (e ::ₘ s) f = f e + msum s f := by
  simp [msum]

theorem msum_add (s t : Multiset Nat) (f : Nat → ℚ) :
    msum (s + t) f = msum s f + msum t f := by
  simp [msum]

theorem msum_congr (s : Multiset Nat) (f g : Nat → ℚ) (h : ∀ e ∈ s, f e = g e) :
    msum s f = msum s g := by
  unfold msum
  rw [Multiset.map_congr rfl h]

theorem msum_coe (l : List Nat) (f : Nat → ℚ) :
    msum (l : Multiset Nat) f = (l.map f).sum := by
  simp [msum]

theorem msum_nonneg (s : Multiset Nat) (f : Nat → ℚ) (h : ∀ e ∈ s, 0 ≤ f e) :
    0 ≤ msum s f := by
  unfold msum
  refine Multiset.sum_nonneg ?_
  intro q hq
  obtain ⟨e, he, rfl⟩ := Multiset.mem_map.mp hq
  exact h e he

/-- Heap order only depends on the keys of the members. -/
theorem heapOrd_congr (c : ℚ → ℚ → Bool) (bp bp' : Nat → ℚ) (h : List Nat)
    (hk : ∀ i ∈ h, bp' i = bp i) (hh : heapOrdC c bp h) : heapOrdC c bp' h := by
  rw [heapOrdC_def] at hh ⊢
  intro q hq2 hqlen
  rw [hk _ (hget_mem h q (by omega) hqlen), hk _ (hget_mem h (q / 2) (by omega) (by omega))]
  exact hh q hq2 hqlen

/-- In a max-heap the root's key is the maximum of the members' keys. -/
theorem maxheap_top_ub (bp : Nat → ℚ) (h : List Nat) (hh : heapOrdC cMax bp h) :
    ∀ i ∈ h, bp i ≤ bp (hget h 1) := by
  intro i hi
  exact (cMax_false_iff _ _).mp (heapOrd_top_mem cMax bp cMax_T cMax_R h hh i hi)

/-- In a max-heap the list maximum of the keys is the root's key. -/
theorem maxheap_listMaxQ (bp : Nat → ℚ) (h : List Nat) (hne : h ≠ [])
    (hh : heapOrdC cMax bp h) : listMaxQ (h.map bp) = some (bp (hget h 1)) := by
  refine listMaxQ_of_mem_ub _ _ ?_ ?_
  · exact List.mem_map_of_mem bp (hget_mem h 1 le_rfl (by
      cases h with
      | nil => exact absurd rfl hne
      | cons a t => simp))
  · intro u hu
    obtain ⟨i, hi, rfl⟩ := List.mem_map.mp hu
    exact maxheap_top_ub bp h hh i hi

/-! ## The partition pass -/

/-- Normal form of the partition step: both source branches compute the
same classification and updates, written uniformly with the weight view
`aw`. -/
theorem partStep_eq (st : NapState) (i : Nat) :
    partStep st i =
      if xiOf st.x st.a st.lambda i < 0 then
        { st with bound_heap := st.bound_heap ++ [i],
                  maxbound := omax st.maxbound (bpB st.x st.a i),
                  breakpts := upd st.breakpts i (bpB st.x st.a i) }
      else if xiOf st.x st.a st.lambda i < 1 then
        { st with free_heap := st.free_heap ++ [i],
                  asum := st.asum + st.x i * aw st.a i,
                  a2sum := st.a2sum + aw st.a i * aw st.a i,
                  maxfree := omax st.maxfree (bpF st.x st.a i),
                  breakpts := upd st.breakpts i (bpF st.x st.a i) }
      else { st with asum := st.asum + aw st.a i } := by
  cases ha : st.a with
  | none =>
    simp only [partStep, ha, xiOf, aw, bpF, bpB, mul_one, one_mul]
  | some f =>
    simp only [partStep, ha, xiOf, aw, bpF, bpB]

theorem partitionPass_go (x : Nat → ℚ) (a : Option (Nat → ℚ)) (lam b : ℚ) (n : Nat)
    (bp0 : Nat → ℚ) :
    ∀ k, ∀ st, st = (List.range k).foldl partStep (initState x n lam a b bp0) →
      (st.x = x ∧ st.a = a ∧ st.b = b ∧ st.n = n ∧ st.lambda = lam) ∧
      (∀ i, i ∈ st.free_heap ↔ i < k ∧ 0 ≤ xiOf x a lam i ∧ xiOf x a lam i < 1) ∧
      (∀ i, i ∈ st.bound_heap ↔ i < k ∧ xiOf x a lam i < 0) ∧
      (st.free_heap.Nodup ∧ st.bound_heap.Nodup) ∧
      ((∀ i ∈ st.free_heap, st.breakpts i = bpF x a i) ∧
        (∀ i ∈ st.bound_heap, st.breakpts i = bpB x a i)) ∧
      (st.asum = ∑ i ∈ Finset.range k, pContrib x a lam i ∧
        st.a2sum = ∑ i ∈ Finset.range k, pContrib2 x a lam i) ∧
      (st.maxfree = listMaxQ (st.free_heap.map st.breakpts) ∧
        st.maxbound = listMaxQ (st.bound_heap.map st.breakpts)) := by
  intro k
  induction k with
  | zero =>
    intro st hst
    subst hst
    simp [initState, listMaxQ]
  | succ k ih =>
    intro st' hst'
    obtain ⟨⟨hx, ha, hb, hn, hlam⟩, hfmem, hbmem, ⟨hfnd, hbnd⟩, ⟨hfbp, hbbp⟩,
      ⟨hasum, ha2sum⟩, hmaxf, hmaxb⟩ := ih _ rfl
    set st := (List.range k).foldl partStep (initState x n lam a b bp0) with hstdef
    rw [List.range_succ, List.foldl_concat, partStep_eq] at hst'
    rw [hx, ha, hlam] at hst'
    have hknf : k ∉ st.free_heap := fun hc => by have := (hfmem k).mp hc; omega
    have hknb : k ∉ st.bound_heap := fun hc => by have := (hbmem k).mp hc; omega
    by_cases h0 : xiOf x a lam k < 0
    · rw [if_pos h0] at hst'
      subst hst'
      refine ⟨⟨rfl, rfl, hb, hn, rfl⟩, ?_, ?_, ?_, ?_, ?_, ?_⟩
      · intro i
        simp only
        rw [hfmem i]
        constructor
        · rintro ⟨h1, h2, h3⟩; exact ⟨by omega, h2, h3⟩
        · rintro ⟨h1, h2, h3⟩
          refine ⟨?_, h2, h3⟩
          rcases Nat.lt_succ_iff_lt_or_eq.mp h1 with h | rfl
          · exact h
          · exact absurd h0 (not_lt.mpr h2)
      · intro i
        simp only [List.mem_append, List.mem_singleton]
        rw [hbmem i]
        constructor
        · rintro (⟨h1, h2⟩ | rfl)
          · exact ⟨by omega, h2⟩
          · exact ⟨by omega, h0⟩
        · rintro ⟨h1, h2⟩
          rcases Nat.lt_succ_iff_lt_or_eq.mp h1 with h | rfl
          · exact Or.inl ⟨h, h2⟩
          · exact Or.inr rfl
      · constructor
        · simpa using hfnd
        · simp only [List.nodup_append]
          refine ⟨hbnd, List.nodup_singleton k, ?_⟩
          intro v hvB hvk
          rw [List.mem_singleton] at hvk
          subst hvk
          exact hknb hvB
      · constructor
        · intro i hi
          simp only at hi ⊢
          have hik : i ≠ k := by rintro rfl; exact hknf hi
          rw [show upd st.breakpts k (bpB x a k) i = st.breakpts i from if_neg hik]
          exact hfbp i hi
        · intro i hi
          simp only [List.mem_append, List.mem_singleton] at hi
          simp only
          rcases hi with hi | rfl
          · have hik : i ≠ k := by rintro rfl; exact hknb hi
            rw [show upd st.breakpts k (bpB x a k) i = st.breakpts i from if_neg hik]
            exact hbbp i hi
          · exact if_pos rfl
      · constructor
        · simp only
          rw [hasum, Finset.sum_range_succ, pContrib, if_pos h0, add_zero]
        · simp only
          rw [ha2sum, Finset.sum_range_succ, pContrib2, if_pos h0, add_zero]
      · constructor
        · simp only
          rw [hmaxf]
          congr 1
          refine (List.map_congr_left ?_).symm
          intro i hi
          exact if_neg (by rintro rfl; exact hknf hi)
        · simp only
          rw [List.map_append]
          have h1 : List.map (upd st.breakpts k (bpB x a k)) st.bound_heap
              = List.map st.breakpts st.bound_heap :=
            List.map_congr_left (fun i hi => if_neg (by rintro rfl; exact hknb hi))
          have h2 : List.map (upd st.breakpts k (bpB x a k)) [k] = [bpB x a k] := by
            simp [upd]
          rw [h1, h2, listMaxQ_append_singleton, hmaxb]
    · rw [if_neg h0] at hst'
      by_cases h1 : xiOf x a lam k < 1
      · rw [if_pos h1] at hst'
        subst hst'
        refine ⟨⟨rfl, rfl, hb, hn, rfl⟩, ?_, ?_, ?_, ?_, ?_, ?_⟩
        · intro i
          simp only [List.mem_append, List.mem_singleton]
          rw [hfmem i]
          constructor
          · rintro (⟨hi1, hi2, hi3⟩ | rfl)
            · exact ⟨by omega, hi2, hi3⟩
            · exact ⟨by omega, not_lt.mp h0, h1⟩
          · rintro ⟨hi1, hi2, hi3⟩
            rcases Nat.lt_succ_iff_lt_or_eq.mp hi1 with h | rfl
            · exact Or.inl ⟨h, hi2, hi3⟩
            · exact Or.inr rfl
        · intro i
          simp only
          rw [hbmem i]
          constructor
          · rintro ⟨hi1, hi2⟩; exact ⟨by omega, hi2⟩
          · rintro ⟨hi1, hi2⟩
            rcases Nat.lt_succ_iff_lt_or_eq.mp hi1 with h | rfl
            · exact ⟨h, hi2⟩
            · exact absurd hi2 h0
        · constructor
          · simp only [List.nodup_append]
            refine ⟨hfnd, List.nodup_singleton k, ?_⟩
            intro v hvF hvk
            rw [List.mem_singleton] at hvk
            subst hvk
            exact hknf hvF
          · simpa using hbnd
        · constructor
          · intro i hi
            simp only [List.mem_append, List.mem_singleton] at hi
            simp only
            rcases hi with hi | rfl
            · have hik : i ≠ k := by rintro rfl; exact hknf hi
              rw [show upd st.breakpts k (bpF x a k) i = st.breakpts i from if_neg hik]
              exact hfbp i hi
            · exact if_pos rfl
          · intro i hi
            simp only at hi ⊢
            have hik : i ≠ k := by rintro rfl; exact hknb hi
            rw [show upd st.breakpts k (bpF x a k) i = st.breakpts i from if_neg hik]
            exact hbbp i hi
        · constructor
          · simp only
            rw [hasum, Finset.sum_range_succ, pContrib, if_neg h0, if_pos h1]
          · simp only
            rw [ha2sum, Finset.sum_range_succ, pContrib2, if_neg h0, if_pos h1]
        · constructor
          · simp only
            rw [List.map_append]
            have hm1 : List.map (upd st.breakpts k (bpF x a k)) st.free_heap
                = List.map st.breakpts st.free_heap :=
              List.map_congr_left (fun i hi => if_neg (by rintro rfl; exact hknf hi))
            have hm2 : List.map (upd st.breakpts k (bpF x a k)) [k] = [bpF x a k] := by
              simp [upd]
            rw [hm1, hm2, listMaxQ_append_singleton, hmaxf]
          · simp only
            rw [hmaxb]
            congr 1
            refine (List.map_congr_left ?_).symm
            intro i hi
            exact if_neg (by rintro rfl; exact hknb hi)
      · rw [if_neg h1] at hst'
        subst hst'
        refine ⟨⟨rfl, rfl, hb, hn, rfl⟩, ?_, ?_, ⟨hfnd, hbnd⟩, ⟨hfbp, hbbp⟩, ?_,
          hmaxf, hmaxb⟩
        · intro i
          simp only
          rw [hfmem i]
          constructor
          · rintro ⟨hi1, hi2, hi3⟩; exact ⟨by omega, hi2, hi3⟩
          · rintro ⟨hi1, hi2, hi3⟩
            rcases Nat.lt_succ_iff_lt_or_eq.mp hi1 with h | rfl
            · exact ⟨h, hi2, hi3⟩
            · exact absurd hi3 h1
        · intro i
          simp only
          rw [hbmem i]
          constructor
          · rintro ⟨hi1, hi2⟩; exact ⟨by omega, hi2⟩
          · rintro ⟨hi1, hi2⟩
            rcases Nat.lt_succ_iff_lt_or_eq.mp hi1 with h | rfl
            · exact ⟨h, hi2⟩
            · exact absurd hi2 h0
        · constructor
          · simp only
            rw [hasum, Finset.sum_range_succ, pContrib, if_neg h0, if_neg h1]
          · simp only
            rw [ha2sum, Finset.sum_range_succ, pContrib2, if_neg h0, if_neg h1, add_zero]

theorem pContrib_split (x : Nat → ℚ) (a : Option (Nat → ℚ)) (lam : ℚ) (n : Nat) :
    ∑ i ∈ Finset.range n, pContrib x a lam i
      = (∑ i ∈ (Finset.range n).filter
            (fun i => 0 ≤ xiOf x a lam i ∧ xiOf x a lam i < 1), x i * aw a i)
        + ∑ i ∈ (Finset.range n).filter (fun i => 1 ≤ xiOf x a lam i), aw a i := by
  rw [← Finset.sum_filter_add_sum_filter_not (Finset.range n)
    (fun i => xiOf x a lam i < 0) (pContrib x a lam)]
  have h1 : ∑ i ∈ (Finset.range n).filter (fun i => xiOf x a lam i < 0),
      pContrib x a lam i = 0 := by
    refine Finset.sum_eq_zero ?_
    intro i hi
    rw [Finset.mem_filter] at hi
    exact if_pos hi.2
  rw [h1, zero_add]
  rw [← Finset.sum_filter_add_sum_filter_not
    ((Finset.range n).filter (fun i => ¬xiOf x a lam i < 0))
    (fun i => xiOf x a lam i < 1) (pContrib x a lam)]
  congr 1
  · rw [Finset.filter_filter]
    have heq : (Finset.range n).filter (fun i => ¬xiOf x a lam i < 0 ∧ xiOf x a lam i < 1)
        = (Finset.range n).filter (fun i => 0 ≤ xiOf x a lam i ∧ xiOf x a lam i < 1) := by
      refine Finset.filter_congr ?_
      intro i _
      constructor
      · rintro ⟨hh1, hh2⟩; exact ⟨not_lt.mp hh1, hh2⟩
      · rintro ⟨hh1, hh2⟩; exact ⟨not_lt.mpr hh1, hh2⟩
    rw [heq]
    refine Finset.sum_congr rfl ?_
    intro i hi
    rw [Finset.mem_filter] at hi
    unfold pContrib
    rw [if_neg (not_lt.mpr hi.2.1), if_pos hi.2.2]
  · rw [Finset.filter_filter]
    have heq : (Finset.range n).filter (fun i => ¬xiOf x a lam i < 0 ∧ ¬xiOf x a lam i < 1)
        = (Finset.range n).filter (fun i => 1 ≤ xiOf x a lam i) := by
      refine Finset.filter_congr ?_
      intro i _
      constructor
      · rintro ⟨hh1, hh2⟩; exact not_lt.mp hh2
      · intro hh; exact ⟨not_lt.mpr (by linarith), not_lt.mpr (by linarith)⟩
    rw [heq]
    refine Finset.sum_congr rfl ?_
    intro i hi
    rw [Finset.mem_filter] at hi
    unfold pContrib
    rw [if_neg (not_lt.mpr (by linarith [hi.2])), if_neg (not_lt.mpr hi.2)]

theorem pContrib2_split (x : Nat → ℚ) (a : Option (Nat → ℚ)) (lam : ℚ) (n : Nat) :
    ∑ i ∈ Finset.range n, pContrib2 x a lam i
      = ∑ i ∈ (Finset.range n).filter
          (fun i => 0 ≤ xiOf x a lam i ∧ xiOf x a lam i < 1), aw a i * aw a i := by
  rw [← Finset.sum_filter_add_sum_filter_not (Finset.range n)
    (fun i => 0 ≤ xiOf x a lam i ∧ xiOf x a lam i < 1) (pContrib2 x a lam)]
  have h2 : ∑ i ∈ (Finset.range n).filter
      (fun i => ¬(0 ≤ xiOf x a lam i ∧ xiOf x a lam i < 1)), pContrib2 x a lam i = 0 := by
    refine Finset.sum_eq_zero ?_
    intro i hi
    rw [Finset.mem_filter] at hi
    unfold pContrib2
    by_cases hc : xiOf x a lam i < 0
    · exact if_pos hc
    · have hcc : ¬xiOf x a lam i < 1 := fun hc1 => hi.2 ⟨not_lt.mp hc, hc1⟩
      rw [if_neg hc, if_neg hcc]
  rw [h2, add_zero]
  refine Finset.sum_congr rfl ?_
  intro i hi
  rw [Finset.mem_filter] at hi
  unfold pContrib2
  rw [if_neg (not_lt.mpr hi.2.1), if_pos hi.2.2]

/-- The bookkeeping invariant holds right after the partition pass. -/
theorem partitionPass_inv (x : Nat → ℚ) (n : Nat) (lam : ℚ) (a : Option (Nat → ℚ))
    (b : ℚ) (bp0 : Nat → ℚ) : Inv (partitionPass x n lam a b bp0) := by
  obtain ⟨⟨hx, ha, hb, hn, hlam⟩, hfmem, hbmem, ⟨hfnd, hbnd⟩, ⟨hfbp, hbbp⟩,
    ⟨hasum, ha2sum⟩, hmaxf, hmaxb⟩ :=
    partitionPass_go x a lam b n bp0 n (partitionPass x n lam a b bp0) rfl
  set st := partitionPass x n lam a b bp0 with hstdef
  have hFto : st.free_heap.toFinset
      = (Finset.range n).filter (fun i => 0 ≤ xiOf x a lam i ∧ xiOf x a lam i < 1) := by
    ext i
    rw [List.mem_toFinset, hfmem i, Finset.mem_filter, Finset.mem_range]
  have hHto : highs st = (Finset.range n).filter (fun i => 1 ≤ xiOf x a lam i) := by
    unfold highs
    rw [hn]
    ext i
    simp only [Finset.mem_filter, Finset.mem_range]
    constructor
    · rintro ⟨hin, hnf, hnb⟩
      rw [hfmem i] at hnf
      rw [hbmem i] at hnb
      refine ⟨hin, ?_⟩
      by_contra hcon
      push_neg at hcon
      have h0 : 0 ≤ xiOf x a lam i := by
        by_contra h0'
        push_neg at h0'
        exact hnb ⟨hin, h0'⟩
      exact hnf ⟨hin, h0, hcon⟩
    · rintro ⟨hin, h1⟩
      refine ⟨hin, ?_, ?_⟩
      · rw [hfmem i]
        rintro ⟨_, _, hc⟩
        linarith
      · rw [hbmem i]
        rintro ⟨_, hc⟩
        linarith
  refine ⟨⟨hfnd, hbnd, ?_, ?_, ?_⟩, ⟨?_, ?_⟩, ⟨?_, ?_⟩, hmaxf, hmaxb⟩
  · intro i hiF hiB
    have h1 := (hfmem i).mp hiF
    have h2 := (hbmem i).mp hiB
    linarith [h1.2.1, h2.2]
  · intro i hi
    rw [hn]
    exact ((hfmem i).mp hi).1
  · intro i hi
    rw [hn]
    exact ((hbmem i).mp hi).1
  · intro i hi
    rw [hx, ha]
    exact hfbp i hi
  · intro i hi
    rw [hx, ha]
    exact hbbp i hi
  · unfold asumSpec
    rw [hasum, pContrib_split, hx, ha, msum_coe, ← List.sum_toFinset _ hfnd, hFto, hHto]
  · unfold a2sumSpec
    rw [ha2sum, pContrib2_split, ha, msum_coe, ← List.sum_toFinset _ hfnd, hFto]

/-! ## The free-heap pop loop -/

theorem heapOrd_nil (c : ℚ → ℚ → Bool) (bp : Nat → ℚ) : heapOrdC c bp [] := by
  rw [heapOrdC_def]
  intro q h2 hl
  simp at hl
  omega


theorem freeLoopN_spec : ∀ (fuel : Nat) (st : NapState),
    st.free_heap.length ≤ fuel →
    heapOrdC cMax st.breakpts st.free_heap →
    ∃ pop : Multiset Nat,
      ((st.free_heap : Multiset Nat) = pop + ((freeLoopN fuel st).free_heap : Multiset Nat)) ∧
      (∀ e ∈ pop, st.lambda ≤ st.breakpts e) ∧
      ((freeLoopN fuel st).asum = st.asum + msum pop (fun e => 1 - st.x e)) ∧
      ((freeLoopN fuel st).a2sum = st.a2sum - msum pop (fun _ => (1 : ℚ))) ∧
      heapOrdC cMax st.breakpts ((freeLoopN fuel st).free_heap) ∧
      (∀ i ∈ (freeLoopN fuel st).free_heap, st.breakpts i < st.lambda) ∧
      (st.free_heap ≠ [] → st.lambda ≤ st.breakpts (hget st.free_heap 1) → pop ≠ 0) ∧
      ((freeLoopN fuel st).x = st.x ∧ (freeLoopN fuel st).a = st.a ∧
        (freeLoopN fuel st).b = st.b ∧ (freeLoopN fuel st).n = st.n ∧
        (freeLoopN fuel st).lambda = st.lambda ∧
        (freeLoopN fuel st).breakpts = st.breakpts ∧
        (freeLoopN fuel st).bound_heap = st.bound_heap ∧
        (freeLoopN fuel st).maxfree = st.maxfree ∧
        (freeLoopN fuel st).maxbound = st.maxbound) := by
  intro fuel
  induction fuel with
  | zero =>
    intro st hlen hord
    have hF : st.free_heap = [] := List.length_eq_zero.mp (by omega)
    refine ⟨0, by simp [freeLoopN], by simp, by simp [freeLoopN], by simp [freeLoopN],
      by simpa [freeLoopN] using hord, ?_, fun hne _ => absurd hF hne,
      by simp [freeLoopN]⟩
    intro i hi
    simp only [freeLoopN] at hi
    rw [hF] at hi
    simp at hi
  | succ fuel ih =>
    intro st hlen hord
    rcases hF : st.free_heap with _ | ⟨v, t⟩
    · refine ⟨0, ?_, by simp, ?_, ?_, ?_, ?_, fun hne _ => absurd rfl hne, ?_⟩ <;>
        simp only [freeLoopN, hF]
      · simp
      · simp
      · simp
      · exact heapOrd_nil _ _
      · intro i hi
        simp at hi
      · simp
    · rw [hF] at hlen hord
      simp only [freeLoopN, hF]
      by_cases hif : st.lambda ≤ st.breakpts (hget (v :: t) 1)
      · rw [if_pos hif]
        set e := hget (v :: t) 1 with he
        set st1 : NapState :=
          { st with a2sum := st.a2sum - 1,
                    asum := st.asum + (1 - st.x e),
                    free_heap := QPmaxheap_delete (v :: t) st.breakpts } with hst1
        have hms : ((v :: t : List Nat) : Multiset Nat)
            = e ::ₘ (st1.free_heap : Multiset Nat) :=
          (heapDelete_ms cMax st.breakpts (v :: t) (by simp)).symm
        have hord1 : heapOrdC cMax st.breakpts st1.free_heap :=
          heapDelete_ord cMax st.breakpts cMax_A cMax_T (v :: t) hord
        have hlen1 : st1.free_heap.length = (v :: t).length - 1 :=
          heapDelete_length cMax st.breakpts (v :: t)
        by_cases hz : st1.free_heap.length = 0
        · have hF1 : st1.free_heap = [] := List.length_eq_zero.mp hz
          rw [if_pos hz]
          refine ⟨{e}, ?_, ?_, ?_, ?_, hord1, ?_, fun _ _ => by simp, ?_⟩
          · rw [hms, hF1]
            rfl
          · intro e' he'
            rw [Multiset.mem_singleton] at he'
            subst he'
            exact hif
          · show st.asum + (1 - st.x e) = st.asum + msum {e} (fun i => 1 - st.x i)
            rw [show msum {e} (fun i => 1 - st.x i) = 1 - st.x e by simp [msum]]
          · show st.a2sum - 1 = st.a2sum - msum {e} (fun _ => (1 : ℚ))
            rw [show msum {e} (fun _ => (1 : ℚ)) = 1 by simp [msum]]
          · intro i hi
            rw [hF1] at hi
            simp at hi
          · exact ⟨rfl, rfl, rfl, rfl, rfl, rfl, rfl, rfl, rfl⟩
        · rw [if_neg hz]
          obtain ⟨pop1, hp1, hp2, hp3, hp4, hp5, hp6, _, hfr⟩ :=
            ih st1 (by rw [hlen1]; simp at hlen ⊢; omega) hord1
          obtain ⟨hfx, hfa, hfb, hfn, hflam, hfbp, hfbh, hfmf, hfmb⟩ := hfr
          refine ⟨e ::ₘ pop1, ?_, ?_, ?_, ?_, hp5, hp6, fun _ _ => by simp, ?_⟩
          · rw [hms, hp1, Multiset.cons_add]
          · intro e' he'
            rcases Multiset.mem_cons.mp he' with rfl | he'
            · exact hif
            · exact hp2 e' he'
          · rw [hp3, msum_cons]
            show st.asum + (1 - st.x e) + msum pop1 (fun i => 1 - st.x i) = _
            ring
          · rw [hp4, msum_cons]
            show st.a2sum - 1 - msum pop1 (fun _ => (1 : ℚ)) = _
            ring
          · exact ⟨hfx, hfa, hfb, hfn, hflam, hfbp, hfbh, hfmf, hfmb⟩
      · rw [if_neg hif]
        rw [← hF] at hord hif ⊢
        refine ⟨0, by simp, by simp, by simp, by simp, hord, ?_,
          fun _ hc => absurd hc hif, ⟨rfl, rfl, rfl, rfl, rfl, rfl, rfl, rfl, rfl⟩⟩
        intro i hi
        exact lt_of_le_of_lt (maxheap_top_ub st.breakpts st.free_heap hord i hi) (not_le.mp hif)

theorem freeLoopW_spec (f : Nat → ℚ) : ∀ (fuel : Nat) (st : NapState),
    st.free_heap.length ≤ fuel →
    heapOrdC cMax st.breakpts st.free_heap →
    ∃ pop : Multiset Nat,
      ((st.free_heap : Multiset Nat) = pop + ((freeLoopW f fuel st).free_heap : Multiset Nat)) ∧
      (∀ e ∈ pop, st.lambda ≤ st.breakpts e) ∧
      ((freeLoopW f fuel st).asum = st.asum + msum pop (fun e => f e * (1 - st.x e))) ∧
      (((freeLoopW f fuel st).a2sum = st.a2sum - msum pop (fun e => f e * f e)) ∨
        ((freeLoopW f fuel st).free_heap = [] ∧ (freeLoopW f fuel st).a2sum = 0)) ∧
      heapOrdC cMax st.breakpts ((freeLoopW f fuel st).free_heap) ∧
      (∀ i ∈ (freeLoopW f fuel st).free_heap, st.breakpts i < st.lambda) ∧
      (st.free_heap ≠ [] → st.lambda ≤ st.breakpts (hget st.free_heap 1) → pop ≠ 0) ∧
      ((freeLoopW f fuel st).x = st.x ∧ (freeLoopW f fuel st).a = st.a ∧
        (freeLoopW f fuel st).b = st.b ∧ (freeLoopW f fuel st).n = st.n ∧
        (freeLoopW f fuel st).lambda = st.lambda ∧
        (freeLoopW f fuel st).breakpts = st.breakpts ∧
        (freeLoopW f fuel st).bound_heap = st.bound_heap ∧
        (freeLoopW f fuel st).maxfree = st.maxfree ∧
        (freeLoopW f fuel st).maxbound = st.maxbound) := by
  intro fuel
  induction fuel with
  | zero =>
    intro st hlen hord
    have hF : st.free_heap = [] := List.length_eq_zero.mp (by omega)
    refine ⟨0, by simp [freeLoopW], by simp, by simp [freeLoopW],
      Or.inl (by simp [freeLoopW]),
      by simpa [freeLoopW] using hord, ?_, fun hne _ => absurd hF hne,
      by simp [freeLoopW]⟩
    intro i hi
    simp only [freeLoopW] at hi
    rw [hF] at hi
    simp at hi
  | succ fuel ih =>
    intro st hlen hord
    rcases hF : st.free_heap with _ | ⟨v, t⟩
    · refine ⟨0, ?_, by simp, ?_, Or.inl ?_, ?_, ?_, fun hne _ => absurd rfl hne, ?_⟩ <;>
        simp only [freeLoopW, hF]
      · simp
      · simp
      · simp
      · exact heapOrd_nil _ _
      · intro i hi
        simp at hi
      · simp
    · rw [hF] at hlen hord
      simp only [freeLoopW, hF]
      by_cases hif : st.lambda ≤ st.breakpts (hget (v :: t) 1)
      · rw [if_pos hif]
        set e := hget (v :: t) 1 with he
        set st1 : NapState :=
          { st with a2sum := st.a2sum - f e * f e,
                    asum := st.asum + f e * (1 - st.x e),
                    free_heap := QPmaxheap_delete (v :: t) st.breakpts } with hst1
        have hms : ((v :: t : List Nat) : Multiset Nat)
            = e ::ₘ (st1.free_heap : Multiset Nat) :=
          (heapDelete_ms cMax st.breakpts (v :: t) (by simp)).symm
        have hord1 : heapOrdC cMax st.breakpts st1.free_heap :=
          heapDelete_ord cMax st.breakpts cMax_A cMax_T (v :: t) hord
        have hlen1 : st1.free_heap.length = (v :: t).length - 1 :=
          heapDelete_length cMax st.breakpts (v :: t)
        by_cases hz : st1.free_heap.length = 0
        · have hF1 : st1.free_heap = [] := List.length_eq_zero.mp hz
          rw [if_pos hz]
          refine ⟨{e}, ?_, ?_, ?_, Or.inr ⟨hF1, rfl⟩, ?_, ?_, fun _ _ => by simp, ?_⟩
          · rw [hms, hF1]
            rfl
          · intro e' he'
            rw [Multiset.mem_singleton] at he'
            subst he'
            exact hif
          · show st.asum + f e * (1 - st.x e) = st.asum + msum {e} (fun i => f i * (1 - st.x i))
            rw [show msum {e} (fun i => f i * (1 - st.x i)) = f e * (1 - st.x e) by simp [msum]]
          · show heapOrdC cMax st.breakpts st1.free_heap
            exact hord1
          · intro i hi
            have hi' : i ∈ st1.free_heap := hi
            rw [hF1] at hi'
            simp at hi'
          · exact ⟨rfl, rfl, rfl, rfl, rfl, rfl, rfl, rfl, rfl⟩
        · rw [if_neg hz]
          obtain ⟨pop1, hp1, hp2, hp3, hp4, hp5, hp6, _, hfr⟩ :=
            ih st1 (by rw [hlen1]; simp at hlen ⊢; omega) hord1
          obtain ⟨hfx, hfa, hfb, hfn, hflam, hfbp, hfbh, hfmf, hfmb⟩ := hfr
          refine ⟨e ::ₘ pop1, ?_, ?_, ?_, ?_, hp5, hp6, fun _ _ => by simp, ?_⟩
          · rw [hms, hp1, Multiset.cons_add]
          · intro e' he'
            rcases Multiset.mem_cons.mp he' with rfl | he'
            · exact hif
            · exact hp2 e' he'
          · rw [hp3, msum_cons]
            show st.asum + f e * (1 - st.x e) + msum pop1 (fun i => f i * (1 - st.x i)) = _
            ring
          · rcases hp4 with hp4 | hp4
            · refine Or.inl ?_
              rw [hp4, msum_cons]
              show st.a2sum - f e * f e - msum pop1 (fun i => f i * f i) = _
              ring
            · exact Or.inr hp4
          · exact ⟨hfx, hfa, hfb, hfn, hflam, hfbp, hfbh, hfmf, hfmb⟩
      · rw [if_neg hif]
        rw [← hF] at hord hif ⊢
        refine ⟨0, by simp, by simp, by simp, Or.inl (by simp), hord, ?_,
          fun _ hc => absurd hc hif, ⟨rfl, rfl, rfl, rfl, rfl, rfl, rfl, rfl, rfl⟩⟩
        intro i hi
        exact lt_of_le_of_lt (maxheap_top_ub st.breakpts st.free_heap hord i hi) (not_le.mp hif)

/-! ## The bound-heap pop loop -/

theorem boundLoopN_spec : ∀ (fuel : Nat) (st : NapState),
    st.bound_heap.length ≤ fuel →
    heapOrdC cMax st.breakpts st.bound_heap →
    heapOrdC cMax st.breakpts st.free_heap →
    st.bound_heap.Nodup →
    (∀ i ∈ st.bound_heap, i ∉ st.free_heap) →
    ∃ pop : Multiset Nat,
      ((st.bound_heap : Multiset Nat) = pop + ((boundLoopN fuel st).bound_heap : Multiset Nat)) ∧
      (((boundLoopN fuel st).free_heap : Multiset Nat) = pop + (st.free_heap : Multiset Nat)) ∧
      (∀ e ∈ pop, st.lambda ≤ st.breakpts e) ∧
      (∀ j, j ∉ pop → (boundLoopN fuel st).breakpts j = st.breakpts j) ∧
      (∀ e ∈ pop, (boundLoopN fuel st).breakpts e = st.x e - 1) ∧
      ((boundLoopN fuel st).asum = st.asum + msum pop (fun e => st.x e)) ∧
      ((boundLoopN fuel st).a2sum = st.a2sum + msum pop (fun _ => (1 : ℚ))) ∧
      (heapOrdC cMax (boundLoopN fuel st).breakpts (boundLoopN fuel st).bound_heap ∧
        heapOrdC cMax (boundLoopN fuel st).breakpts (boundLoopN fuel st).free_heap) ∧
      (∀ i ∈ (boundLoopN fuel st).bound_heap, (boundLoopN fuel st).breakpts i < st.lambda) ∧
      ((boundLoopN fuel st).bound_heap.Nodup ∧
        (∀ i ∈ (boundLoopN fuel st).bound_heap, i ∉ (boundLoopN fuel st).free_heap)) ∧
      (st.bound_heap ≠ [] → st.lambda ≤ st.breakpts (hget st.bound_heap 1) → pop ≠ 0) ∧
      ((boundLoopN fuel st).x = st.x ∧ (boundLoopN fuel st).a = st.a ∧
        (boundLoopN fuel st).b = st.b ∧ (boundLoopN fuel st).n = st.n ∧
        (boundLoopN fuel st).lambda = st.lambda ∧
        (boundLoopN fuel st).maxfree = st.maxfree ∧
        (boundLoopN fuel st).maxbound = st.maxbound) := by
  intro fuel
  induction fuel with
  | zero =>
    intro st hlen hordB hordF hnd hdj
    have hB : st.bound_heap = [] := List.length_eq_zero.mp (by omega)
    refine ⟨0, by simp [boundLoopN], by simp [boundLoopN], by simp,
      fun j _ => by simp [boundLoopN], by simp, by simp [boundLoopN], by simp [boundLoopN],
      ⟨by simpa [boundLoopN] using hordB, by simpa [boundLoopN] using hordF⟩, ?_,
      ⟨by simpa [boundLoopN] using hnd, by simpa [boundLoopN] using hdj⟩,
      fun hne _ => absurd hB hne, by simp [boundLoopN]⟩
    intro i hi
    simp only [boundLoopN] at hi
    rw [hB] at hi
    simp at hi
  | succ fuel ih =>
    intro st hlen hordB hordF hnd hdj
    rcases hB : st.bound_heap with _ | ⟨v, t⟩
    · have hrun : boundLoopN (fuel + 1) st = st := by
        simp only [boundLoopN, hB]
      rw [hrun]
      refine ⟨0, by simp [hB], by simp, by simp, fun j _ => rfl, by simp, by simp,
        by simp, ⟨hordB, hordF⟩, ?_, ⟨hnd, hdj⟩, fun hne _ => absurd rfl hne,
        ⟨rfl, rfl, rfl, rfl, rfl, rfl, rfl⟩⟩
      intro i hi
      rw [hB] at hi
      simp at hi
    · rw [hB] at hlen hordB hnd
      have hdj' : ∀ i ∈ (v :: t), i ∉ st.free_heap := by
        intro i hi
        exact hdj i (hB ▸ hi)
      simp only [boundLoopN, hB]
      by_cases hif : st.lambda ≤ st.breakpts (hget (v :: t) 1)
      · rw [if_pos hif]
        set e := hget (v :: t) 1 with he
        set bp1 := upd st.breakpts e (st.x e - 1) with hbp1
        set st1 : NapState :=
          { st with bound_heap := QPmaxheap_delete (v :: t) st.breakpts,
                    a2sum := st.a2sum + 1,
                    asum := st.asum + st.x e,
                    breakpts := bp1,
                    free_heap := QPmaxheap_add e st.free_heap bp1 } with hst1
        have heB : e ∈ (v :: t) := hget_mem (v :: t) 1 le_rfl (by simp)
        have hmsB : ((v :: t : List Nat) : Multiset Nat)
            = e ::ₘ (st1.bound_heap : Multiset Nat) :=
          (heapDelete_ms cMax st.breakpts (v :: t) (by simp)).symm
        have hndB1 : e ∉ (st1.bound_heap : Multiset Nat) ∧ (st1.bound_heap : Multiset Nat).Nodup := by
          have : ((v :: t : List Nat) : Multiset Nat).Nodup := Multiset.coe_nodup.mpr hnd
          rw [hmsB] at this
          exact Multiset.nodup_cons.mp this
        have hndB1' : st1.bound_heap.Nodup := Multiset.coe_nodup.mp hndB1.2
        have henB1 : e ∉ st1.bound_heap := fun hc => hndB1.1 (Multiset.mem_coe.mpr hc)
        have henF : e ∉ st.free_heap := hdj' e heB
        have hbp1B1 : ∀ i ∈ st1.bound_heap, bp1 i = st.breakpts i := by
          intro i hi
          have : i ≠ e := fun hc => henB1 (hc ▸ hi)
          exact if_neg this
        have hbp1F : ∀ i ∈ st.free_heap, bp1 i = st.breakpts i := by
          intro i hi
          have : i ≠ e := fun hc => henF (hc ▸ hi)
          exact if_neg this
        have hordB1 : heapOrdC cMax bp1 st1.bound_heap :=
          heapOrd_congr cMax st.breakpts bp1 _ hbp1B1
            (heapDelete_ord cMax st.breakpts cMax_A cMax_T (v :: t) hordB)
        have hordF1 : heapOrdC cMax bp1 st1.free_heap :=
          heapAdd_ord cMax bp1 cMax_A cMax_T e st.free_heap
            (heapOrd_congr cMax st.breakpts bp1 _ hbp1F hordF)
        have hmsF : (st1.free_heap : Multiset Nat) = e ::ₘ (st.free_heap : Multiset Nat) :=
          heapAdd_ms cMax bp1 e st.free_heap
        have hdj1 : ∀ i ∈ st1.bound_heap, i ∉ st1.free_heap := by
          intro i hi hc
          have hc' : i ∈ (st1.free_heap : Multiset Nat) := Multiset.mem_coe.mpr hc
          rw [hmsF] at hc'
          rcases Multiset.mem_cons.mp hc' with rfl | hc'
          · exact henB1 hi
          · have hiB : i ∈ (v :: t) := by
              have : i ∈ ((v :: t : List Nat) : Multiset Nat) := by
                rw [hmsB]
                exact Multiset.mem_cons_of_mem (Multiset.mem_coe.mpr hi)
              exact Multiset.mem_coe.mp this
            exact hdj' i hiB (Multiset.mem_coe.mp hc')
        have hlen1 : st1.bound_heap.length = (v :: t).length - 1 :=
          heapDelete_length cMax st.breakpts (v :: t)
        by_cases hz : st1.bound_heap.length = 0
        · have hB1 : st1.bound_heap = [] := List.length_eq_zero.mp hz
          rw [if_pos hz]
          refine ⟨{e}, ?_, ?_, ?_, ?_, ?_, ?_, ?_, ⟨hordB1, hordF1⟩, ?_,
            ⟨hndB1', hdj1⟩, fun _ _ => by simp, ?_⟩
          · rw [hmsB, hB1]
            rfl
          · rw [hmsF]
            rfl
          · intro e' he'
            rw [Multiset.mem_singleton] at he'
            subst he'
            exact hif
          · intro j hj
            rw [Multiset.mem_singleton] at hj
            show bp1 j = st.breakpts j
            exact if_neg hj
          · intro e' he'
            rw [Multiset.mem_singleton] at he'
            subst he'
            show bp1 e' = st.x e' - 1
            exact if_pos rfl
          · show st.asum + st.x e = st.asum + msum {e} (fun i => st.x i)
            rw [show msum {e} (fun i => st.x i) = st.x e by simp [msum]]
          · show st.a2sum + 1 = st.a2sum + msum {e} (fun _ => (1 : ℚ))
            rw [show msum {e} (fun _ => (1 : ℚ)) = 1 by simp [msum]]
          · intro i hi
            rw [hB1] at hi
            simp at hi
          · exact ⟨rfl, rfl, rfl, rfl, rfl, rfl, rfl⟩
        · rw [if_neg hz]
          obtain ⟨pop1, hq1, hq2, hq3, hq4, hq5, hq6, hq7, hq8, hq9, hq10, _, hqfr⟩ :=
            ih st1 (by rw [hlen1]; simp at hlen ⊢; omega) hordB1 hordF1 hndB1' hdj1
          obtain ⟨hgx, hga, hgb, hgn, hglam, hgmf, hgmb⟩ := hqfr
          have hpopB1 : ∀ e' ∈ pop1, e' ∈ (st1.bound_heap : Multiset Nat) := by
            intro e' he'
            have : e' ∈ pop1 + ((boundLoopN fuel st1).bound_heap : Multiset Nat) :=
              Multiset.mem_add.mpr (Or.inl he')
            rw [← hq1] at this
            exact this
          have hpop1ne : ∀ e' ∈ pop1, e' ≠ e := by
            intro e' he' hc
            exact hndB1.1 (hc ▸ hpopB1 e' he')
          refine ⟨e ::ₘ pop1, ?_, ?_, ?_, ?_, ?_, ?_, ?_, ⟨hq8.1, hq8.2⟩, ?_,
            ⟨hq10.1, hq10.2⟩, fun _ _ => by simp, ?_⟩
          · rw [hmsB, hq1, Multiset.cons_add]
          · rw [hq2, hmsF, Multiset.add_cons, Multiset.cons_add]
          · intro e' he'
            rcases Multiset.mem_cons.mp he' with rfl | he'
            · exact hif
            · have h3 : st.lambda ≤ bp1 e' := hq3 e' he'
              rwa [show bp1 e' = st.breakpts e' from if_neg (hpop1ne e' he')] at h3
          · intro j hj
            have hjne : j ≠ e := fun hc => hj (hc ▸ Multiset.mem_cons_self e pop1)
            have hjp1 : j ∉ pop1 := fun hc => hj (Multiset.mem_cons_of_mem hc)
            have h4 : (boundLoopN fuel st1).breakpts j = bp1 j := hq4 j hjp1
            rw [h4, show bp1 j = st.breakpts j from if_neg hjne]
          · intro e' he'
            rcases Multiset.mem_cons.mp he' with rfl | he'
            · have henp1 : e' ∉ pop1 := fun hc => (hpop1ne e' hc) rfl
              have h5 : (boundLoopN fuel st1).breakpts e' = bp1 e' := hq4 e' henp1
              rw [h5, show bp1 e' = st.x e' - 1 from if_pos rfl]
            · exact hq5 e' he'
          · have h6 : (boundLoopN fuel st1).asum
                = st.asum + st.x e + msum pop1 (fun i => st.x i) := hq6
            rw [h6, msum_cons]
            ring
          · have h7 : (boundLoopN fuel st1).a2sum
                = st.a2sum + 1 + msum pop1 (fun _ => (1 : ℚ)) := hq7
            rw [h7, msum_cons]
            ring
          · exact fun i hi => hq9 i hi
          · exact ⟨hgx, hga, hgb, hgn, hglam, hgmf, hgmb⟩
      · rw [if_neg hif]
        rw [← hB] at hordB hif ⊢
        refine ⟨0, by simp, by simp, by simp, fun j _ => rfl, by simp, by simp, by simp,
          ⟨hordB, hordF⟩, ?_, ⟨?_, hdj⟩, fun _ hc => absurd hc hif,
          ⟨rfl, rfl, rfl, rfl, rfl, rfl, rfl⟩⟩
        · intro i hi
          exact lt_of_le_of_lt (maxheap_top_ub st.breakpts st.bound_heap hordB i hi)
            (not_le.mp hif)
        · rwa [← hB] at hnd

theorem boundLoopW_spec (f : Nat → ℚ) : ∀ (fuel : Nat) (st : NapState),
    st.bound_heap.length ≤ fuel →
    heapOrdC cMax st.breakpts st.bound_heap →
    heapOrdC cMax st.breakpts st.free_heap →
    st.bound_heap.Nodup →
    (∀ i ∈ st.bound_heap, i ∉ st.free_heap) →
    ∃ pop : Multiset Nat,
      ((st.bound_heap : Multiset Nat) = pop + ((boundLoopW f fuel st).bound_heap : Multiset Nat)) ∧
      (((boundLoopW f fuel st).free_heap : Multiset Nat) = pop + (st.free_heap : Multiset Nat)) ∧
      (∀ e ∈ pop, st.lambda ≤ st.breakpts e) ∧
      (∀ j, j ∉ pop → (boundLoopW f fuel st).breakpts j = st.breakpts j) ∧
      (∀ e ∈ pop, (boundLoopW f fuel st).breakpts e = (st.x e - 1) / f e) ∧
      ((boundLoopW f fuel st).asum = st.asum + msum pop (fun e => f e * st.x e)) ∧
      ((boundLoopW f fuel st).a2sum = st.a2sum + msum pop (fun e => f e * f e)) ∧
      (heapOrdC cMax (boundLoopW f fuel st).breakpts (boundLoopW f fuel st).bound_heap ∧
        heapOrdC cMax (boundLoopW f fuel st).breakpts (boundLoopW f fuel st).free_heap) ∧
      (∀ i ∈ (boundLoopW f fuel st).bound_heap, (boundLoopW f fuel st).breakpts i < st.lambda) ∧
      ((boundLoopW f fuel st).bound_heap.Nodup ∧
        (∀ i ∈ (boundLoopW f fuel st).bound_heap, i ∉ (boundLoopW f fuel st).free_heap)) ∧
      (st.bound_heap ≠ [] → st.lambda ≤ st.breakpts (hget st.bound_heap 1) → pop ≠ 0) ∧
      ((boundLoopW f fuel st).x = st.x ∧ (boundLoopW f fuel st).a = st.a ∧
        (boundLoopW f fuel st).b = st.b ∧ (boundLoopW f fuel st).n = st.n ∧
        (boundLoopW f fuel st).lambda = st.lambda ∧
        (boundLoopW f fuel st).maxfree = st.maxfree ∧
        (boundLoopW f fuel st).maxbound = st.maxbound) := by
  intro fuel
  induction fuel with
  | zero =>
    intro st hlen hordB hordF hnd hdj
    have hB : st.bound_heap = [] := List.length_eq_zero.mp (by omega)
    refine ⟨0, by simp [boundLoopW], by simp [boundLoopW], by simp,
      fun j _ => by simp [boundLoopW], by simp, by simp [boundLoopW], by simp [boundLoopW],
      ⟨by simpa [boundLoopW] using hordB, by simpa [boundLoopW] using hordF⟩, ?_,
      ⟨by simpa [boundLoopW] using hnd, by simpa [boundLoopW] using hdj⟩,
      fun hne _ => absurd hB hne, by simp [boundLoopW]⟩
    intro i hi
    simp only [boundLoopW] at hi
    rw [hB] at hi
    simp at hi
  | succ fuel ih =>
    intro st hlen hordB hordF hnd hdj
    rcases hB : st.bound_heap with _ | ⟨v, t⟩
    · have hrun : boundLoopW f (fuel + 1) st = st := by
        simp only [boundLoopW, hB]
      rw [hrun]
      refine ⟨0, by simp [hB], by simp, by simp, fun j _ => rfl, by simp, by simp,
        by simp, ⟨hordB, hordF⟩, ?_, ⟨hnd, hdj⟩, fun hne _ => absurd rfl hne,
        ⟨rfl, rfl, rfl, rfl, rfl, rfl, rfl⟩⟩
      intro i hi
      rw [hB] at hi
      simp at hi
    · rw [hB] at hlen hordB hnd
      have hdj' : ∀ i ∈ (v :: t), i ∉ st.free_heap := by
        intro i hi
        exact hdj i (hB ▸ hi)
      simp only [boundLoopW, hB]
      by_cases hif : st.lambda ≤ st.breakpts (hget (v :: t) 1)
      · rw [if_pos hif]
        set e := hget (v :: t) 1 with he
        set bp1 := upd st.breakpts e ((st.x e - 1) / f e) with hbp1
        set st1 : NapState :=
          { st with bound_heap := QPmaxheap_delete (v :: t) st.breakpts,
                    a2sum := st.a2sum + f e * f e,
                    asum := st.asum + f e * st.x e,
                    breakpts := bp1,
                    free_heap := QPmaxheap_add e st.free_heap bp1 } with hst1
        have heB : e ∈ (v :: t) := hget_mem (v :: t) 1 le_rfl (by simp)
        have hmsB : ((v :: t : List Nat) : Multiset Nat)
            = e ::ₘ (st1.bound_heap : Multiset Nat) :=
          (heapDelete_ms cMax st.breakpts (v :: t) (by simp)).symm
        have hndB1 : e ∉ (st1.bound_heap : Multiset Nat) ∧ (st1.bound_heap : Multiset Nat).Nodup := by
          have : ((v :: t : List Nat) : Multiset Nat).Nodup := Multiset.coe_nodup.mpr hnd
          rw [hmsB] at this
          exact Multiset.nodup_cons.mp this
        have hndB1' : st1.bound_heap.Nodup := Multiset.coe_nodup.mp hndB1.2
        have henB1 : e ∉ st1.bound_heap := fun hc => hndB1.1 (Multiset.mem_coe.mpr hc)
        have henF : e ∉ st.free_heap := hdj' e heB
        have hbp1B1 : ∀ i ∈ st1.bound_heap, bp1 i = st.breakpts i := by
          intro i hi
          have : i ≠ e := fun hc => henB1 (hc ▸ hi)
          exact if_neg this
        have hbp1F : ∀ i ∈ st.free_heap, bp1 i = st.breakpts i := by
          intro i hi
          have : i ≠ e := fun hc => henF (hc ▸ hi)
          exact if_neg this
        have hordB1 : heapOrdC cMax bp1 st1.bound_heap :=
          heapOrd_congr cMax st.breakpts bp1 _ hbp1B1
            (heapDelete_ord cMax st.breakpts cMax_A cMax_T (v :: t) hordB)
        have hordF1 : heapOrdC cMax bp1 st1.free_heap :=
          heapAdd_ord cMax bp1 cMax_A cMax_T e st.free_heap
            (heapOrd_congr cMax st.breakpts bp1 _ hbp1F hordF)
        have hmsF : (st1.free_heap : Multiset Nat) = e ::ₘ (st.free_heap : Multiset Nat) :=
          heapAdd_ms cMax bp1 e st.free_heap
        have hdj1 : ∀ i ∈ st1.bound_heap, i ∉ st1.free_heap := by
          intro i hi hc
          have hc' : i ∈ (st1.free_heap : Multiset Nat) := Multiset.mem_coe.mpr hc
          rw [hmsF] at hc'
          rcases Multiset.mem_cons.mp hc' with rfl | hc'
          · exact henB1 hi
          · have hiB : i ∈ (v :: t) := by
              have : i ∈ ((v :: t : List Nat) : Multiset Nat) := by
                rw [hmsB]
                exact Multiset.mem_cons_of_mem (Multiset.mem_coe.mpr hi)
              exact Multiset.mem_coe.mp this
            exact hdj' i hiB (Multiset.mem_coe.mp hc')
        have hlen1 : st1.bound_heap.length = (v :: t).length - 1 :=
          heapDelete_length cMax st.breakpts (v :: t)
        by_cases hz : st1.bound_heap.length = 0
        · have hB1 : st1.bound_heap = [] := List.length_eq_zero.mp hz
          rw [if_pos hz]
          refine ⟨{e}, ?_, ?_, ?_, ?_, ?_, ?_, ?_, ⟨hordB1, hordF1⟩, ?_,
            ⟨hndB1', hdj1⟩, fun _ _ => by simp, ?_⟩
          · rw [hmsB, hB1]
            rfl
          · rw [hmsF]
            rfl
          · intro e' he'
            rw [Multiset.mem_singleton] at he'
            subst he'
            exact hif
          · intro j hj
            rw [Multiset.mem_singleton] at hj
            show bp1 j = st.breakpts j
            exact if_neg hj
          · intro e' he'
            rw [Multiset.mem_singleton] at he'
            subst he'
            show bp1 e' = (st.x e' - 1) / f e'
            exact if_pos rfl
          · show st.asum + f e * st.x e = st.asum + msum {e} (fun i => f i * st.x i)
            rw [show msum {e} (fun i => f i * st.x i) = f e * st.x e by simp [msum]]
          · show st.a2sum + f e * f e = st.a2sum + msum {e} (fun i => f i * f i)
            rw [show msum {e} (fun i => f i * f i) = f e * f e by simp [msum]]
          · intro i hi
            rw [hB1] at hi
            simp at hi
          · exact ⟨rfl, rfl, rfl, rfl, rfl, rfl, rfl⟩
        · rw [if_neg hz]
          obtain ⟨pop1, hq1, hq2, hq3, hq4, hq5, hq6, hq7, hq8, hq9, hq10, _, hqfr⟩ :=
            ih st1 (by rw [hlen1]; simp at hlen ⊢; omega) hordB1 hordF1 hndB1' hdj1
          obtain ⟨hgx, hga, hgb, hgn, hglam, hgmf, hgmb⟩ := hqfr
          have hpopB1 : ∀ e' ∈ pop1, e' ∈ (st1.bound_heap : Multiset Nat) := by
            intro e' he'
            have : e' ∈ pop1 + ((boundLoopW f fuel st1).bound_heap : Multiset Nat) :=
              Multiset.mem_add.mpr (Or.inl he')
            rw [← hq1] at this
            exact this
          have hpop1ne : ∀ e' ∈ pop1, e' ≠ e := by
            intro e' he' hc
            exact hndB1.1 (hc ▸ hpopB1 e' he')
          refine ⟨e ::ₘ pop1, ?_, ?_, ?_, ?_, ?_, ?_, ?_, ⟨hq8.1, hq8.2⟩, ?_,
            ⟨hq10.1, hq10.2⟩, fun _ _ => by simp, ?_⟩
          · rw [hmsB, hq1, Multiset.cons_add]
          · rw [hq2, hmsF, Multiset.add_cons, Multiset.cons_add]
          · intro e' he'
            rcases Multiset.mem_cons.mp he' with rfl | he'
            · exact hif
            · have h3 : st.lambda ≤ bp1 e' := hq3 e' he'
              rwa [show bp1 e' = st.breakpts e' from if_neg (hpop1ne e' he')] at h3
          · intro j hj
            have hjne : j ≠ e := fun hc => hj (hc ▸ Multiset.mem_cons_self e pop1)
            have hjp1 : j ∉ pop1 := fun hc => hj (Multiset.mem_cons_of_mem hc)
            have h4 : (boundLoopW f fuel st1).breakpts j = bp1 j := hq4 j hjp1
            rw [h4, show bp1 j = st.breakpts j from if_neg hjne]
          · intro e' he'
            rcases Multiset.mem_cons.mp he' with rfl | he'
            · have henp1 : e' ∉ pop1 := fun hc => (hpop1ne e' hc) rfl
              have h5 : (boundLoopW f fuel st1).breakpts e' = bp1 e' := hq4 e' henp1
              rw [h5, show bp1 e' = (st.x e' - 1) / f e' from if_pos rfl]
            · exact hq5 e' he'
          · have h6 : (boundLoopW f fuel st1).asum
                = st.asum + f e * st.x e + msum pop1 (fun i => f i * st.x i) := hq6
            rw [h6, msum_cons]
            ring
          · have h7 : (boundLoopW f fuel st1).a2sum
                = st.a2sum + f e * f e + msum pop1 (fun i => f i * f i) := hq7
            rw [h7, msum_cons]
            ring
          · exact fun i hi => hq9 i hi
          · exact ⟨hgx, hga, hgb, hgn, hglam, hgmf, hgmb⟩
      · rw [if_neg hif]
        rw [← hB] at hordB hif ⊢
        refine ⟨0, by simp, by simp, by simp, fun j _ => rfl, by simp, by simp, by simp,
          ⟨hordB, hordF⟩, ?_, ⟨?_, hdj⟩, fun _ hc => absurd hc hif,
          ⟨rfl, rfl, rfl, rfl, rfl, rfl, rfl⟩⟩
        · intro i hi
          exact lt_of_le_of_lt (maxheap_top_ub st.breakpts st.bound_heap hordB i hi)
            (not_le.mp hif)
        · rwa [← hB] at hnd


/-! ## The guarded phases -/

theorem freePhase_spec (st : NapState) (hord : heapOrdC cMax st.breakpts st.free_heap) :
    ∃ pop : Multiset Nat,
      ((st.free_heap : Multiset Nat) = pop + ((freePhase st).free_heap : Multiset Nat)) ∧
      (∀ e ∈ pop, st.lambda ≤ st.breakpts e) ∧
      ((freePhase st).asum = st.asum + msum pop (fun e => aw st.a e * (1 - st.x e))) ∧
      (((freePhase st).a2sum = st.a2sum - msum pop (fun e => aw st.a e * aw st.a e)) ∨
        ((freePhase st).free_heap = [] ∧ (freePhase st).a2sum = 0)) ∧
      heapOrdC cMax st.breakpts ((freePhase st).free_heap) ∧
      (∀ i ∈ (freePhase st).free_heap, st.breakpts i < st.lambda) ∧
      (st.free_heap ≠ [] → st.lambda ≤ st.breakpts (hget st.free_heap 1) → pop ≠ 0) ∧
      ((freePhase st).x = st.x ∧ (freePhase st).a = st.a ∧
        (freePhase st).b = st.b ∧ (freePhase st).n = st.n ∧
        (freePhase st).lambda = st.lambda ∧
        (freePhase st).breakpts = st.breakpts ∧
        (freePhase st).bound_heap = st.bound_heap ∧
        (freePhase st).maxfree = st.maxfree ∧
        (freePhase st).maxbound = st.maxbound) := by
  unfold freePhase
  by_cases hz : st.free_heap.length = 0
  · rw [if_pos hz]
    have hF : st.free_heap = [] := List.length_eq_zero.mp hz
    refine ⟨0, by simp, by simp, by simp, Or.inl (by simp), hord, ?_,
      fun hne _ => absurd hF hne, ⟨rfl, rfl, rfl, rfl, rfl, rfl, rfl, rfl, rfl⟩⟩
    intro i hi
    rw [hF] at hi
    simp at hi
  · rw [if_neg hz]
    cases ha : st.a with
    | none =>
      obtain ⟨pop, hp1, hp2, hp3, hp4, hp5, hp6, hp7, hfx, hfa, hfb, hfn, hflam,
        hfbp, hfbh, hfmf, hfmb⟩ := freeLoopN_spec st.free_heap.length st le_rfl hord
      refine ⟨pop, hp1, hp2, ?_, Or.inl ?_, hp5, hp6, hp7,
        ⟨hfx, hfa.trans ha, hfb, hfn, hflam, hfbp, hfbh, hfmf, hfmb⟩⟩
      · show (freeLoopN st.free_heap.length st).asum
          = st.asum + msum pop (fun e => aw none e * (1 - st.x e))
        rw [hp3]
        congr 1
        exact msum_congr _ _ _ (fun e _ => by
          rw [show aw none e = 1 from rfl, one_mul])
      · show (freeLoopN st.free_heap.length st).a2sum
          = st.a2sum - msum pop (fun e => aw none e * aw none e)
        rw [hp4]
        congr 1
        exact msum_congr _ _ _ (fun e _ => by
          rw [show aw none e = 1 from rfl, one_mul])
    | some f =>
      obtain ⟨pop, hp1, hp2, hp3, hp4, hp5, hp6, hp7, hfx, hfa, hfb, hfn, hflam,
        hfbp, hfbh, hfmf, hfmb⟩ := freeLoopW_spec f st.free_heap.length st le_rfl hord
      refine ⟨pop, hp1, hp2, ?_, ?_, hp5, hp6, hp7,
        ⟨hfx, hfa.trans ha, hfb, hfn, hflam, hfbp, hfbh, hfmf, hfmb⟩⟩
      · show (freeLoopW f st.free_heap.length st).asum
          = st.asum + msum pop (fun e => aw (some f) e * (1 - st.x e))
        rw [hp3]
        congr 1
      · rcases hp4 with hp4 | hp4
        · refine Or.inl ?_
          show (freeLoopW f st.free_heap.length st).a2sum
            = st.a2sum - msum pop (fun e => aw (some f) e * aw (some f) e)
          rw [hp4]
          congr 1
        · exact Or.inr hp4

theorem boundPhase_spec (st : NapState)
    (hordB : heapOrdC cMax st.breakpts st.bound_heap)
    (hordF : heapOrdC cMax st.breakpts st.free_heap)
    (hnd : st.bound_heap.Nodup)
    (hdj : ∀ i ∈ st.bound_heap, i ∉ st.free_heap) :
    ∃ pop : Multiset Nat,
      ((st.bound_heap : Multiset Nat) = pop + ((boundPhase st).bound_heap : Multiset Nat)) ∧
      (((boundPhase st).free_heap : Multiset Nat) = pop + (st.free_heap : Multiset Nat)) ∧
      (∀ e ∈ pop, st.lambda ≤ st.breakpts e) ∧
      (∀ j, j ∉ pop → (boundPhase st).breakpts j = st.breakpts j) ∧
      (∀ e ∈ pop, (boundPhase st).breakpts e = bpF st.x st.a e) ∧
      ((boundPhase st).asum = st.asum + msum pop (fun e => aw st.a e * st.x e)) ∧
      ((boundPhase st).a2sum = st.a2sum + msum pop (fun e => aw st.a e * aw st.a e)) ∧
      (heapOrdC cMax (boundPhase st).breakpts (boundPhase st).bound_heap ∧
        heapOrdC cMax (boundPhase st).breakpts (boundPhase st).free_heap) ∧
      (∀ i ∈ (boundPhase st).bound_heap, (boundPhase st).breakpts i < st.lambda) ∧
      ((boundPhase st).bound_heap.Nodup ∧
        (∀ i ∈ (boundPhase st).bound_heap, i ∉ (boundPhase st).free_heap)) ∧
      (st.bound_heap ≠ [] → st.lambda ≤ st.breakpts (hget st.bound_heap 1) → pop ≠ 0) ∧
      ((boundPhase st).x = st.x ∧ (boundPhase st).a = st.a ∧
        (boundPhase st).b = st.b ∧ (boundPhase st).n = st.n ∧
        (boundPhase st).lambda = st.lambda ∧
        (boundPhase st).maxfree = st.maxfree ∧
        (boundPhase st).maxbound = st.maxbound) := by
  unfold boundPhase
  by_cases hz : st.bound_heap.length = 0
  · rw [if_pos hz]
    have hB : st.bound_heap = [] := List.length_eq_zero.mp hz
    refine ⟨0, by simp, by simp, by simp, fun j _ => rfl, by simp, by simp, by simp,
      ⟨hordB, hordF⟩, ?_, ⟨hnd, hdj⟩, fun hne _ => absurd hB hne,
      ⟨rfl, rfl, rfl, rfl, rfl, rfl, rfl⟩⟩
    intro i hi
    rw [hB] at hi
    simp at hi
  · rw [if_neg hz]
    cases ha : st.a with
    | none =>
      obtain ⟨pop, hq1, hq2, hq3, hq4, hq5, hq6, hq7, hq8, hq9, hq10, hq11,
        hgx, hga, hgb, hgn, hglam, hgmf, hgmb⟩ :=
        boundLoopN_spec st.bound_heap.length st le_rfl hordB hordF hnd hdj
      refine ⟨pop, hq1, hq2, hq3, hq4, ?_, ?_, ?_, hq8, hq9, hq10, hq11,
        ⟨hgx, hga.trans ha, hgb, hgn, hglam, hgmf, hgmb⟩⟩
      · exact fun e he => hq5 e he
      · show (boundLoopN st.bound_heap.length st).asum
          = st.asum + msum pop (fun e => aw none e * st.x e)
        rw [hq6]
        congr 1
        exact msum_congr _ _ _ (fun e _ => by
          rw [show aw none e = 1 from rfl, one_mul])
      · show (boundLoopN st.bound_heap.length st).a2sum
          = st.a2sum + msum pop (fun e => aw none e * aw none e)
        rw [hq7]
        congr 1
        exact msum_congr _ _ _ (fun e _ => by
          rw [show aw none e = 1 from rfl, one_mul])
    | some f =>
      obtain ⟨pop, hq1, hq2, hq3, hq4, hq5, hq6, hq7, hq8, hq9, hq10, hq11,
        hgx, hga, hgb, hgn, hglam, hgmf, hgmb⟩ :=
        boundLoopW_spec f st.bound_heap.length st le_rfl hordB hordF hnd hdj
      refine ⟨pop, hq1, hq2, hq3, hq4, ?_, ?_, ?_, hq8, hq9, hq10, hq11,
        ⟨hgx, hga.trans ha, hgb, hgn, hglam, hgmf, hgmb⟩⟩
      · exact fun e he => hq5 e he
      · show (boundLoopW f st.bound_heap.length st).asum
          = st.asum + msum pop (fun e => aw (some f) e * st.x e)
        rw [hq6]
        congr 1
      · show (boundLoopW f st.bound_heap.length st).a2sum
          = st.a2sum + msum pop (fun e => aw (some f) e * aw (some f) e)
        rw [hq7]
        congr 1

/-! ## Unconditional frame facts

The pop loops touch only `asum`, `a2sum`, the heaps and (for the bound
loops) `breakpts`; every other state field is carried through unchanged,
with no hypothesis needed. -/

theorem freeLoopN_frame (fuel : Nat) : ∀ st : NapState,
    (freeLoopN fuel st).x = st.x ∧ (freeLoopN fuel st).a = st.a ∧
    (freeLoopN fuel st).b = st.b ∧ (freeLoopN fuel st).n = st.n ∧
    (freeLoopN fuel st).lambda = st.lambda ∧
    (freeLoopN fuel st).breakpts = st.breakpts ∧
    (freeLoopN fuel st).bound_heap = st.bound_heap ∧
    (freeLoopN fuel st).maxfree = st.maxfree ∧
    (freeLoopN fuel st).maxbound = st.maxbound := by
  induction fuel with
  | zero => exact fun st => ⟨rfl, rfl, rfl, rfl, rfl, rfl, rfl, rfl, rfl⟩
  | succ fuel ih =>
    intro st
    rcases hF : st.free_heap with _ | ⟨v, t⟩
    · simp only [freeLoopN, hF]
      simp
    · simp only [freeLoopN, hF]
      split
      · split
        · simp
        · exact ih _
      · simp

theorem freeLoopW_frame (f : Nat → ℚ) (fuel : Nat) : ∀ st : NapState,
    (freeLoopW f fuel st).x = st.x ∧ (freeLoopW f fuel st).a = st.a ∧
    (freeLoopW f fuel st).b = st.b ∧ (freeLoopW f fuel st).n = st.n ∧
    (freeLoopW f fuel st).lambda = st.lambda ∧
    (freeLoopW f fuel st).breakpts = st.breakpts ∧
    (freeLoopW f fuel st).bound_heap = st.bound_heap ∧
    (freeLoopW f fuel st).maxfree = st.maxfree ∧
    (freeLoopW f fuel st).maxbound = st.maxbound := by
  induction fuel with
  | zero => exact fun st => ⟨rfl, rfl, rfl, rfl, rfl, rfl, rfl, rfl, rfl⟩
  | succ fuel ih =>
    intro st
    rcases hF : st.free_heap with _ | ⟨v, t⟩
    · simp only [freeLoopW, hF]
      simp
    · simp only [freeLoopW, hF]
      split
      · split
        · simp
        · exact ih _
      · simp

theorem boundLoopN_frame (fuel : Nat) : ∀ st : NapState,
    (boundLoopN fuel st).x = st.x ∧ (boundLoopN fuel st).a = st.a ∧
    (boundLoopN fuel st).b = st.b ∧ (boundLoopN fuel st).n = st.n ∧
    (boundLoopN fuel st).lambda = st.lambda ∧
    (boundLoopN fuel st).maxfree = st.maxfree ∧
    (boundLoopN fuel st).maxbound = st.maxbound := by
  induction fuel with
  | zero => exact fun st => ⟨rfl, rfl, rfl, rfl, rfl, rfl, rfl⟩
  | succ fuel ih =>
    intro st
    rcases hB : st.bound_heap with _ | ⟨v, t⟩
    · simp only [boundLoopN, hB]
      simp
    · simp only [boundLoopN, hB]
      split
      · split
        · simp
        · exact ih _
      · simp

theorem boundLoopW_frame (f : Nat → ℚ) (fuel : Nat) : ∀ st : NapState,
    (boundLoopW f fuel st).x = st.x ∧ (boundLoopW f fuel st).a = st.a ∧
    (boundLoopW f fuel st).b = st.b ∧ (boundLoopW f fuel st).n = st.n ∧
    (boundLoopW f fuel st).lambda = st.lambda ∧
    (boundLoopW f fuel st).maxfree = st.maxfree ∧
    (boundLoopW f fuel st).maxbound = st.maxbound := by
  induction fuel with
  | zero => exact fun st => ⟨rfl, rfl, rfl, rfl, rfl, rfl, rfl⟩
  | succ fuel ih =>
    intro st
    rcases hB : st.bound_heap with _ | ⟨v, t⟩
    · simp only [boundLoopW, hB]
      simp
    · simp only [boundLoopW, hB]
      split
      · split
        · simp
        · exact ih _
      · simp

theorem freePhase_frame (st : NapState) :
    (freePhase st).x = st.x ∧ (freePhase st).a = st.a ∧
    (freePhase st).b = st.b ∧ (freePhase st).n = st.n ∧
    (freePhase st).lambda = st.lambda ∧
    (freePhase st).breakpts = st.breakpts ∧
    (freePhase st).bound_heap = st.bound_heap ∧
    (freePhase st).maxfree = st.maxfree ∧
    (freePhase st).maxbound = st.maxbound := by
  unfold freePhase
  split
  · exact ⟨rfl, rfl, rfl, rfl, rfl, rfl, rfl, rfl, rfl⟩
  · split
    · exact freeLoopN_frame _ _
    · exact freeLoopW_frame _ _ _

theorem boundPhase_frame (st : NapState) :
    (boundPhase st).x = st.x ∧ (boundPhase st).a = st.a ∧
    (boundPhase st).b = st.b ∧ (boundPhase st).n = st.n ∧
    (boundPhase st).lambda = st.lambda ∧
    (boundPhase st).maxfree = st.maxfree ∧
    (boundPhase st).maxbound = st.maxbound := by
  unfold boundPhase
  split
  · exact ⟨rfl, rfl, rfl, rfl, rfl, rfl, rfl⟩
  · split
    · exact boundLoopN_frame _ _
    · exact boundLoopW_frame _ _ _

theorem roundBody_frame (first : Bool) (st : NapState) :
    (roundBody first st).x = st.x ∧ (roundBody first st).a = st.a ∧
    (roundBody first st).b = st.b ∧ (roundBody first st).n = st.n := by
  unfold roundBody
  split
  · exact ⟨rfl, rfl, rfl, rfl⟩
  · next nbv _ =>
    set st1 : NapState := { st with lambda := nbv } with hst1
    set st2 := if first then buildHeaps st1 else st1 with hst2
    have h2 : st2.x = st.x ∧ st2.a = st.a ∧ st2.b = st.b ∧ st2.n = st.n := by
      rw [hst2]
      split <;> exact ⟨rfl, rfl, rfl, rfl⟩
    obtain ⟨hfx, hfa, hfb, hfn, _⟩ := freePhase_frame st2
    obtain ⟨hbx, hba, hbb, hbn, _⟩ := boundPhase_frame (freePhase st2)
    exact ⟨(hbx.trans hfx).trans h2.1, (hba.trans hfa).trans h2.2.1,
      (hbb.trans hfb).trans h2.2.2.1, (hbn.trans hfn).trans h2.2.2.2⟩

theorem stateAtRound_frame (st0 : NapState) : ∀ k : Nat,
    (stateAtRound st0 k).x = st0.x ∧ (stateAtRound st0 k).a = st0.a ∧
    (stateAtRound st0 k).b = st0.b ∧ (stateAtRound st0 k).n = st0.n := by
  intro k
  induction k with
  | zero => exact ⟨rfl, rfl, rfl, rfl⟩
  | succ k ih =>
    obtain ⟨h1, h2, h3, h4⟩ := roundBody_frame (k == 0) (stateAtRound st0 k)
    exact ⟨h1.trans ih.1, h2.trans ih.2.1, h3.trans ih.2.2.1, h4.trans ih.2.2.2⟩

/-! ## Unconditional membership monotonicity of the bound heap -/

theorem heapDelete_subset (c : ℚ → ℚ → Bool) (x : Nat → ℚ) (h : List Nat) :
    ∀ i ∈ heapDelete c x h, i ∈ h := by
  intro i hi
  rcases hh : h with _ | ⟨v, t⟩
  · rw [hh] at hi
    simp [heapDelete, heapify, heapifyF] at hi
  · have hms := heapDelete_ms c x h (by rw [hh]; simp)
    have hmem : (i : Nat) ∈ (h : Multiset Nat) := by
      rw [← hms]
      exact Multiset.mem_cons_of_mem (by exact_mod_cast hi)
    rw [← hh]
    exact_mod_cast hmem

theorem boundLoopN_bound_subset (fuel : Nat) : ∀ st : NapState,
    ∀ i ∈ (boundLoopN fuel st).bound_heap, i ∈ st.bound_heap := by
  induction fuel with
  | zero => exact fun st i hi => hi
  | succ fuel ih =>
    intro st
    rcases hB : st.bound_heap with _ | ⟨v, t⟩
    · simp only [boundLoopN, hB]
      intro i hi
      exact hi
    · simp only [boundLoopN, hB]
      split
      · split
        · intro i hi
          exact heapDelete_subset _ _ _ i hi
        · intro i hi
          exact heapDelete_subset _ _ _ i (ih _ i hi)
      · intro i hi
        exact hB ▸ hi

theorem boundLoopW_bound_subset (f : Nat → ℚ) (fuel : Nat) : ∀ st : NapState,
    ∀ i ∈ (boundLoopW f fuel st).bound_heap, i ∈ st.bound_heap := by
  induction fuel with
  | zero => exact fun st i hi => hi
  | succ fuel ih =>
    intro st
    rcases hB : st.bound_heap with _ | ⟨v, t⟩
    · simp only [boundLoopW, hB]
      intro i hi
      exact hi
    · simp only [boundLoopW, hB]
      split
      · split
        · intro i hi
          exact heapDelete_subset _ _ _ i hi
        · intro i hi
          exact heapDelete_subset _ _ _ i (ih _ i hi)
      · intro i hi
        exact hB ▸ hi

theorem boundPhase_bound_subset (st : NapState) :
    ∀ i ∈ (boundPhase st).bound_heap, i ∈ st.bound_heap := by
  unfold boundPhase
  split
  · exact fun i hi => hi
  · split
    · exact boundLoopN_bound_subset _ _
    · exact boundLoopW_bound_subset _ _ _

theorem roundBody_bound_subset (first : Bool) (st : NapState) :
    ∀ i ∈ (roundBody first st).bound_heap, i ∈ st.bound_heap := by
  unfold roundBody
  split
  · exact fun i hi => hi
  · next nbv _ =>
    set st1 : NapState := { st with lambda := nbv } with hst1
    set st2 := if first then buildHeaps st1 else st1 with hst2
    have h2 : ∀ i ∈ st2.bound_heap, i ∈ st.bound_heap := by
      rw [hst2]
      split
      · intro i hi
        exact (heapBuild_perm cMax st1.breakpts st1.bound_heap).mem_iff.mp hi
      · exact fun i hi => hi
    intro i hi
    have hi1 : i ∈ (boundPhase (freePhase st2)).bound_heap := hi
    have hi2 := boundPhase_bound_subset (freePhase st2) i hi1
    rw [(freePhase_frame st2).2.2.2.2.2.2.1] at hi2
    exact h2 i hi2

/-! ## Aggregate algebra and invariant transport -/

theorem sum_toFinset_msum (l : List Nat) (hnd : l.Nodup) (f : Nat → ℚ) :
    ∑ i ∈ l.toFinset, f i = msum (l : Multiset Nat) f := by
  rw [msum_coe]
  exact List.sum_toFinset f hnd

/-- `asumSpec` with the bound-high sum eliminated in favour of pure multiset
sums over the two heaps (the total weight over `range n` is constant). -/
theorem asumSpec_alt (st : NapState) (hWF : WFst st) :
    asumSpec st
      = msum (st.free_heap : Multiset Nat) (fun i => st.x i * aw st.a i)
        + ((∑ i ∈ Finset.range st.n, aw st.a i)
           - msum (st.free_heap : Multiset Nat) (fun i => aw st.a i)
           - msum (st.bound_heap : Multiset Nat) (fun i => aw st.a i)) := by
  obtain ⟨hfnd, hbnd, hdj, hfn, hbn⟩ := hWF
  unfold asumSpec
  congr 1
  have hsplit := Finset.sum_filter_add_sum_filter_not (Finset.range st.n)
    (fun i => i ∉ st.free_heap ∧ i ∉ st.bound_heap) (fun i => aw st.a i)
  have hneg : (Finset.range st.n).filter (fun i => ¬(i ∉ st.free_heap ∧ i ∉ st.bound_heap))
      = st.free_heap.toFinset ∪ st.bound_heap.toFinset := by
    ext i
    simp only [Finset.mem_filter, Finset.mem_range, Finset.mem_union, List.mem_toFinset]
    constructor
    · rintro ⟨hin, hc⟩
      by_cases hf : i ∈ st.free_heap
      · exact Or.inl hf
      · refine Or.inr ?_
        by_contra hbc
        exact hc ⟨hf, hbc⟩
    · intro hc
      rcases hc with hc | hc
      · exact ⟨hfn i hc, fun hcon => hcon.1 hc⟩
      · exact ⟨hbn i hc, fun hcon => hcon.2 hc⟩
  have hdis : Disjoint st.free_heap.toFinset st.bound_heap.toFinset := by
    rw [Finset.disjoint_left]
    intro i hif hib
    exact hdj i (List.mem_toFinset.mp hif) (List.mem_toFinset.mp hib)
  have h2 : ∑ i ∈ (Finset.range st.n).filter
      (fun i => ¬(i ∉ st.free_heap ∧ i ∉ st.bound_heap)), aw st.a i
      = msum (st.free_heap : Multiset Nat) (fun i => aw st.a i)
        + msum (st.bound_heap : Multiset Nat) (fun i => aw st.a i) := by
    rw [hneg, Finset.sum_union hdis, sum_toFinset_msum _ hfnd, sum_toFinset_msum _ hbnd]
  have hhi : ∑ i ∈ highs st, aw st.a i
      = ∑ i ∈ (Finset.range st.n).filter
          (fun i => i ∉ st.free_heap ∧ i ∉ st.bound_heap), aw st.a i := rfl
  rw [hhi]
  linarith [hsplit, h2]

/-- The same elimination for `a2sumSpec` is definitional; stated for
symmetry of use. -/
theorem a2sumSpec_eq (st : NapState) :
    a2sumSpec st = msum (st.free_heap : Multiset Nat)
      (fun i => aw st.a i * aw st.a i) := rfl

theorem highs_congr (st st' : NapState) (hn : st'.n = st.n)
    (hF : ∀ i : Nat, i ∈ st'.free_heap ↔ i ∈ st.free_heap)
    (hB : ∀ i : Nat, i ∈ st'.bound_heap ↔ i ∈ st.bound_heap) :
    highs st' = highs st := by
  unfold highs
  rw [hn]
  ext i
  simp only [Finset.mem_filter]
  rw [hF i, hB i]

/-- The bookkeeping invariant only depends on the heaps up to permutation
and on the remaining fields pointwise. -/
theorem Inv_transport (st st' : NapState)
    (hx : st'.x = st.x) (ha : st'.a = st.a) (hn : st'.n = st.n)
    (hbp : st'.breakpts = st.breakpts)
    (hasum : st'.asum = st.asum) (ha2 : st'.a2sum = st.a2sum)
    (hmf : st'.maxfree = st.maxfree) (hmb : st'.maxbound = st.maxbound)
    (hF : st'.free_heap.Perm st.free_heap) (hB : st'.bound_heap.Perm st.bound_heap)
    (hInv : Inv st) : Inv st' := by
  obtain ⟨⟨hfnd, hbnd, hdj, hfn, hbn⟩, ⟨hbpf, hbpb⟩, ⟨hag1, hag2⟩, hm1, hm2⟩ := hInv
  have hFm : ∀ i : Nat, i ∈ st'.free_heap ↔ i ∈ st.free_heap := fun i => hF.mem_iff
  have hBm : ∀ i : Nat, i ∈ st'.bound_heap ↔ i ∈ st.bound_heap := fun i => hB.mem_iff
  have hhi : highs st' = highs st := highs_congr st st' hn hFm hBm
  refine ⟨⟨hF.nodup_iff.mpr hfnd, hB.nodup_iff.mpr hbnd, ?_, ?_, ?_⟩,
    ⟨?_, ?_⟩, ⟨?_, ?_⟩, ?_, ?_⟩
  · intro i hi
    rw [hBm i]
    exact hdj i ((hFm i).mp hi)
  · intro i hi
    rw [hn]
    exact hfn i ((hFm i).mp hi)
  · intro i hi
    rw [hn]
    exact hbn i ((hBm i).mp hi)
  · intro i hi
    rw [hbp, hx, ha]
    exact hbpf i ((hFm i).mp hi)
  · intro i hi
    rw [hbp, hx, ha]
    exact hbpb i ((hBm i).mp hi)
  · rw [hasum, hag1]
    unfold asumSpec
    rw [hx, ha, hhi, Multiset.coe_eq_coe.mpr hF]
  · rw [ha2, hag2]
    unfold a2sumSpec
    rw [ha, Multiset.coe_eq_coe.mpr hF]
  · rw [hmf, hm1, hbp]
    exact listMaxQ_perm ((hF.map st.breakpts).symm)
  · rw [hmb, hm2, hbp]
    exact listMaxQ_perm ((hB.map st.breakpts).symm)

theorem msum_sub (s : Multiset Nat) (f g : Nat → ℚ) :
    msum s (fun e => f e - g e) = msum s f - msum s g := by
  unfold msum
  rw [Multiset.sum_map_sub]

theorem madd_ne_zero_left {s t : Multiset Nat} (hs : s ≠ 0) : s + t ≠ 0 := by
  intro hc
  apply hs
  have := congrArg Multiset.card hc
  rw [Multiset.card_add] at this
  simp only [Multiset.card_zero] at this
  exact Multiset.card_eq_zero.mp (by omega)

theorem madd_ne_zero_right {s t : Multiset Nat} (ht : t ≠ 0) : s + t ≠ 0 := by
  intro hc
  apply ht
  have := congrArg Multiset.card hc
  rw [Multiset.card_add] at this
  simp only [Multiset.card_zero] at this
  exact Multiset.card_eq_zero.mp (by omega)

theorem refreshMaxes_frame (st : NapState) :
    (refreshMaxes st).x = st.x ∧ (refreshMaxes st).a = st.a ∧
    (refreshMaxes st).b = st.b ∧ (refreshMaxes st).n = st.n ∧
    (refreshMaxes st).lambda = st.lambda ∧ (refreshMaxes st).asum = st.asum ∧
    (refreshMaxes st).a2sum = st.a2sum ∧ (refreshMaxes st).breakpts = st.breakpts ∧
    (refreshMaxes st).bound_heap = st.bound_heap ∧
    (refreshMaxes st).free_heap = st.free_heap :=
  ⟨rfl, rfl, rfl, rfl, rfl, rfl, rfl, rfl, rfl, rfl⟩

set_option maxHeartbeats 1600000 in
/-- Master description of one sweep round body.  The bookkeeping invariant
and (from the build on) heap order are preserved; the coordinates move
one-directionally: a multiset `pF` leaves the free heap for the bound-high
set, a multiset `pB` leaves the bound heap and joins the free heap with
refreshed breakpoints; `asum` moves by exactly the popped contributions;
and when `new_break` is finite the round pops at least one element and the
termination potential strictly drops. -/
theorem roundBody_main (first : Bool) (st : NapState)
    (hInv : Inv st) (hHp : first = false → HeapInv st) :
    Inv (roundBody first st) ∧ HeapInv (roundBody first st) ∧
    ∃ pF pB Fr : Multiset Nat,
      ((st.free_heap : Multiset Nat) = pF + Fr) ∧
      (((roundBody first st).free_heap : Multiset Nat) = pB + Fr) ∧
      ((st.bound_heap : Multiset Nat)
        = pB + ((roundBody first st).bound_heap : Multiset Nat)) ∧
      (∀ e ∈ pB, (roundBody first st).breakpts e = bpF st.x st.a e) ∧
      (∀ j : Nat, j ∉ pB → (roundBody first st).breakpts j = st.breakpts j) ∧
      ((roundBody first st).asum
        = st.asum + msum pF (fun e => aw st.a e * (1 - st.x e))
          + msum pB (fun e => aw st.a e * st.x e)) ∧
      (∀ e ∈ pF, e ∈ highs (roundBody first st)) ∧
      (∀ i ∈ highs st, i ∈ highs (roundBody first st)) ∧
      (∀ nbv : ℚ, omax2 st.maxfree st.maxbound = some nbv →
        (∀ e ∈ pF, nbv ≤ st.breakpts e) ∧
        (∀ e ∈ pB, nbv ≤ st.breakpts e) ∧
        (∀ i ∈ (roundBody first st).free_heap,
          i ∉ pB → (roundBody first st).breakpts i < nbv) ∧
        (∀ i ∈ (roundBody first st).bound_heap,
          (roundBody first st).breakpts i < nbv) ∧
        ((roundBody first st).lambda = nbv) ∧
        pF + pB ≠ 0 ∧ phi (roundBody first st) < phi st) := by
  rcases ho : omax2 st.maxfree st.maxbound with _ | nbv
  · have hrb : roundBody first st = st := by
      simp only [roundBody, ho]
    obtain ⟨hmfn, hmbn⟩ := (omax2_eq_none_iff _ _).mp ho
    have hfe : st.free_heap = [] := by
      have hm := hInv.2.2.2.1
      rw [hmfn] at hm
      exact List.map_eq_nil_iff.mp ((listMaxQ_eq_none_iff _).mp hm.symm)
    have hbe : st.bound_heap = [] := by
      have hm := hInv.2.2.2.2
      rw [hmbn] at hm
      exact List.map_eq_nil_iff.mp ((listMaxQ_eq_none_iff _).mp hm.symm)
    rw [hrb]
    refine ⟨hInv, ⟨?_, ?_⟩, 0, 0, (st.free_heap : Multiset Nat),
      by simp, by simp, by simp, by simp, fun j _ => rfl, by simp, by simp,
      fun i hi => hi, ?_⟩
    · rw [hfe]
      exact heapOrd_nil _ _
    · rw [hbe]
      exact heapOrd_nil _ _
    · intro nbv hv
      exact Option.noConfusion hv
  · obtain ⟨hfndS, hbndS, hdjS, hfltS, hbltS⟩ := hInv.1
    have hBpS := hInv.2.1
    have hAggS := hInv.2.2.1
    have hMaxS := hInv.2.2.2
    set st1 : NapState := { st with lambda := nbv } with hst1
    set st2 : NapState := if first then buildHeaps st1 else st1 with hst2
    have hrb : roundBody first st = refreshMaxes (boundPhase (freePhase st2)) := by
      rw [hst2, hst1]
      simp only [roundBody, ho]
    have hcomp : ((st2.free_heap : Multiset Nat) = (st.free_heap : Multiset Nat)) ∧
        ((st2.bound_heap : Multiset Nat) = (st.bound_heap : Multiset Nat)) ∧
        st2.breakpts = st.breakpts ∧ st2.x = st.x ∧ st2.a = st.a ∧ st2.b = st.b ∧
        st2.n = st.n ∧ st2.lambda = nbv ∧ st2.asum = st.asum ∧ st2.a2sum = st.a2sum ∧
        HeapInv st2 ∧ Inv st2 := by
      rw [hst2]
      cases first with
      | false =>
        rw [if_neg Bool.false_ne_true]
        refine ⟨rfl, rfl, rfl, rfl, rfl, rfl, rfl, rfl, rfl, rfl, hHp rfl, ?_⟩
        exact Inv_transport st st1 rfl rfl rfl rfl rfl rfl rfl rfl
          (List.Perm.refl _) (List.Perm.refl _) hInv
      | true =>
        rw [if_pos rfl]
        have hpF : (buildHeaps st1).free_heap.Perm st.free_heap :=
          heapBuild_perm cMax st1.breakpts st.free_heap
        have hpB : (buildHeaps st1).bound_heap.Perm st.bound_heap :=
          heapBuild_perm cMax st1.breakpts st.bound_heap
        refine ⟨Multiset.coe_eq_coe.mpr hpF, Multiset.coe_eq_coe.mpr hpB,
          rfl, rfl, rfl, rfl, rfl, rfl, rfl, rfl, ?_, ?_⟩
        · exact ⟨heapBuild_ord cMax st1.breakpts cMax_A cMax_T st1.free_heap,
            heapBuild_ord cMax st1.breakpts cMax_A cMax_T st1.bound_heap⟩
        · exact Inv_transport st (buildHeaps st1) rfl rfl rfl rfl rfl rfl rfl rfl
            hpF hpB hInv
    obtain ⟨hmsF2, hmsB2, hbp2, hx2, ha2, hb2, hn2, hlam2, hasum2, ha2sum2, hH2, hI2⟩ :=
      hcomp
    have hWF2 := hI2.1
    obtain ⟨pF, hp1, hp2, hp3, hp4, hp5, hp6, hp7, hfx, hfa, hfb, hfnn, hflam,
      hfbp, hfbh, hfmf, hfmb⟩ := freePhase_spec st2 hH2.1
    set st3 : NapState := freePhase st2 with hst3
    have hordB3 : heapOrdC cMax st3.breakpts st3.bound_heap := by
      rw [hfbp, hfbh]
      exact hH2.2
    have hordF3 : heapOrdC cMax st3.breakpts st3.free_heap := by
      rw [hfbp]
      exact hp5
    have hnd3 : st3.bound_heap.Nodup := by
      rw [hfbh]
      exact hWF2.2.1
    have hdj3 : ∀ i ∈ st3.bound_heap, i ∉ st3.free_heap := by
      intro i hiB hiF
      rw [hfbh] at hiB
      have hiF2 : i ∈ st2.free_heap := by
        have hm : (i : Nat) ∈ (st2.free_heap : Multiset Nat) := by
          rw [hp1]
          exact Multiset.mem_add.mpr (Or.inr (by exact_mod_cast hiF))
        exact_mod_cast hm
      exact hWF2.2.2.1 i hiF2 hiB
    obtain ⟨pB, hq1, hq2, hq3, hq4, hq5, hq6, hq7, hq8, hq9, hq10, hq11,
      hgx, hga, hgb, hgn, hglam, hgmf, hgmb⟩ :=
      boundPhase_spec st3 hordB3 hordF3 hnd3 hdj3
    set st4 : NapState := boundPhase st3 with hst4
    have hms_free0 : (st.free_heap : Multiset Nat) = pF + (st3.free_heap : Multiset Nat) := by
      rw [← hmsF2]
      exact hp1
    have hms_bound0 : (st.bound_heap : Multiset Nat)
        = pB + (st4.bound_heap : Multiset Nat) := by
      rw [← hmsB2,
        show ((st2.bound_heap : List Nat) : Multiset Nat)
          = ((st3.bound_heap : List Nat) : Multiset Nat) from by rw [hfbh]]
      exact hq1
    have hndmsF2 : ((st2.free_heap : List Nat) : Multiset Nat).Nodup := by
      exact_mod_cast hWF2.1
    have hndpF : pF.Nodup ∧ (st3.free_heap : Multiset Nat).Nodup
        ∧ Disjoint pF (st3.free_heap : Multiset Nat) := by
      have hm := hndmsF2
      rw [hp1] at hm
      exact Multiset.nodup_add.mp hm
    have hndmsB3 : ((st3.bound_heap : List Nat) : Multiset Nat).Nodup := by
      exact_mod_cast hnd3
    have hndpB : pB.Nodup ∧ (st4.bound_heap : Multiset Nat).Nodup
        ∧ Disjoint pB (st4.bound_heap : Multiset Nat) := by
      have hm := hndmsB3
      rw [hq1] at hm
      exact Multiset.nodup_add.mp hm
    have hpB_sub3 : ∀ e ∈ pB, e ∈ st3.bound_heap := by
      intro e he
      have hm : (e : Nat) ∈ (st3.bound_heap : Multiset Nat) := by
        rw [hq1]
        exact Multiset.mem_add.mpr (Or.inl he)
      exact_mod_cast hm
    have hpB_nF3 : ∀ e ∈ pB, e ∉ st3.free_heap := fun e he => hdj3 e (hpB_sub3 e he)
    have hpB_subB : ∀ e ∈ pB, e ∈ st.bound_heap := by
      intro e he
      have hm : (e : Nat) ∈ (st.bound_heap : Multiset Nat) := by
        rw [hms_bound0]
        exact Multiset.mem_add.mpr (Or.inl he)
      exact_mod_cast hm
    have hpF_sub : ∀ e ∈ pF, e ∈ st.free_heap := by
      intro e he
      have hm : (e : Nat) ∈ (st.free_heap : Multiset Nat) := by
        rw [hms_free0]
        exact Multiset.mem_add.mpr (Or.inl he)
      exact_mod_cast hm
    have hF3_sub : ∀ e ∈ st3.free_heap, e ∈ st.free_heap := by
      intro e he
      have hm : (e : Nat) ∈ (st.free_heap : Multiset Nat) := by
        rw [hms_free0]
        exact Multiset.mem_add.mpr (Or.inr (by exact_mod_cast he))
      exact_mod_cast hm
    have hB4_sub : ∀ e ∈ st4.bound_heap, e ∈ st.bound_heap := by
      intro e he
      have hm : (e : Nat) ∈ (st.bound_heap : Multiset Nat) := by
        rw [hms_bound0]
        exact Multiset.mem_add.mpr (Or.inr (by exact_mod_cast he))
      exact_mod_cast hm
    have hndF4 : st4.free_heap.Nodup := by
      have hm : ((st4.free_heap : List Nat) : Multiset Nat).Nodup := by
        rw [hq2]
        refine Multiset.nodup_add.mpr ⟨hndpB.1, hndpF.2.1, ?_⟩
        rw [Multiset.disjoint_left]
        intro e hepB heF3
        exact hpB_nF3 e hepB (by exact_mod_cast heF3)
      exact_mod_cast hm
    have hmemF4 : ∀ i : Nat, i ∈ st4.free_heap ↔
        (i ∈ pB ∨ i ∈ st3.free_heap) := by
      intro i
      constructor
      · intro hi
        have hm : (i : Nat) ∈ (st4.free_heap : Multiset Nat) := by exact_mod_cast hi
        rw [hq2] at hm
        rcases Multiset.mem_add.mp hm with hm | hm
        · exact Or.inl hm
        · exact Or.inr (by exact_mod_cast hm)
      · intro hi
        have hm : (i : Nat) ∈ (st4.free_heap : Multiset Nat) := by
          rw [hq2]
          rcases hi with hi | hi
          · exact Multiset.mem_add.mpr (Or.inl hi)
          · exact Multiset.mem_add.mpr (Or.inr (by exact_mod_cast hi))
        exact_mod_cast hm
    have hn4 : st4.n = st.n := by
      rw [hgn, hfnn, hn2]
    have hx4 : st4.x = st.x := by
      rw [hgx, hfx, hx2]
    have ha4 : st4.a = st.a := by
      rw [hga, hfa, ha2]
    have hWF4 : WFst st4 := by
      refine ⟨hndF4, hq10.1, ?_, ?_, ?_⟩
      · intro i hiF hiB
        exact hq10.2 i hiB hiF
      · intro i hiF
        rw [hn4]
        rcases (hmemF4 i).mp hiF with hi | hi
        · exact hbltS i (hpB_subB i hi)
        · exact hfltS i (hF3_sub i hi)
      · intro i hiB
        rw [hn4]
        exact hbltS i (hB4_sub i hiB)
    have hq5' : ∀ e ∈ pB, st4.breakpts e = bpF st.x st.a e := by
      intro e he
      have h5 := hq5 e he
      rw [hfx, hx2, hfa, ha2] at h5
      exact h5
    have hq4' : ∀ j : Nat, j ∉ pB → st4.breakpts j = st.breakpts j := by
      intro j hj
      rw [hq4 j hj, hfbp, hbp2]
    have hBp4 : BpInv st4 := by
      constructor
      · intro i hiF
        rw [hx4, ha4]
        rcases (hmemF4 i).mp hiF with hi | hi
        · exact hq5' i hi
        · have hiNpB : i ∉ pB := fun hc => hpB_nF3 i hc hi
          rw [hq4' i hiNpB]
          exact hBpS.1 i (hF3_sub i hi)
      · intro i hiB
        rw [hx4, ha4]
        have hiNpB : i ∉ pB := by
          intro hc
          have hd := hndpB.2.2
          rw [Multiset.disjoint_left] at hd
          exact hd hc (by exact_mod_cast hiB)
        rw [hq4' i hiNpB]
        exact hBpS.2 i (hB4_sub i hiB)
    have hA1 : st4.asum = st.asum + msum pF (fun e => aw st.a e * (1 - st.x e))
        + msum pB (fun e => aw st.a e * st.x e) := by
      have h6 := hq6
      rw [hfa, ha2, hfx, hx2] at h6
      have h3 := hp3
      rw [ha2, hx2, hasum2] at h3
      rw [h6, h3]
    have hA2or : (st4.a2sum = st.a2sum - msum pF (fun e => aw st.a e * aw st.a e)
          + msum pB (fun e => aw st.a e * aw st.a e)) ∨
        (st3.free_heap = [] ∧
          st4.a2sum = msum pB (fun e => aw st.a e * aw st.a e)) := by
      have h7 := hq7
      rw [hfa, ha2] at h7
      rcases hp4 with hp4 | ⟨hfe3, hz3⟩
      · refine Or.inl ?_
        have h4 := hp4
        rw [ha2, ha2sum2] at h4
        rw [h7, h4]
      · refine Or.inr ⟨hfe3, ?_⟩
        rw [h7, hz3, zero_add]
    have hawS : ∀ g : Nat → ℚ, msum (st.free_heap : Multiset Nat) g
        = msum pF g + msum (st3.free_heap : Multiset Nat) g := by
      intro g
      rw [hms_free0, msum_add]
    have hawB : ∀ g : Nat → ℚ, msum (st.bound_heap : Multiset Nat) g
        = msum pB g + msum (st4.bound_heap : Multiset Nat) g := by
      intro g
      rw [hms_bound0, msum_add]
    have hawF4 : ∀ g : Nat → ℚ, msum (st4.free_heap : Multiset Nat) g
        = msum pB g + msum (st3.free_heap : Multiset Nat) g := by
      intro g
      rw [hq2, msum_add]
    have hsplitF : msum pF (fun e => aw st.a e * (1 - st.x e))
        = msum pF (fun e => aw st.a e) - msum pF (fun e => st.x e * aw st.a e) := by
      rw [← msum_sub]
      exact msum_congr _ _ _ (fun e _ => by ring)
    have hcommB : msum pB (fun e => aw st.a e * st.x e)
        = msum pB (fun e => st.x e * aw st.a e) :=
      msum_congr _ _ _ (fun e _ => mul_comm _ _)
    have hasum4 : st4.asum = asumSpec st4 := by
      have e1 := asumSpec_alt st4 hWF4
      rw [hx4, ha4, hn4, hawF4, hawF4] at e1
      have e0 := asumSpec_alt st ⟨hfndS, hbndS, hdjS, hfltS, hbltS⟩
      linarith [e1, e0, hA1, hAggS.1, hawB (fun i => aw st.a i),
        hawS (fun i => st.x i * aw st.a i), hawS (fun i => aw st.a i),
        hsplitF, hcommB]
    have ha2sum4 : st4.a2sum = a2sumSpec st4 := by
      have e1 : a2sumSpec st4
          = msum pB (fun i => aw st.a i * aw st.a i)
            + msum (st3.free_heap : Multiset Nat) (fun i => aw st.a i * aw st.a i) := by
        rw [a2sumSpec_eq, ha4, hawF4]
      rcases hA2or with hA2 | ⟨hfe3, hA2⟩
      · have e0 := hAggS.2
        rw [a2sumSpec_eq] at e0
        linarith [e1, e0, hA2, hawS (fun i => aw st.a i * aw st.a i)]
      · rw [e1, hA2, hfe3]
        simp [msum]
    obtain ⟨hprojX, hprojA, hprojBB, hprojN, hprojLam, hprojAs, hprojA2,
      hprojBp, hprojB, hprojF⟩ := refreshMaxes_frame st4
    have hMax4 : MaxInv (refreshMaxes st4) := by
      constructor
      · show (if 0 < st4.free_heap.length then
            some (st4.breakpts (hget st4.free_heap 1)) else none)
          = listMaxQ (st4.free_heap.map st4.breakpts)
        rcases hc : st4.free_heap with _ | ⟨v, t⟩
        · simp [listMaxQ]
        · rw [if_pos (by simp)]
          exact (maxheap_listMaxQ st4.breakpts (v :: t) (by simp) (hc ▸ hq8.2)).symm
      · show (if 0 < st4.bound_heap.length then
            some (st4.breakpts (hget st4.bound_heap 1)) else none)
          = listMaxQ (st4.bound_heap.map st4.breakpts)
        rcases hc : st4.bound_heap with _ | ⟨v, t⟩
        · simp [listMaxQ]
        · rw [if_pos (by simp)]
          exact (maxheap_listMaxQ st4.breakpts (v :: t) (by simp) (hc ▸ hq8.1)).symm
    have hhiR : highs (refreshMaxes st4) = highs st4 :=
      highs_congr st4 (refreshMaxes st4) rfl (fun i => Iff.rfl) (fun i => Iff.rfl)
    have hInv4 : Inv (refreshMaxes st4) := by
      refine ⟨?_, ?_, ?_, hMax4⟩
      · obtain ⟨w1, w2, w3, w4, w5⟩ := hWF4
        refine ⟨?_, ?_, ?_, ?_, ?_⟩
        · rw [hprojF]
          exact w1
        · rw [hprojB]
          exact w2
        · intro i hi
          rw [hprojF] at hi
          rw [hprojB]
          exact w3 i hi
        · intro i hi
          rw [hprojF] at hi
          rw [hprojN]
          exact w4 i hi
        · intro i hi
          rw [hprojB] at hi
          rw [hprojN]
          exact w5 i hi
      · obtain ⟨b1, b2⟩ := hBp4
        constructor
        · intro i hi
          rw [hprojF] at hi
          rw [hprojBp, hprojX, hprojA]
          exact b1 i hi
        · intro i hi
          rw [hprojB] at hi
          rw [hprojBp, hprojX, hprojA]
          exact b2 i hi
      · constructor
        · rw [hprojAs, hasum4]
          unfold asumSpec
          rw [hhiR, hprojF, hprojX, hprojA]
        · rw [hprojA2, ha2sum4, a2sumSpec_eq, a2sumSpec_eq, hprojF, hprojA]
    have hpF_high : ∀ e ∈ pF, e ∈ highs st4 := by
      intro e he
      have heF : e ∈ st.free_heap := hpF_sub e he
      have heNB : e ∉ st.bound_heap := hdjS e heF
      have heNF3 : e ∉ st3.free_heap := by
        intro hc
        have hd := hndpF.2.2
        rw [Multiset.disjoint_left] at hd
        exact hd he (by exact_mod_cast hc)
      have heNpB : e ∉ pB := fun hc => heNB (hpB_subB e hc)
      refine Finset.mem_filter.mpr ⟨Finset.mem_range.mpr ?_, ?_, ?_⟩
      · rw [hn4]
        exact hfltS e heF
      · intro hc
        rcases (hmemF4 e).mp hc with hc | hc
        · exact heNpB hc
        · exact heNF3 hc
      · intro hc
        exact heNB (hB4_sub e hc)
    have hhighs_mono : ∀ i ∈ highs st, i ∈ highs st4 := by
      intro i hi
      obtain ⟨hir, hiNF, hiNB⟩ := Finset.mem_filter.mp hi
      refine Finset.mem_filter.mpr ⟨Finset.mem_range.mpr ?_, ?_, ?_⟩
      · rw [hn4]
        exact Finset.mem_range.mp hir
      · intro hc
        rcases (hmemF4 i).mp hc with hc | hc
        · exact hiNB (hpB_subB i hc)
        · exact hiNF (hF3_sub i hc)
      · intro hc
        exact hiNB (hB4_sub i hc)
    have hHeap4 : HeapInv (refreshMaxes st4) := by
      constructor
      · rw [hprojBp, hprojF]
        exact hq8.2
      · rw [hprojBp, hprojB]
        exact hq8.1
    rw [hrb]
    refine ⟨hInv4, hHeap4, pF, pB, (st3.free_heap : Multiset Nat),
      hms_free0, ?_, ?_, ?_, ?_, ?_, ?_, ?_, ?_⟩
    · rw [hprojF]
      exact hq2
    · rw [hprojB]
      exact hms_bound0
    · intro e he
      rw [hprojBp]
      exact hq5' e he
    · intro j hj
      rw [hprojBp]
      exact hq4' j hj
    · rw [hprojAs]
      exact hA1
    · intro e he
      rw [hhiR]
      exact hpF_high e he
    · intro i hi
      rw [hhiR]
      exact hhighs_mono i hi
    · intro nbv' hv
      injection hv with hveq
      subst hveq
      have hp2' : ∀ e ∈ pF, nbv ≤ st.breakpts e := by
        intro e he
        have h := hp2 e he
        rw [hlam2, hbp2] at h
        exact h
      have hq3' : ∀ e ∈ pB, nbv ≤ st.breakpts e := by
        intro e he
        have h := hq3 e he
        rw [hflam, hlam2, hfbp, hbp2] at h
        exact h
      have hne0 : pF + pB ≠ 0 := by
        rcases (omax2_spec _ _ _ ho).1 with hcase | hcase
        · have hlmq : listMaxQ (st.free_heap.map st.breakpts) = some nbv := by
            rw [← hMaxS.1, hcase]
          have hperm2 : st2.free_heap.Perm st.free_heap := Multiset.coe_eq_coe.mp hmsF2
          have hne2 : st2.free_heap ≠ [] := by
            intro hc
            have hp := hperm2
            rw [hc] at hp
            have hnil : st.free_heap = [] := hp.symm.eq_nil
            rw [hnil] at hlmq
            simp [listMaxQ] at hlmq
          have h1 := maxheap_listMaxQ st2.breakpts st2.free_heap hne2 hH2.1
          have h2 : listMaxQ (st2.free_heap.map st2.breakpts) = some nbv := by
            rw [hbp2, listMaxQ_perm (hperm2.map st.breakpts)]
            exact hlmq
          rw [h1] at h2
          injection h2 with htop
          refine madd_ne_zero_left (hp7 hne2 ?_)
          rw [hlam2, htop]
        · have hlmq : listMaxQ (st.bound_heap.map st.breakpts) = some nbv := by
            rw [← hMaxS.2, hcase]
          have hpermB2 : st2.bound_heap.Perm st.bound_heap := Multiset.coe_eq_coe.mp hmsB2
          have hperm3 : st3.bound_heap.Perm st.bound_heap := by
            rw [hfbh]
            exact hpermB2
          have hne3 : st3.bound_heap ≠ [] := by
            intro hc
            have hp := hperm3
            rw [hc] at hp
            have hnil : st.bound_heap = [] := hp.symm.eq_nil
            rw [hnil] at hlmq
            simp [listMaxQ] at hlmq
          have h1 := maxheap_listMaxQ st3.breakpts st3.bound_heap hne3 hordB3
          have h2 : listMaxQ (st3.bound_heap.map st3.breakpts) = some nbv := by
            rw [hfbp, hbp2, listMaxQ_perm (hperm3.map st.breakpts)]
            exact hlmq
          rw [h1] at h2
          injection h2 with htop
          refine madd_ne_zero_right (hq11 hne3 ?_)
          rw [hflam, hlam2, htop]
      refine ⟨hp2', hq3', ?_, ?_, ?_, hne0, ?_⟩
      · intro i hiF hiNpB
        rw [hprojF] at hiF
        rcases (hmemF4 i).mp hiF with hc | hc
        · exact absurd hc hiNpB
        · rw [hprojBp, hq4' i hiNpB]
          have h := hp6 i hc
          rw [hbp2, hlam2] at h
          exact h
      · intro i hiB
        rw [hprojB] at hiB
        rw [hprojBp]
        have h := hq9 i hiB
        rw [hflam, hlam2] at h
        exact h
      · rw [hprojLam, hglam, hflam, hlam2]
      · have hc1 := congrArg Multiset.card hms_free0
        have hc2 := congrArg Multiset.card hq2
        have hc3 := congrArg Multiset.card hms_bound0
        simp only [Multiset.card_add, Multiset.coe_card] at hc1 hc2 hc3
        have hposc : 0 < Multiset.card pF + Multiset.card pB := by
          by_contra hcon
          push_neg at hcon
          have hcz : Multiset.card (pF + pB) = 0 := by
            rw [Multiset.card_add]
            omega
          exact hne0 (Multiset.card_eq_zero.mp hcz)
        have hphiR : phi (refreshMaxes st4)
            = 2 * st4.bound_heap.length + st4.free_heap.length := by
          unfold phi
          rw [hprojB, hprojF]
        have hphiS : phi st = 2 * st.bound_heap.length + st.free_heap.length := rfl
        rw [hphiR, hphiS]
        omega

/-! ## The invariant chain over the sweep rounds -/

theorem stateAtRound_inv (st0 : NapState) (h0 : Inv st0) : ∀ k : Nat,
    Inv (stateAtRound st0 k) ∧ (1 ≤ k → HeapInv (stateAtRound st0 k)) := by
  intro k
  induction k with
  | zero => exact ⟨h0, by omega⟩
  | succ k ih =>
    have hHp : (k == 0) = false → HeapInv (stateAtRound st0 k) := by
      intro hk
      refine ih.2 ?_
      have hk' : ¬(k = 0) := by simpa using hk
      omega
    obtain ⟨hi, hh, _⟩ := roundBody_main (k == 0) (stateAtRound st0 k) ih.1 hHp
    exact ⟨hi, fun _ => hh⟩

theorem stateAtRound_highs_mono (st0 : NapState) (h0 : Inv st0) (k : Nat) :
    ∀ m : Nat, ∀ i ∈ highs (stateAtRound st0 k), i ∈ highs (stateAtRound st0 (k + m)) := by
  intro m
  induction m with
  | zero => exact fun i hi => hi
  | succ m ih =>
    intro i hi
    have hInvk := (stateAtRound_inv st0 h0 (k + m)).1
    have hHp : ((k + m) == 0) = false → HeapInv (stateAtRound st0 (k + m)) := by
      intro hk
      refine (stateAtRound_inv st0 h0 (k + m)).2 ?_
      have hk' : ¬(k + m = 0) := by simpa using hk
      omega
    obtain ⟨_, _, pF, pB, Fr, _, _, _, _, _, _, _, hmono, _⟩ :=
      roundBody_main ((k + m) == 0) (stateAtRound st0 (k + m)) hInvk hHp
    exact hmono i (ih i hi)

/-! ## Totality of the sweep within the round bound -/

theorem napLoop_total : ∀ (fuel : Nat) (first : Bool) (st : NapState),
    phi st < fuel → Inv st → (first = false → HeapInv st) →
    ∃ r, napLoop fuel first st = some r := by
  intro fuel
  induction fuel with
  | zero =>
    intro first st hphi _ _
    omega
  | succ fuel ih =>
    intro first st hphi hInv hHp
    rcases hce : checkExit st with _ | r
    · obtain ⟨hi, hh, pF, pB, Fr, _, _, _, _, _, _, _, _, hblock⟩ :=
        roundBody_main first st hInv hHp
      have hsome : ∃ nbv, omax2 st.maxfree st.maxbound = some nbv := by
        rcases h : omax2 st.maxfree st.maxbound with _ | v
        · simp only [checkExit, h] at hce
          exact Option.noConfusion hce
        · exact ⟨v, rfl⟩
      obtain ⟨nbv, hnbv⟩ := hsome
      obtain ⟨_, _, _, _, _, _, hphi'⟩ := hblock nbv hnbv
      have hrun : napLoop (fuel + 1) first st = napLoop fuel false (roundBody first st) := by
        simp only [napLoop, hce]
      rw [hrun]
      exact ih false (roundBody first st) (by omega) hi (fun _ => hh)
    · exact ⟨r, by simp only [napLoop, hce]⟩

theorem phi_partition_le (x : Nat → ℚ) (n : Nat) (lam : ℚ) (a : Option (Nat → ℚ))
    (b : ℚ) (bp0 : Nat → ℚ) : phi (partitionPass x n lam a b bp0) ≤ 2 * n := by
  obtain ⟨⟨hfnd, hbnd, hdj, hflt, hblt⟩, _, _, _⟩ := partitionPass_inv x n lam a b bp0
  set st := partitionPass x n lam a b bp0 with hst
  have hn : st.n = n :=
    (partitionPass_go x a lam b n bp0 n st (by rw [hst]; rfl)).1.2.2.2.1
  have hndapp : (st.bound_heap ++ st.free_heap).Nodup := by
    rw [List.nodup_append]
    exact ⟨hbnd, hfnd, fun i hiB hiF => hdj i hiF hiB⟩
  have hsub : (st.bound_heap ++ st.free_heap).toFinset ⊆ Finset.range n := by
    intro i hi
    rw [List.mem_toFinset, List.mem_append] at hi
    rcases hi with hi | hi
    · exact Finset.mem_range.mpr (hn ▸ hblt i hi)
    · exact Finset.mem_range.mpr (hn ▸ hflt i hi)
  have hcard : (st.bound_heap ++ st.free_heap).toFinset.card
      = (st.bound_heap ++ st.free_heap).length :=
    List.toFinset_card_of_nodup hndapp
  have hle : (st.bound_heap ++ st.free_heap).toFinset.card ≤ n := by
    have := Finset.card_le_card hsub
    simpa using this
  have hlen : st.bound_heap.length + st.free_heap.length ≤ n := by
    rw [hcard, List.length_append] at hle
    exact hle
  unfold phi
  omega

/-! ## The slope function: clamp algebra, monotonicity, representation -/

theorem clamp01_mono {s t : ℚ} (h : s ≤ t) : clamp01 s ≤ clamp01 t := by
  unfold clamp01
  exact min_le_min le_rfl (max_le_max le_rfl h)

theorem clamp01_nonneg (t : ℚ) : 0 ≤ clamp01 t :=
  le_min (by norm_num) (le_max_left 0 t)

theorem clamp01_le_one (t : ℚ) : clamp01 t ≤ 1 := min_le_left 1 _

theorem clamp01_of_ge_one {t : ℚ} (h : 1 ≤ t) : clamp01 t = 1 := by
  unfold clamp01
  rw [max_eq_right (by linarith), min_eq_left h]

theorem clamp01_of_le_zero {t : ℚ} (h : t ≤ 0) : clamp01 t = 0 := by
  unfold clamp01
  rw [max_eq_left h, min_eq_right (by norm_num)]

theorem clamp01_of_mem {t : ℚ} (h0 : 0 ≤ t) (h1 : t ≤ 1) : clamp01 t = t := by
  unfold clamp01
  rw [max_eq_right h0, min_eq_right h1]

theorem aw_pos {a : Option (Nat → ℚ)} {n : Nat} (h : PosA a n) :
    ∀ i < n, 0 < aw a i := by
  intro i hi
  cases a with
  | none => norm_num [aw]
  | some f => exact h i hi

theorem bpF_eq (x : Nat → ℚ) (a : Option (Nat → ℚ)) (i : Nat) :
    bpF x a i = (x i - 1) / aw a i := by
  cases a <;> simp [bpF, aw]

theorem bpB_eq (x : Nat → ℚ) (a : Option (Nat → ℚ)) (i : Nat) :
    bpB x a i = x i / aw a i := by
  cases a <;> simp [bpB, aw]

/-- The slope is nonincreasing in the multiplier (weights positive). -/
theorem sTrue_antitone (x : Nat → ℚ) (a : Option (Nat → ℚ)) (n : Nat)
    (hpos : PosA a n) {lam mu : ℚ} (h : lam ≤ mu) :
    sTrue x a n mu ≤ sTrue x a n lam := by
  unfold sTrue
  refine Finset.sum_le_sum ?_
  intro i hi
  have hai : 0 < aw a i := aw_pos hpos i (Finset.mem_range.mp hi)
  refine mul_le_mul_of_nonneg_right (clamp01_mono ?_) hai.le
  nlinarith

/-- The slope never exceeds the total weight. -/
theorem sTrue_le_total (x : Nat → ℚ) (a : Option (Nat → ℚ)) (n : Nat)
    (hpos : PosA a n) (lam : ℚ) :
    sTrue x a n lam ≤ ∑ i ∈ Finset.range n, aw a i := by
  unfold sTrue
  refine Finset.sum_le_sum ?_
  intro i hi
  have hai : 0 < aw a i := aw_pos hpos i (Finset.mem_range.mp hi)
  calc clamp01 (x i - aw a i * lam) * aw a i
      ≤ 1 * aw a i := mul_le_mul_of_nonneg_right (clamp01_le_one _) hai.le
    _ = aw a i := one_mul _

theorem a2sum_nonneg (st : NapState) (hAgg : AggInv st) : 0 ≤ st.a2sum := by
  rw [hAgg.2, a2sumSpec_eq]
  exact msum_nonneg _ _ (fun e _ => mul_self_nonneg _)

/-- Representation of the slope at a multiplier below the current regime:
once every live breakpoint is at most `lam`, free coordinates are exactly
linear, bound-low coordinates clamp to `0` and bound-high to `1`, so the
slope is the affine function `asum - lam * a2sum` of the aggregates. -/
theorem sTrue_rep (st : NapState) (hWF : WFst st) (hBp : BpInv st) (hAgg : AggInv st)
    (hpos : PosSt st) (lam : ℚ)
    (hF1 : ∀ i ∈ st.free_heap, st.breakpts i ≤ lam)
    (hB1 : ∀ i ∈ st.bound_heap, st.breakpts i ≤ lam)
    (hF2 : ∀ i ∈ st.free_heap, lam * aw st.a i ≤ st.x i)
    (hH : ∀ i ∈ highs st, 1 ≤ st.x i - aw st.a i * lam) :
    sTrue st.x st.a st.n lam = st.asum - lam * st.a2sum := by
  obtain ⟨hfnd, hbnd, hdj, hflt, hblt⟩ := hWF
  unfold sTrue
  rw [← Finset.sum_filter_add_sum_filter_not (Finset.range st.n)
    (fun i => i ∈ st.free_heap) (fun i => clamp01 (st.x i - aw st.a i * lam) * aw st.a i)]
  rw [← Finset.sum_filter_add_sum_filter_not
    ((Finset.range st.n).filter (fun i => ¬i ∈ st.free_heap))
    (fun i => i ∈ st.bound_heap) (fun i => clamp01 (st.x i - aw st.a i * lam) * aw st.a i)]
  have hFset : (Finset.range st.n).filter (fun i => i ∈ st.free_heap)
      = st.free_heap.toFinset := by
    ext i
    simp only [Finset.mem_filter, Finset.mem_range, List.mem_toFinset]
    exact ⟨fun h => h.2, fun h => ⟨hflt i h, h⟩⟩
  have hBset : ((Finset.range st.n).filter (fun i => ¬i ∈ st.free_heap)).filter
      (fun i => i ∈ st.bound_heap) = st.bound_heap.toFinset := by
    rw [Finset.filter_filter]
    ext i
    simp only [Finset.mem_filter, Finset.mem_range, List.mem_toFinset]
    constructor
    · rintro ⟨_, _, h⟩
      exact h
    · intro h
      exact ⟨hblt i h, fun hc => hdj i hc h, h⟩
  have hHset : ((Finset.range st.n).filter (fun i => ¬i ∈ st.free_heap)).filter
      (fun i => ¬i ∈ st.bound_heap) = highs st := by
    rw [Finset.filter_filter]
    unfold highs
    refine Finset.filter_congr ?_
    intro i _
    constructor
    · rintro ⟨h1, h2⟩
      exact ⟨h1, h2⟩
    · rintro ⟨h1, h2⟩
      exact ⟨h1, h2⟩
  have hsumF : ∑ i ∈ st.free_heap.toFinset,
      clamp01 (st.x i - aw st.a i * lam) * aw st.a i
      = ∑ i ∈ st.free_heap.toFinset,
        (st.x i * aw st.a i - lam * (aw st.a i * aw st.a i)) := by
    refine Finset.sum_congr rfl ?_
    intro i hi
    rw [List.mem_toFinset] at hi
    have hai : 0 < aw st.a i := aw_pos hpos i (hflt i hi)
    have h1 := hF1 i hi
    rw [hBp.1 i hi, bpF_eq, div_le_iff₀ hai] at h1
    have hupper : st.x i - aw st.a i * lam ≤ 1 := by nlinarith
    have hlower : 0 ≤ st.x i - aw st.a i * lam := by nlinarith [hF2 i hi]
    rw [clamp01_of_mem hlower hupper]
    ring
  have hsumB : ∑ i ∈ st.bound_heap.toFinset,
      clamp01 (st.x i - aw st.a i * lam) * aw st.a i = 0 := by
    refine Finset.sum_eq_zero ?_
    intro i hi
    rw [List.mem_toFinset] at hi
    have hai : 0 < aw st.a i := aw_pos hpos i (hblt i hi)
    have h1 := hB1 i hi
    rw [hBp.2 i hi, bpB_eq, div_le_iff₀ hai] at h1
    rw [clamp01_of_le_zero (by nlinarith)]
    ring
  have hsumH : ∑ i ∈ highs st, clamp01 (st.x i - aw st.a i * lam) * aw st.a i
      = ∑ i ∈ highs st, aw st.a i := by
    refine Finset.sum_congr rfl ?_
    intro i hi
    rw [clamp01_of_ge_one (hH i hi)]
    ring
  rw [hFset, hBset, hHset, hsumF, hsumB, hsumH, Finset.sum_sub_distrib,
    ← Finset.mul_sum, sum_toFinset_msum _ hfnd, sum_toFinset_msum _ hfnd,
    hAgg.1, hAgg.2]
  unfold asumSpec a2sumSpec
  ring

/-- Every live breakpoint is bounded by the finite `new_break`. -/
theorem max_ub (st : NapState) (hMax : MaxInv st) (nbv : ℚ)
    (ho : omax2 st.maxfree st.maxbound = some nbv) :
    (∀ i ∈ st.free_heap, st.breakpts i ≤ nbv) ∧
    (∀ i ∈ st.bound_heap, st.breakpts i ≤ nbv) := by
  obtain ⟨hv1, hv2⟩ := (omax2_spec _ _ _ ho).2
  constructor
  · intro i hi
    rcases hmf : st.maxfree with _ | v
    · have hm := hMax.1
      rw [hmf] at hm
      have hnil : st.free_heap = [] :=
        List.map_eq_nil_iff.mp ((listMaxQ_eq_none_iff _).mp hm.symm)
      rw [hnil] at hi
      simp at hi
    · have hlm : listMaxQ (st.free_heap.map st.breakpts) = some v := by
        rw [← hMax.1, hmf]
      obtain ⟨_, hub⟩ := listMaxQ_spec _ _ hlm
      exact le_trans (hub _ (List.mem_map_of_mem st.breakpts hi)) (hv1 v hmf)
  · intro i hi
    rcases hmb : st.maxbound with _ | v
    · have hm := hMax.2
      rw [hmb] at hm
      have hnil : st.bound_heap = [] :=
        List.map_eq_nil_iff.mp ((listMaxQ_eq_none_iff _).mp hm.symm)
      rw [hnil] at hi
      simp at hi
    · have hlm : listMaxQ (st.bound_heap.map st.breakpts) = some v := by
        rw [← hMax.2, hmb]
      obtain ⟨_, hub⟩ := listMaxQ_spec _ _ hlm
      exact le_trans (hub _ (List.mem_map_of_mem st.breakpts hi)) (hv2 v hmb)

/-- The finite `new_break` is the breakpoint of some live coordinate. -/
theorem max_achieved (st : NapState) (hMax : MaxInv st) (nbv : ℚ)
    (ho : omax2 st.maxfree st.maxbound = some nbv) :
    (∃ i ∈ st.free_heap, st.breakpts i = nbv) ∨
    (∃ i ∈ st.bound_heap, st.breakpts i = nbv) := by
  rcases (omax2_spec _ _ _ ho).1 with hc | hc
  · refine Or.inl ?_
    have hm := hMax.1
    rw [hc] at hm
    obtain ⟨hmem, _⟩ := listMaxQ_spec _ _ hm.symm
    obtain ⟨i, hi, heq⟩ := List.mem_map.mp hmem
    exact ⟨i, hi, heq⟩
  · refine Or.inr ?_
    have hm := hMax.2
    rw [hc] at hm
    obtain ⟨hmem, _⟩ := listMaxQ_spec _ _ hm.symm
    obtain ⟨i, hi, heq⟩ := List.mem_map.mp hmem
    exact ⟨i, hi, heq⟩

/-- Under the regime invariant the finite `new_break` is strictly below the
current multiplier. -/
theorem max_lt_lambda (st : NapState) (hMax : MaxInv st) (hReg : RegInv st)
    (nbv : ℚ) (ho : omax2 st.maxfree st.maxbound = some nbv) :
    nbv < st.lambda := by
  rcases max_achieved st hMax nbv ho with ⟨i, hi, heq⟩ | ⟨i, hi, heq⟩
  · rw [← heq]
    exact hReg.2.2.1 i hi
  · rw [← heq]
    exact hReg.2.2.2 i hi

/-- Soundness of the exit test: under the invariant bundle, whenever the
round returns, the returned multiplier solves the dual equation
`sTrue(lambda) = b`. -/
theorem exit_sound (st : NapState) (hInv : Inv st) (hReg : RegInv st)
    (hSl : SlopeLe st) (hpos : PosSt st)
    (hEx : ∃ lamt, lamt ≤ st.lambda ∧ sTrue st.x st.a st.n lamt = st.b)
    (r : ℚ) (hce : checkExit st = some r) :
    sTrue st.x st.a st.n r = st.b := by
  obtain ⟨hWF, hBp, hAgg, hMax⟩ := hInv
  obtain ⟨hR1, hR2, hR3, hR4⟩ := hReg
  have hSl' : sTrue st.x st.a st.n st.lambda ≤ st.b := hSl
  have hrepL : sTrue st.x st.a st.n st.lambda = st.asum - st.lambda * st.a2sum :=
    sTrue_rep st hWF hBp hAgg hpos st.lambda
      (fun i hi => le_of_lt (hR3 i hi)) (fun i hi => le_of_lt (hR4 i hi)) hR1 hR2
  rcases ho : omax2 st.maxfree st.maxbound with _ | nbv
  · have hr : r = exitLambda st := by
      simp only [checkExit, ho] at hce
      exact (Option.some_inj.mp hce).symm
    obtain ⟨hmf, hmb⟩ := (omax2_eq_none_iff _ _).mp ho
    have hfe : st.free_heap = [] := by
      have hm := hMax.1
      rw [hmf] at hm
      exact List.map_eq_nil_iff.mp ((listMaxQ_eq_none_iff _).mp hm.symm)
    have hbe : st.bound_heap = [] := by
      have hm := hMax.2
      rw [hmb] at hm
      exact List.map_eq_nil_iff.mp ((listMaxQ_eq_none_iff _).mp hm.symm)
    have hz : st.a2sum = 0 := by
      rw [hAgg.2, a2sumSpec_eq, hfe]
      simp [msum]
    have hrl : exitLambda st = st.lambda := by
      unfold exitLambda
      rw [if_neg (by simp [hz])]
    subst hr
    rw [hrl]
    obtain ⟨lamt, hlt, hval⟩ := hEx
    have hasum_total : st.asum = ∑ i ∈ Finset.range st.n, aw st.a i := by
      rw [hAgg.1]
      unfold asumSpec
      have hhr : highs st = Finset.range st.n := by
        unfold highs
        rw [hfe, hbe]
        ext i
        simp
      rw [hhr, hfe]
      simp [msum]
    have h2 : st.b ≤ sTrue st.x st.a st.n st.lambda := by
      rw [hrepL, hz, mul_zero, sub_zero, hasum_total, ← hval]
      exact sTrue_le_total st.x st.a st.n hpos lamt
    linarith [hSl']
  · have hble : st.b ≤ st.asum - nbv * st.a2sum := by
      by_contra hcon
      simp only [checkExit, ho] at hce
      rw [if_neg hcon] at hce
      exact Option.noConfusion hce
    have hr : r = exitLambda st := by
      simp only [checkExit, ho] at hce
      rw [if_pos hble] at hce
      exact (Option.some_inj.mp hce).symm
    obtain ⟨hubF, hubB⟩ := max_ub st hMax nbv ho
    by_cases hz : st.a2sum = 0
    · have hrl : exitLambda st = st.lambda := by
        unfold exitLambda
        rw [if_neg (by simp [hz])]
      subst hr
      rw [hrl]
      have h1 : st.b ≤ st.asum := by
        rw [hz] at hble
        linarith [hble]
      have h2 : sTrue st.x st.a st.n st.lambda = st.asum := by
        rw [hrepL, hz]
        ring
      linarith [hSl', h2]
    · have hzpos : 0 < st.a2sum := lt_of_le_of_ne (a2sum_nonneg st hAgg) (Ne.symm hz)
      have hrl : exitLambda st = (st.asum - st.b) / st.a2sum := by
        unfold exitLambda
        rw [if_pos hz]
      subst hr
      rw [hrl]
      have hge : nbv ≤ (st.asum - st.b) / st.a2sum := by
        rw [le_div_iff₀ hzpos]
        linarith [hble]
      have hle : (st.asum - st.b) / st.a2sum ≤ st.lambda := by
        rw [div_le_iff₀ hzpos]
        linarith [hSl', hrepL]
      have hrep : sTrue st.x st.a st.n ((st.asum - st.b) / st.a2sum)
          = st.asum - ((st.asum - st.b) / st.a2sum) * st.a2sum := by
        refine sTrue_rep st hWF hBp hAgg hpos _ ?_ ?_ ?_ ?_
        · intro i hi
          exact le_trans (hubF i hi) hge
        · intro i hi
          exact le_trans (hubB i hi) hge
        · intro i hi
          have hai : 0 < aw st.a i := aw_pos hpos i (hWF.2.2.2.1 i hi)
          have h0 := hR1 i hi
          nlinarith [hle]
        · intro i hi
          have hilt : i < st.n := Finset.mem_range.mp (Finset.mem_filter.mp hi).1
          have hai : 0 < aw st.a i := aw_pos hpos i hilt
          have h0 := hR2 i hi
          nlinarith [hle]
      rw [hrep, div_mul_cancel₀ _ hz]
      ring

/-- Preservation of the regime bundle over one non-exiting round: the new
multiplier `new_break` keeps all live breakpoints strictly below it, the
slope at the new multiplier still undershoots `b`, and any solution below
the old multiplier is in fact below `new_break`. -/
theorem roundBody_reg (first : Bool) (st : NapState)
    (hInv : Inv st) (hHp : first = false → HeapInv st)
    (hReg : RegInv st) (hSl : SlopeLe st) (hpos : PosSt st)
    (nbv : ℚ) (ho : omax2 st.maxfree st.maxbound = some nbv)
    (hnoexit : ¬ st.b ≤ st.asum - nbv * st.a2sum) :
    RegInv (roundBody first st) ∧ SlopeLe (roundBody first st) ∧
    (∀ lamt, lamt ≤ st.lambda → sTrue st.x st.a st.n lamt = st.b → lamt ≤ nbv) := by
  obtain ⟨hfrx, hfra, hfrb, hfrn⟩ := roundBody_frame first st
  obtain ⟨hInv', hH', pF, pB, Fr, hm1, hm2, hm3, hm4, hm5, hm6, hm7, hm8, hblock⟩ :=
    roundBody_main first st hInv hHp
  obtain ⟨hpopF, hpopB, hstopF, hstopB, hlam', hne0, hphi⟩ := hblock nbv ho
  obtain ⟨hWF, hBp, hAgg, hMax⟩ := hInv
  obtain ⟨hR1, hR2, hR3, hR4⟩ := hReg
  obtain ⟨hfnd, hbnd, hdj, hflt, hblt⟩ := hWF
  obtain ⟨hubF, hubB⟩ := max_ub st hMax nbv ho
  have hnlt : nbv < st.lambda := max_lt_lambda st hMax ⟨hR1, hR2, hR3, hR4⟩ nbv ho
  have hawpos : ∀ i : Nat, i ∈ st.free_heap ∨ i ∈ st.bound_heap → 0 < aw st.a i := by
    intro i hi
    rcases hi with hi | hi
    · exact aw_pos hpos i (hflt i hi)
    · exact aw_pos hpos i (hblt i hi)
  have hpF_sub : ∀ e ∈ pF, e ∈ st.free_heap := by
    intro e he
    have hm : (e : Nat) ∈ (st.free_heap : Multiset Nat) := by
      rw [hm1]
      exact Multiset.mem_add.mpr (Or.inl he)
    exact_mod_cast hm
  have hFr_subF : ∀ e ∈ Fr, e ∈ st.free_heap := by
    intro e he
    have hm : (e : Nat) ∈ (st.free_heap : Multiset Nat) := by
      rw [hm1]
      exact Multiset.mem_add.mpr (Or.inr he)
    exact_mod_cast hm
  have hpB_sub : ∀ e ∈ pB, e ∈ st.bound_heap := by
    intro e he
    have hm : (e : Nat) ∈ (st.bound_heap : Multiset Nat) := by
      rw [hm3]
      exact Multiset.mem_add.mpr (Or.inl he)
    exact_mod_cast hm
  have hbpFpop : ∀ e ∈ pF, st.breakpts e = nbv := fun e he =>
    le_antisymm (hubF e (hpF_sub e he)) (hpopF e he)
  have hbpBpop : ∀ e ∈ pB, st.breakpts e = nbv := fun e he =>
    le_antisymm (hubB e (hpB_sub e he)) (hpopB e he)
  have hxpB : ∀ e ∈ pB, st.x e = nbv * aw st.a e := by
    intro e he
    have hb := hBp.2 e (hpB_sub e he)
    rw [bpB_eq] at hb
    have h := hbpBpop e he
    rw [hb] at h
    have hai := hawpos e (Or.inr (hpB_sub e he))
    exact (div_eq_iff hai.ne').mp h
  have hmemF' : ∀ i : Nat, i ∈ (roundBody first st).free_heap ↔ (i ∈ pB ∨ i ∈ Fr) := by
    intro i
    constructor
    · intro hi
      have hm : (i : Nat) ∈ ((roundBody first st).free_heap : Multiset Nat) := by
        exact_mod_cast hi
      rw [hm2] at hm
      exact Multiset.mem_add.mp hm
    · intro hi
      have hm : (i : Nat) ∈ ((roundBody first st).free_heap : Multiset Nat) := by
        rw [hm2]
        exact Multiset.mem_add.mpr hi
      exact_mod_cast hm
  have hrepN : sTrue st.x st.a st.n nbv = st.asum - nbv * st.a2sum := by
    refine sTrue_rep st ⟨hfnd, hbnd, hdj, hflt, hblt⟩ hBp hAgg hpos nbv hubF hubB ?_ ?_
    · intro i hi
      have hai := hawpos i (Or.inl hi)
      have h0 := hR1 i hi
      nlinarith [hnlt]
    · intro i hi
      have hai : 0 < aw st.a i :=
        aw_pos hpos i (Finset.mem_range.mp (Finset.mem_filter.mp hi).1)
      have h0 := hR2 i hi
      nlinarith [hnlt]
  refine ⟨⟨?_, ?_, ?_, ?_⟩, ?_, ?_⟩
  · intro i hi
    rw [hlam', hfra, hfrx]
    rcases (hmemF' i).mp hi with hc | hc
    · rw [hxpB i hc]
    · have hiF := hFr_subF i hc
      have hai := hawpos i (Or.inl hiF)
      have h0 := hR1 i hiF
      nlinarith [hnlt]
  · intro i hi
    rw [hlam', hfra, hfrx]
    obtain ⟨hir, hiNF, hiNB⟩ := Finset.mem_filter.mp hi
    rw [hfrn] at hir
    by_cases hcF : i ∈ st.free_heap
    · have hiNFr : i ∉ Fr := by
        intro hc
        exact hiNF ((hmemF' i).mpr (Or.inr hc))
      have hipF : i ∈ pF := by
        have hm : (i : Nat) ∈ (st.free_heap : Multiset Nat) := by exact_mod_cast hcF
        rw [hm1] at hm
        rcases Multiset.mem_add.mp hm with hm | hm
        · exact hm
        · exact absurd hm hiNFr
      have hb := hBp.1 i hcF
      rw [bpF_eq] at hb
      have heq := hbpFpop i hipF
      rw [hb] at heq
      have hai := hawpos i (Or.inl hcF)
      have hx1 : st.x i - 1 = nbv * aw st.a i := (div_eq_iff hai.ne').mp heq
      have hcm : aw st.a i * nbv = nbv * aw st.a i := mul_comm _ _
      linarith [hx1, hcm]
    · by_cases hcB : i ∈ st.bound_heap
      · exfalso
        have hm : (i : Nat) ∈ (st.bound_heap : Multiset Nat) := by exact_mod_cast hcB
        rw [hm3] at hm
        rcases Multiset.mem_add.mp hm with hm | hm
        · exact hiNF ((hmemF' i).mpr (Or.inl hm))
        · exact hiNB (by exact_mod_cast hm)
      · have hih : i ∈ highs st := Finset.mem_filter.mpr ⟨hir, hcF, hcB⟩
        have h0 := hR2 i hih
        have hai : 0 < aw st.a i := aw_pos hpos i (Finset.mem_range.mp hir)
        nlinarith [hnlt]
  · intro i hi
    rw [hlam']
    rcases (hmemF' i).mp hi with hc | hc
    · rw [hm4 i hc, bpF_eq]
      have hiB := hpB_sub i hc
      have hai := hawpos i (Or.inr hiB)
      rw [div_lt_iff₀ hai]
      have hx := hxpB i hc
      linarith [hx]
    · have hiNpB : i ∉ pB := by
        intro hcon
        exact hdj i (hFr_subF i hc) (hpB_sub i hcon)
      exact hstopF i hi hiNpB
  · intro i hi
    rw [hlam']
    exact hstopB i hi
  · show sTrue (roundBody first st).x (roundBody first st).a (roundBody first st).n
        (roundBody first st).lambda ≤ (roundBody first st).b
    rw [hfrx, hfra, hfrn, hfrb, hlam', hrepN]
    linarith [not_le.mp hnoexit]
  · intro lamt hlt hval
    by_contra hcon
    push_neg at hcon
    have hmono := sTrue_antitone st.x st.a st.n hpos (le_of_lt hcon)
    have hlt2 : st.asum - nbv * st.a2sum < st.b := not_le.mp hnoexit
    linarith [hmono, hval, hrepN, hlt2]

/-- The regime invariant holds at the partition state (positive weights). -/
theorem partition_reg (x : Nat → ℚ) (n : Nat) (lam : ℚ) (a : Option (Nat → ℚ))
    (b : ℚ) (bp0 : Nat → ℚ) (hpos : PosA a n) :
    RegInv (partitionPass x n lam a b bp0) := by
  obtain ⟨⟨hx, ha, hb, hn, hlam⟩, hfmem, hbmem, _, ⟨hfbp, hbbp⟩, _, _, _⟩ :=
    partitionPass_go x a lam b n bp0 n (partitionPass x n lam a b bp0) rfl
  refine ⟨?_, ?_, ?_, ?_⟩
  · intro i hi
    rw [hx, ha, hlam]
    have hm := (hfmem i).mp hi
    have h0 := hm.2.1
    unfold xiOf at h0
    linarith [mul_comm lam (aw a i)]
  · intro i hi
    rw [hx, ha, hlam]
    obtain ⟨hir, hiNF, hiNB⟩ := Finset.mem_filter.mp hi
    rw [hn] at hir
    have hin := Finset.mem_range.mp hir
    have h1 : 1 ≤ xiOf x a lam i := by
      by_contra hcon
      push_neg at hcon
      by_cases h0 : 0 ≤ xiOf x a lam i
      · exact hiNF ((hfmem i).mpr ⟨hin, h0, hcon⟩)
      · push_neg at h0
        exact hiNB ((hbmem i).mpr ⟨hin, h0⟩)
    unfold xiOf at h1
    linarith
  · intro i hi
    rw [hlam, hfbp i hi, bpF_eq]
    have hm := (hfmem i).mp hi
    have hai : 0 < aw a i := aw_pos hpos i hm.1
    rw [div_lt_iff₀ hai]
    have h1 := hm.2.2
    unfold xiOf at h1
    linarith [mul_comm lam (aw a i)]
  · intro i hi
    rw [hlam, hbbp i hi, bpB_eq]
    have hm := (hbmem i).mp hi
    have hai : 0 < aw a i := aw_pos hpos i hm.1
    rw [div_lt_iff₀ hai]
    have h0 := hm.2
    unfold xiOf at h0
    linarith [mul_comm lam (aw a i)]

/-- Soundness of the whole sweep: with enough fuel and the invariant
bundle, the loop returns a multiplier solving `sTrue(lambda) = b`. -/
theorem napLoop_sound : ∀ (fuel : Nat) (first : Bool) (st : NapState),
    phi st < fuel → Inv st → (first = false → HeapInv st) →
    RegInv st → SlopeLe st → PosSt st →
    (∃ lamt, lamt ≤ st.lambda ∧ sTrue st.x st.a st.n lamt = st.b) →
    ∃ r, napLoop fuel first st = some r ∧ sTrue st.x st.a st.n r = st.b := by
  intro fuel
  induction fuel with
  | zero =>
    intro first st hphi _ _ _ _ _ _
    omega
  | succ fuel ih =>
    intro first st hphi hInv hHp hReg hSl hpos hEx
    rcases hce : checkExit st with _ | r
    · have hsome : ∃ nbv, omax2 st.maxfree st.maxbound = some nbv ∧
          ¬ st.b ≤ st.asum - nbv * st.a2sum := by
        rcases h : omax2 st.maxfree st.maxbound with _ | v
        · simp only [checkExit, h] at hce
          exact Option.noConfusion hce
        · refine ⟨v, rfl, ?_⟩
          intro hcon
          simp only [checkExit, h] at hce
          rw [if_pos hcon] at hce
          exact Option.noConfusion hce
      obtain ⟨nbv, ho, hnoexit⟩ := hsome
      obtain ⟨hInv', hH', pF, pB, Fr, _, _, _, _, _, _, _, _, hblock⟩ :=
        roundBody_main first st hInv hHp
      obtain ⟨_, _, _, _, hlam', _, hphi'⟩ := hblock nbv ho
      obtain ⟨hReg', hSl', hstep⟩ :=
        roundBody_reg first st hInv hHp hReg hSl hpos nbv ho hnoexit
      obtain ⟨hfrx, hfra, hfrb, hfrn⟩ := roundBody_frame first st
      have hpos' : PosSt (roundBody first st) := by
        show PosA (roundBody first st).a (roundBody first st).n
        rw [hfra, hfrn]
        exact hpos
      have hEx' : ∃ lamt, lamt ≤ (roundBody first st).lambda ∧
          sTrue (roundBody first st).x (roundBody first st).a
            (roundBody first st).n lamt = (roundBody first st).b := by
        obtain ⟨lamt, hlt, hval⟩ := hEx
        refine ⟨lamt, ?_, ?_⟩
        · rw [hlam']
          exact hstep lamt hlt hval
        · rw [hfrx, hfra, hfrn, hfrb]
          exact hval
      obtain ⟨r, hr1, hr2⟩ := ih false (roundBody first st) (by omega) hInv'
        (fun _ => hH') hReg' hSl' hpos' hEx'
      refine ⟨r, ?_, ?_⟩
      · simp only [napLoop, hce]
        exact hr1
      · rw [hfrx, hfra, hfrn, hfrb] at hr2
        exact hr2
    · exact ⟨r, by simp only [napLoop, hce], exit_sound st hInv hReg hSl hpos hEx r hce⟩

/-! ## The unweighted branch as the all-ones instance of the weighted one -/

theorem a2sum_count (st : NapState) (ha : st.a = none) (hAgg : AggInv st) :
    st.a2sum = (st.free_heap.length : ℚ) := by
  rw [hAgg.2, a2sumSpec_eq, ha]
  unfold msum aw
  induction st.free_heap with
  | nil => simp
  | cons v t ih =>
    simp only [Multiset.map_coe, List.map_cons, Multiset.sum_coe, List.sum_cons,
      List.length_cons] at ih ⊢
    push_cast
    rw [ih]
    ring

theorem set_a2sum_eta (s : NapState) (h : s.a2sum = 0) : { s with a2sum := 0 } = s := by
  cases s
  simp_all

theorem partStep_a (st : NapState) (i : Nat) : (partStep st i).a = st.a := by
  rw [partStep_eq]
  split_ifs <;> rfl

theorem partStep_unit (st : NapState) (ha : st.a = none) (i : Nat) :
    partStep { st with a := some (fun _ => (1 : ℚ)) } i
      = { partStep st i with a := some (fun _ => (1 : ℚ)) } := by
  rw [partStep_eq, partStep_eq]
  simp only [xiOf, aw, bpB, bpF, ha, div_one, mul_one, one_mul]
  split_ifs <;> rfl

theorem partitionPass_unit (x : Nat → ℚ) (n : Nat) (lam : ℚ) (b : ℚ) (bp0 : Nat → ℚ) :
    partitionPass x n lam (some (fun _ => (1 : ℚ))) b bp0
      = { partitionPass x n lam none b bp0 with a := some (fun _ => (1 : ℚ)) } := by
  unfold partitionPass
  have h : ∀ (l : List Nat) (st : NapState), st.a = none →
      l.foldl partStep { st with a := some (fun _ => (1 : ℚ)) }
        = { l.foldl partStep st with a := some (fun _ => (1 : ℚ)) } := by
    intro l
    induction l with
    | nil => intro st ha; rfl
    | cons j t ih =>
      intro st ha
      simp only [List.foldl_cons]
      rw [partStep_unit st ha j]
      exact ih (partStep st j) (by rw [partStep_a, ha])
  exact h (List.range n) (initState x n lam none b bp0) rfl

theorem freeLoop_unit : ∀ (fuel : Nat) (st : NapState),
    st.a2sum = (st.free_heap.length : ℚ) →
    freeLoopW (fun _ => (1 : ℚ)) fuel { st with a := some (fun _ => (1 : ℚ)) }
      = { freeLoopN fuel st with a := some (fun _ => (1 : ℚ)) } := by
  intro fuel
  induction fuel with
  | zero => intro st _; rfl
  | succ fuel ih =>
    intro st hcnt
    rcases hF : st.free_heap with _ | ⟨v, t⟩
    · simp only [freeLoopW, freeLoopN, hF]
    · rw [hF] at hcnt
      set e := hget (v :: t) 1 with he
      set st1 : NapState :=
        { st with a2sum := st.a2sum - 1,
                  asum := st.asum + (1 - st.x e),
                  free_heap := QPmaxheap_delete (v :: t) st.breakpts } with hst1
      have hlen := heapDelete_length cMax st.breakpts (v :: t)
      have hred : freeLoopN (fuel + 1) st
          = if st.lambda ≤ st.breakpts e then
              (if st1.free_heap.length = 0 then st1 else freeLoopN fuel st1)
            else st := by
        simp only [freeLoopN, hF, hst1, he]
      have hredW : freeLoopW (fun _ => (1 : ℚ)) (fuel + 1)
            { st with a := some (fun _ => (1 : ℚ)), free_heap := v :: t }
          = if st.lambda ≤ st.breakpts e then
              (if st1.free_heap.length = 0 then
                { st1 with a := some (fun _ => (1 : ℚ)), a2sum := 0 }
               else freeLoopW (fun _ => (1 : ℚ)) fuel
                { st1 with a := some (fun _ => (1 : ℚ)) })
            else { st with a := some (fun _ => (1 : ℚ)), free_heap := v :: t } := by
        simp only [freeLoopW, hst1, he, one_mul, mul_one]
      rw [hredW, hred]
      split_ifs with h1 h2
      · have hz : ({ st1 with a := some (fun _ => (1 : ℚ)) } : NapState).a2sum = 0 := by
          show st.a2sum - 1 = 0
          have h0 : (v :: t).length - 1 = 0 := by
            rw [← hlen]
            exact h2
          simp only [List.length_cons] at h0 hcnt
          have ht0 : t.length = 0 := by omega
          rw [ht0] at hcnt
          rw [hcnt]
          norm_num
        exact set_a2sum_eta _ hz
      · refine ih st1 ?_
        show st.a2sum - 1 = ((heapDelete cMax st.breakpts (v :: t)).length : ℚ)
        rw [hlen]
        simp only [List.length_cons] at hcnt ⊢
        rw [hcnt]
        push_cast
        ring
      · rw [← hF]

theorem boundLoop_unit : ∀ (fuel : Nat) (st : NapState),
    boundLoopW (fun _ => (1 : ℚ)) fuel { st with a := some (fun _ => (1 : ℚ)) }
      = { boundLoopN fuel st with a := some (fun _ => (1 : ℚ)) } := by
  intro fuel
  induction fuel with
  | zero => intro st; rfl
  | succ fuel ih =>
    intro st
    rcases hB : st.bound_heap with _ | ⟨v, t⟩
    · simp only [boundLoopW, boundLoopN, hB]
    · set e := hget (v :: t) 1 with he
      set bp1 := upd st.breakpts e (st.x e - 1) with hbp1
      set st1 : NapState :=
        { st with bound_heap := QPmaxheap_delete (v :: t) st.breakpts,
                  a2sum := st.a2sum + 1,
                  asum := st.asum + st.x e,
                  breakpts := bp1,
                  free_heap := QPmaxheap_add e st.free_heap bp1 } with hst1
      have hred : boundLoopN (fuel + 1) st
          = if st.lambda ≤ st.breakpts e then
              (if st1.bound_heap.length = 0 then st1 else boundLoopN fuel st1)
            else st := by
        simp only [boundLoopN, hB, hst1, hbp1, he]
      have hredW : boundLoopW (fun _ => (1 : ℚ)) (fuel + 1)
            { st with a := some (fun _ => (1 : ℚ)), bound_heap := v :: t }
          = if st.lambda ≤ st.breakpts e then
              (if st1.bound_heap.length = 0 then { st1 with a := some (fun _ => (1 : ℚ)) }
               else boundLoopW (fun _ => (1 : ℚ)) fuel
                { st1 with a := some (fun _ => (1 : ℚ)) })
            else { st with a := some (fun _ => (1 : ℚ)), bound_heap := v :: t } := by
        simp only [boundLoopW, hst1, hbp1, he, one_mul, mul_one, div_one]
      rw [hredW, hred]
      split_ifs with h1 h2
      · rfl
      · exact ih st1
      · rw [← hB]

theorem freePhase_unit (st : NapState) (ha : st.a = none)
    (hcnt : st.a2sum = (st.free_heap.length : ℚ)) :
    freePhase { st with a := some (fun _ => (1 : ℚ)) }
      = { freePhase st with a := some (fun _ => (1 : ℚ)) } := by
  have hL : freePhase { st with a := some (fun _ => (1 : ℚ)) }
      = if st.free_heap.length = 0 then { st with a := some (fun _ => (1 : ℚ)) }
        else freeLoopW (fun _ => (1 : ℚ)) st.free_heap.length
          { st with a := some (fun _ => (1 : ℚ)) } := by
    simp only [freePhase]
  have hR : freePhase st
      = if st.free_heap.length = 0 then st else freeLoopN st.free_heap.length st := by
    simp only [freePhase, ha]
  rw [hL, hR]
  split_ifs with h1
  · rfl
  · exact freeLoop_unit st.free_heap.length st hcnt

theorem boundPhase_unit (st : NapState) (ha : st.a = none) :
    boundPhase { st with a := some (fun _ => (1 : ℚ)) }
      = { boundPhase st with a := some (fun _ => (1 : ℚ)) } := by
  have hL : boundPhase { st with a := some (fun _ => (1 : ℚ)) }
      = if st.bound_heap.length = 0 then { st with a := some (fun _ => (1 : ℚ)) }
        else boundLoopW (fun _ => (1 : ℚ)) st.bound_heap.length
          { st with a := some (fun _ => (1 : ℚ)) } := by
    simp only [boundPhase]
  have hR : boundPhase st
      = if st.bound_heap.length = 0 then st else boundLoopN st.bound_heap.length st := by
    simp only [boundPhase, ha]
  rw [hL, hR]
  split_ifs with h1
  · rfl
  · exact boundLoop_unit st.bound_heap.length st

theorem checkExit_unit (st : NapState) :
    checkExit { st with a := some (fun _ => (1 : ℚ)) } = checkExit st := rfl

theorem roundBody_unit (first : Bool) (st : NapState) (ha : st.a = none)
    (hcnt : st.a2sum = (st.free_heap.length : ℚ)) :
    roundBody first { st with a := some (fun _ => (1 : ℚ)) }
      = { roundBody first st with a := some (fun _ => (1 : ℚ)) } := by
  rcases ho : omax2 st.maxfree st.maxbound with _ | nbv
  · have hL : roundBody first { st with a := some (fun _ => (1 : ℚ)) }
        = { st with a := some (fun _ => (1 : ℚ)) } := by
      simp only [roundBody, ho]
    have hR : roundBody first st = st := by
      simp only [roundBody, ho]
    rw [hL, hR]
  · have hL : roundBody first { st with a := some (fun _ => (1 : ℚ)) }
        = refreshMaxes (boundPhase (freePhase
            (if first then buildHeaps { st with lambda := nbv, a := some (fun _ => (1 : ℚ)) }
             else { st with lambda := nbv, a := some (fun _ => (1 : ℚ)) }))) := by
      simp only [roundBody, ho]
    have hR : roundBody first st
        = refreshMaxes (boundPhase (freePhase
            (if first then buildHeaps { st with lambda := nbv }
             else { st with lambda := nbv }))) := by
      simp only [roundBody, ho]
    rw [hL, hR]
    cases first with
    | true =>
      rw [if_pos rfl, if_pos rfl]
      have hna : (buildHeaps { st with lambda := nbv } : NapState).a = none := ha
      have hncnt : (buildHeaps { st with lambda := nbv } : NapState).a2sum
          = ((buildHeaps { st with lambda := nbv } : NapState).free_heap.length : ℚ) := by
        show st.a2sum = ((QPmaxheap_build st.free_heap st.breakpts).length : ℚ)
        rw [show (QPmaxheap_build st.free_heap st.breakpts).length = st.free_heap.length
          from heapBuild_length cMax st.breakpts st.free_heap]
        exact hcnt
      have hba : (freePhase (buildHeaps { st with lambda := nbv }) : NapState).a = none := by
        rw [(freePhase_frame (buildHeaps { st with lambda := nbv })).2.1]
        exact hna
      have h1 : buildHeaps { st with lambda := nbv, a := some (fun _ => (1 : ℚ)) }
          = { buildHeaps { st with lambda := nbv } with a := some (fun _ => (1 : ℚ)) } := rfl
      rw [h1, freePhase_unit _ hna hncnt, boundPhase_unit _ hba]
      rfl
    | false =>
      rw [if_neg Bool.false_ne_true, if_neg Bool.false_ne_true]
      have hna : ({ st with lambda := nbv } : NapState).a = none := ha
      have hncnt : ({ st with lambda := nbv } : NapState).a2sum
          = (({ st with lambda := nbv } : NapState).free_heap.length : ℚ) := hcnt
      have hba : (freePhase { st with lambda := nbv } : NapState).a = none := by
        rw [(freePhase_frame { st with lambda := nbv }).2.1]
        exact hna
      have h1 : ({ st with lambda := nbv, a := some (fun _ => (1 : ℚ)) } : NapState)
          = { ({ st with lambda := nbv } : NapState) with a := some (fun _ => (1 : ℚ)) } := rfl
      rw [h1, freePhase_unit _ hna hncnt, boundPhase_unit _ hba]
      rfl

theorem napLoop_unit : ∀ (fuel : Nat) (first : Bool) (st : NapState),
    st.a = none → Inv st → (first = false → HeapInv st) →
    napLoop fuel first { st with a := some (fun _ => (1 : ℚ)) } = napLoop fuel first st := by
  intro fuel
  induction fuel with
  | zero => intro first st _ _ _; rfl
  | succ fuel ih =>
    intro first st ha hInv hHp
    have hck : checkExit { st with a := some (fun _ => (1 : ℚ)) } = checkExit st :=
      checkExit_unit st
    rcases hce : checkExit st with _ | r
    · have hcnt := a2sum_count st ha hInv.2.2.1
      have hrbU := roundBody_unit first st ha hcnt
      have hrun1 : napLoop (fuel + 1) first { st with a := some (fun _ => (1 : ℚ)) }
          = napLoop fuel false (roundBody first { st with a := some (fun _ => (1 : ℚ)) }) := by
        simp only [napLoop, hck, hce]
      have hrun2 : napLoop (fuel + 1) first st
          = napLoop fuel false (roundBody first st) := by
        simp only [napLoop, hce]
      rw [hrun1, hrun2, hrbU]
      obtain ⟨hInv', hH', _⟩ := roundBody_main first st hInv hHp
      have ha' : (roundBody first st).a = none := by
        rw [(roundBody_frame first st).2.1]
        exact ha
      exact ih false (roundBody first st) ha' hInv' (fun _ => hH')
    · simp only [napLoop, hck, hce]

theorem QPnapdown_unit (x : Nat → ℚ) (n : Nat) (lam : ℚ) (b : ℚ) (bp0 : Nat → ℚ) :
    QPnapdown x n lam (some (fun _ => (1 : ℚ))) b bp0 = QPnapdown x n lam none b bp0 := by
  unfold QPnapdown
  rw [partitionPass_unit]
  have ha0 : (partitionPass x n lam none b bp0).a = none :=
    (partitionPass_go x none lam b n bp0 n (partitionPass x n lam none b bp0) rfl).1.2.1
  exact napLoop_unit (2 * n + 1) true (partitionPass x n lam none b bp0) ha0
    (partitionPass_inv x n lam none b bp0) (fun hc => Bool.noConfusion hc)

/-! ## The checked pipeline succeeds under positive weights -/

theorem partStepC_eq (st : NapState) (i : Nat)
    (hfi : ∀ g : Nat → ℚ, st.a = some g → g i ≠ 0) :
    partStepC st i = some (partStep st i) := by
  cases hA : st.a with
  | none => simp only [partStepC, partStep, hA]
  | some g =>
    have hg := hfi g hA
    simp only [partStepC, partStep, hA, cdiv, if_neg hg, Option.map_some']
    split_ifs <;> rfl

theorem partitionPassC_eq (x : Nat → ℚ) (n : Nat) (lam : ℚ) (a : Option (Nat → ℚ))
    (b : ℚ) (bp0 : Nat → ℚ) (hpos : PosA a n) :
    partitionPassC x n lam a b bp0 = some (partitionPass x n lam a b bp0) := by
  unfold partitionPassC partitionPass
  have h : ∀ (l : List Nat) (st : NapState), st.a = a → (∀ i ∈ l, i < n) →
      l.foldl (fun ost i => ost.bind (fun s => partStepC s i)) (some st)
        = some (l.foldl partStep st) := by
    intro l
    induction l with
    | nil => intro st _ _; rfl
    | cons j t ih =>
      intro st hA hlt
      simp only [List.foldl_cons, Option.some_bind]
      rw [partStepC_eq st j (fun g hg => by
        rw [hA] at hg
        cases a with
        | none => exact Option.noConfusion hg
        | some g0 =>
          have hj := hpos j (hlt j (by simp))
          rw [Option.some_inj.mp hg] at hj
          exact ne_of_gt hj)]
      exact ih (partStep st j) (by rw [partStep_a, hA]) (fun i hi => hlt i (by simp [hi]))
  exact h (List.range n) (initState x n lam a b bp0) rfl (fun i hi => List.mem_range.mp hi)

theorem exitLambdaC_eq (st : NapState) : exitLambdaC st = some (exitLambda st) := by
  unfold exitLambdaC exitLambda cdiv
  by_cases h : st.a2sum = 0
  · rw [if_neg (not_not_intro h), if_neg (not_not_intro h)]
  · rw [if_pos h, if_pos h, if_neg h]

theorem checkExitC_eq (st : NapState) : checkExitC st = some (checkExit st) := by
  rcases ho : omax2 st.maxfree st.maxbound with _ | nbv
  · simp only [checkExitC, checkExit, ho, exitLambdaC_eq st, Option.map_some']
  · simp only [checkExitC, checkExit, ho]
    split_ifs with h1
    · rw [exitLambdaC_eq st]
      rfl
    · rfl

theorem boundLoopWC_eq (f : Nat → ℚ) : ∀ (fuel : Nat) (st : NapState),
    (∀ i ∈ st.bound_heap, f i ≠ 0) →
    boundLoopWC f fuel st = some (boundLoopW f fuel st) := by
  intro fuel
  induction fuel with
  | zero => intro st _; rfl
  | succ fuel ih =>
    intro st hf
    rcases hB : st.bound_heap with _ | ⟨v, t⟩
    · simp only [boundLoopWC, boundLoopW, hB]
    · have he : hget (v :: t) 1 ∈ (v :: t) := hget_mem (v :: t) 1 le_rfl (by simp)
      have hfe : f (hget (v :: t) 1) ≠ 0 := hf _ (hB ▸ he)
      simp only [boundLoopWC, boundLoopW, hB, cdiv, if_neg hfe, Option.bind_some]
      split_ifs with h1 h2
      · rfl
      · refine ih _ ?_
        intro i hi
        refine hf i ?_
        rw [hB]
        exact heapDelete_subset _ _ _ i hi
      · rfl

theorem boundPhaseC_eq (st : NapState) (hpos : PosSt st)
    (hblt : ∀ i ∈ st.bound_heap, i < st.n) :
    boundPhaseC st = some (boundPhase st) := by
  unfold boundPhaseC boundPhase
  split_ifs with h1
  · rfl
  · cases hA : st.a with
    | none => rfl
    | some g =>
      refine boundLoopWC_eq g st.bound_heap.length st ?_
      intro i hi
      have hgi : 0 < g i := by
        have hp : PosA (some g) st.n := by
          rw [← hA]
          exact hpos
        exact hp i (hblt i hi)
      exact ne_of_gt hgi

theorem roundBodyC_eq (first : Bool) (st : NapState) (hpos : PosSt st)
    (hblt : ∀ i ∈ st.bound_heap, i < st.n) :
    roundBodyC first st = some (roundBody first st) := by
  rcases ho : omax2 st.maxfree st.maxbound with _ | nbv
  · have hL : roundBodyC first st = some st := by
      simp only [roundBodyC, ho]
    have hR : roundBody first st = st := by
      simp only [roundBody, ho]
    rw [hL, hR]
  · set st1 : NapState := { st with lambda := nbv } with hst1
    set st2 : NapState := if first then buildHeaps st1 else st1 with hst2
    have hL : roundBodyC first st = (boundPhaseC (freePhase st2)).map refreshMaxes := by
      rw [hst2, hst1]
      simp only [roundBodyC, ho]
    have hR : roundBody first st = refreshMaxes (boundPhase (freePhase st2)) := by
      rw [hst2, hst1]
      simp only [roundBody, ho]
    rw [hL, hR]
    have hfr := freePhase_frame st2
    have hpos2 : PosSt (freePhase st2) := by
      show PosA (freePhase st2).a (freePhase st2).n
      rw [hfr.2.1, hfr.2.2.2.1]
      show PosA st2.a st2.n
      rw [hst2]
      cases first with
      | true => exact hpos
      | false => exact hpos
    have hblt2 : ∀ i ∈ (freePhase st2).bound_heap, i < (freePhase st2).n := by
      intro i hi
      rw [hfr.2.2.2.2.2.2.1] at hi
      rw [hfr.2.2.2.1]
      have hi2 : i ∈ st.bound_heap := by
        rw [hst2] at hi
        cases first with
        | true =>
          rw [if_pos rfl] at hi
          exact (heapBuild_perm cMax st1.breakpts st1.bound_heap).mem_iff.mp hi
        | false =>
          rw [if_neg Bool.false_ne_true] at hi
          exact hi
      show i < st2.n
      rw [hst2]
      cases first with
      | true => exact hblt i hi2
      | false => exact hblt i hi2
    rw [boundPhaseC_eq (freePhase st2) hpos2 hblt2, Option.map_some']

theorem napLoopC_eq : ∀ (fuel : Nat) (first : Bool) (st : NapState),
    PosSt st → (∀ i ∈ st.bound_heap, i < st.n) →
    napLoopC fuel first st = some (napLoop fuel first st) := by
  intro fuel
  induction fuel with
  | zero => intro first st _ _; rfl
  | succ fuel ih =>
    intro first st hpos hblt
    rcases hce : checkExit st with _ | r
    · have hL : napLoopC (fuel + 1) first st
          = (roundBodyC first st).bind (napLoopC fuel false) := by
        simp only [napLoopC, checkExitC_eq st, Option.some_bind, hce]
      have hR : napLoop (fuel + 1) first st = napLoop fuel false (roundBody first st) := by
        simp only [napLoop, hce]
      rw [hL, hR, roundBodyC_eq first st hpos hblt, Option.some_bind]
      refine ih false (roundBody first st) ?_ ?_
      · show PosA (roundBody first st).a (roundBody first st).n
        rw [(roundBody_frame first st).2.1, (roundBody_frame first st).2.2.2]
        exact hpos
      · intro i hi
        rw [(roundBody_frame first st).2.2.2]
        exact hblt i (roundBody_bound_subset first st i hi)
    · have hL : napLoopC (fuel + 1) first st = some (some r) := by
        simp only [napLoopC, checkExitC_eq st, Option.some_bind, hce]
      have hR : napLoop (fuel + 1) first st = some r := by
        simp only [napLoop, hce]
      rw [hL, hR]

theorem QPnapdownC_eq (x : Nat → ℚ) (n : Nat) (lam : ℚ) (a : Option (Nat → ℚ))
    (b : ℚ) (bp0 : Nat → ℚ) (hpos : PosA a n) :
    QPnapdownC x n lam a b bp0 = some (QPnapdown x n lam a b bp0) := by
  unfold QPnapdownC QPnapdown
  rw [partitionPassC_eq x n lam a b bp0 hpos, Option.some_bind]
  obtain ⟨⟨hx, ha, hb, hn, hlam⟩, _⟩ :=
    partitionPass_go x a lam b n bp0 n (partitionPass x n lam a b bp0) rfl
  refine napLoopC_eq (2 * n + 1) true (partitionPass x n lam a b bp0) ?_ ?_
  · show PosA (partitionPass x n lam a b bp0).a (partitionPass x n lam a b bp0).n
    rw [ha, hn]
    exact hpos
  · exact (partitionPass_inv x n lam a b bp0).1.2.2.2.2

/-! ## The claims -/

/-- Claim C1: for every input with all weight entries strictly positive (or
`a` absent) and an initial guess at or above a true multiplier (some
`lamt ≤ lambda0` solves `sTrue(lamt) = b`), `QPnapdown` returns a `lambda*`
with `sum_i clamp(x_i - a_i lambda*, 0, 1) a_i = b`; and in the degenerate
case where `a2sum` is zero at the partition state and the first exit test
fires (so `a2sum` stays zero throughout), it returns `lambda0` unchanged. -/
theorem C1_qpnapdown_postcondition (x : Nat → ℚ) (n : Nat) (lam : ℚ)
    (a : Option (Nat → ℚ)) (b : ℚ) (bp0 : Nat → ℚ)
    (hpos : PosA a n)
    (hex : ∃ lamt, lamt ≤ lam ∧ sTrue x a n lamt = b) :
    (∃ r, QPnapdown x n lam a b bp0 = some r ∧ sTrue x a n r = b) ∧
    ((partitionPass x n lam a b bp0).a2sum = 0 →
      (checkExit (partitionPass x n lam a b bp0)).isSome →
      QPnapdown x n lam a b bp0 = some lam) := by
  obtain ⟨⟨hfx, hfa, hfb, hfn, hflam⟩, _⟩ :=
    partitionPass_go x a lam b n bp0 n (partitionPass x n lam a b bp0) rfl
  constructor
  · have hphi : phi (partitionPass x n lam a b bp0) < 2 * n + 1 := by
      have := phi_partition_le x n lam a b bp0
      omega
    have hReg := partition_reg x n lam a b bp0 hpos
    have hSl : SlopeLe (partitionPass x n lam a b bp0) := by
      show sTrue (partitionPass x n lam a b bp0).x (partitionPass x n lam a b bp0).a
        (partitionPass x n lam a b bp0).n (partitionPass x n lam a b bp0).lambda
        ≤ (partitionPass x n lam a b bp0).b
      rw [hfx, hfa, hfn, hfb, hflam]
      obtain ⟨lamt, hlt, hval⟩ := hex
      calc sTrue x a n lam ≤ sTrue x a n lamt := sTrue_antitone x a n hpos hlt
        _ = b := hval
    have hpos0 : PosSt (partitionPass x n lam a b bp0) := by
      show PosA (partitionPass x n lam a b bp0).a (partitionPass x n lam a b bp0).n
      rw [hfa, hfn]
      exact hpos
    have hEx0 : ∃ lamt, lamt ≤ (partitionPass x n lam a b bp0).lambda ∧
        sTrue (partitionPass x n lam a b bp0).x (partitionPass x n lam a b bp0).a
          (partitionPass x n lam a b bp0).n lamt = (partitionPass x n lam a b bp0).b := by
      obtain ⟨lamt, hlt, hval⟩ := hex
      exact ⟨lamt, by rw [hflam]; exact hlt, by rw [hfx, hfa, hfn, hfb]; exact hval⟩
    obtain ⟨r, hr1, hr2⟩ := napLoop_sound (2 * n + 1) true (partitionPass x n lam a b bp0)
      hphi (partitionPass_inv x n lam a b bp0) (fun hc => Bool.noConfusion hc)
      hReg hSl hpos0 hEx0
    refine ⟨r, hr1, ?_⟩
    rw [hfx, hfa, hfn, hfb] at hr2
    exact hr2
  · intro hz hsome
    have hrl : exitLambda (partitionPass x n lam a b bp0) = lam := by
      unfold exitLambda
      rw [if_neg (by simp [hz]), hflam]
    have hce : checkExit (partitionPass x n lam a b bp0) = some lam := by
      rcases ho : omax2 (partitionPass x n lam a b bp0).maxfree
          (partitionPass x n lam a b bp0).maxbound with _ | nbv
      · simp only [checkExit, ho, hrl]
      · by_cases hc : (partitionPass x n lam a b bp0).b
            ≤ (partitionPass x n lam a b bp0).asum
              - nbv * (partitionPass x n lam a b bp0).a2sum
        · simp only [checkExit, ho, if_pos hc, hrl]
        · exfalso
          have hsome' := hsome
          simp only [checkExit, ho, if_neg hc] at hsome'
          simp at hsome'
    show napLoop (2 * n + 1) true (partitionPass x n lam a b bp0) = some lam
    simp only [napLoop, hce]

/-- Witness for C1 at the concrete input `x = [1/5, 9/10, 1/2]`, `a` absent,
`b = 1`, `lambda0 = 1/2` (the solution `1/5` lies below the guess). -/
theorem C1_qpnapdown_postcondition_witness :
    (PosA none 3 ∧ (∃ lamt, lamt ≤ (1/2 : ℚ) ∧
      sTrue (fun i => if i = 0 then (1/5 : ℚ) else if i = 1 then 9/10 else 1/2)
        none 3 lamt = 1)) ∧
    ((∃ r, QPnapdown (fun i => if i = 0 then (1/5 : ℚ) else if i = 1 then 9/10 else 1/2)
        3 (1/2) none 1 (fun _ => 0) = some r ∧
        sTrue (fun i => if i = 0 then (1/5 : ℚ) else if i = 1 then 9/10 else 1/2)
          none 3 r = 1) ∧
     ((partitionPass (fun i => if i = 0 then (1/5 : ℚ) else if i = 1 then 9/10 else 1/2)
          3 (1/2) none 1 (fun _ => 0)).a2sum = 0 →
      (checkExit (partitionPass
          (fun i => if i = 0 then (1/5 : ℚ) else if i = 1 then 9/10 else 1/2)
          3 (1/2) none 1 (fun _ => 0))).isSome →
      QPnapdown (fun i => if i = 0 then (1/5 : ℚ) else if i = 1 then 9/10 else 1/2)
        3 (1/2) none 1 (fun _ => 0) = some (1/2))) :=
  ⟨⟨trivial, ⟨1/5, by norm_num, by norm_num [sTrue, clamp01, aw, Finset.sum_range_succ]⟩⟩,
    C1_qpnapdown_postcondition
      (fun i => if i = 0 then (1/5 : ℚ) else if i = 1 then 9/10 else 1/2)
      3 (1/2) none 1 (fun _ => 0) trivial
      ⟨1/5, by norm_num, by norm_num [sTrue, clamp01, aw, Finset.sum_range_succ]⟩⟩

/-- Claim C2: the initial partition pass classifies every coordinate by the
sign of `x_i - a_i*lambda0` against `0` and `1`: negative goes to the bound
heap with breakpoint `x_i/a_i`, `[0,1)` goes to the free heap with
breakpoint `(x_i-1)/a_i` contributing `a_i x_i` to `asum` and `a_i^2` to
`a2sum`, and `>= 1` joins no heap and contributes `a_i` to `asum` (`a_i`
read as `1` when `a` is absent). -/
theorem C2_partition_classification (x : Nat → ℚ) (n : Nat) (lam : ℚ)
    (a : Option (Nat → ℚ)) (b : ℚ) (bp0 : Nat → ℚ) :
    (∀ i : Nat, i ∈ (partitionPass x n lam a b bp0).bound_heap ↔
      i < n ∧ x i - aw a i * lam < 0) ∧
    (∀ i : Nat, i ∈ (partitionPass x n lam a b bp0).free_heap ↔
      i < n ∧ 0 ≤ x i - aw a i * lam ∧ x i - aw a i * lam < 1) ∧
    (∀ i ∈ (partitionPass x n lam a b bp0).bound_heap,
      (partitionPass x n lam a b bp0).breakpts i = bpB x a i) ∧
    (∀ i ∈ (partitionPass x n lam a b bp0).free_heap,
      (partitionPass x n lam a b bp0).breakpts i = bpF x a i) ∧
    ((partitionPass x n lam a b bp0).asum
      = (∑ i ∈ (Finset.range n).filter
          (fun i => 0 ≤ xiOf x a lam i ∧ xiOf x a lam i < 1), x i * aw a i)
        + ∑ i ∈ (Finset.range n).filter (fun i => 1 ≤ xiOf x a lam i), aw a i) ∧
    ((partitionPass x n lam a b bp0).a2sum
      = ∑ i ∈ (Finset.range n).filter
          (fun i => 0 ≤ xiOf x a lam i ∧ xiOf x a lam i < 1), aw a i * aw a i) := by
  obtain ⟨_, hfmem, hbmem, _, ⟨hfbp, hbbp⟩, ⟨hasum, ha2sum⟩, _, _⟩ :=
    partitionPass_go x a lam b n bp0 n (partitionPass x n lam a b bp0) rfl
  refine ⟨hbmem, hfmem, hbbp, hfbp, ?_, ?_⟩
  · rw [hasum, pContrib_split]
  · rw [ha2sum, pContrib2_split]

/-- Claim C3: the sweep runs at most `2n+1` rounds and always returns
within that bound (the fatal assertion is unreachable); with the fuel
exhausted the loop yields no result rather than a silently wrong answer. -/
theorem C3_round_bound (x : Nat → ℚ) (n : Nat) (lam : ℚ) (a : Option (Nat → ℚ))
    (b : ℚ) (bp0 : Nat → ℚ) :
    (∃ r, QPnapdown x n lam a b bp0 = some r) ∧
    (∀ (first : Bool) (st : NapState), napLoop 0 first st = none) := by
  constructor
  · have hphi : phi (partitionPass x n lam a b bp0) < 2 * n + 1 := by
      have := phi_partition_le x n lam a b bp0
      omega
    exact napLoop_total (2 * n + 1) true (partitionPass x n lam a b bp0) hphi
      (partitionPass_inv x n lam a b bp0) (fun hc => Bool.noConfusion hc)
  · intro first st
    rfl

/-- Claim C4: at the start of every sweep round the running aggregates agree
with their from-scratch recomputation over the current set membership
(`asumSpec` is the weighted key sum of the free coordinates plus the weight
sum of the bound-high coordinates, `a2sumSpec` the sum of squared weights
of the free coordinates). -/
theorem C4_aggregates_from_scratch (x : Nat → ℚ) (n : Nat) (lam : ℚ)
    (a : Option (Nat → ℚ)) (b : ℚ) (bp0 : Nat → ℚ) (k : Nat) :
    (stateAtRound (partitionPass x n lam a b bp0) k).asum
      = asumSpec (stateAtRound (partitionPass x n lam a b bp0) k) ∧
    (stateAtRound (partitionPass x n lam a b bp0) k).a2sum
      = a2sumSpec (stateAtRound (partitionPass x n lam a b bp0) k) :=
  (stateAtRound_inv (partitionPass x n lam a b bp0)
    (partitionPass_inv x n lam a b bp0) k).1.2.2.1

/-- Claim C5: `QPnapdown` with `a == NULL` returns exactly the result of
`QPnapdown` with the explicit all-ones weight vector: the unweighted branch
is the `a_i = 1` instance of the weighted formula, not a different
algorithm. -/
theorem C5_null_weights_equiv (x : Nat → ℚ) (n : Nat) (lam : ℚ) (b : ℚ)
    (bp0 : Nat → ℚ) :
    QPnapdown x n lam none b bp0
      = QPnapdown x n lam (some (fun _ => (1 : ℚ))) b bp0 :=
  (QPnapdown_unit x n lam b bp0).symm

/-- Claim C6: on the concrete input `n = 3`, `x = [1/5, 9/10, 1/2]`, `a`
absent, `b = 1`, `lambda0 = 0`, `QPnapdown` returns `1/5`, which is the
unique solution of `clamp(1/5-l,0,1)+clamp(9/10-l,0,1)+clamp(1/2-l,0,1)=1`. -/
theorem C6_concrete_scenario :
    QPnapdown (fun i => if i = 0 then (1/5 : ℚ) else if i = 1 then 9/10 else 1/2)
      3 0 none 1 (fun _ => 0) = some (1/5) ∧
    sTrue (fun i => if i = 0 then (1/5 : ℚ) else if i = 1 then 9/10 else 1/2)
      none 3 (1/5) = 1 ∧
    (∀ lam : ℚ, sTrue (fun i => if i = 0 then (1/5 : ℚ) else if i = 1 then 9/10 else 1/2)
      none 3 lam = 1 → lam = 1/5) := by
  refine ⟨?_, ?_, ?_⟩
  · show napLoop 7 true ((List.range 3).foldl partStep
      (initState (fun i => if i = 0 then (1/5 : ℚ) else if i = 1 then 9/10 else 1/2)
        3 0 none 1 (fun _ => 0))) = some (1/5)
    rw [show List.range 3 = [0, 1, 2] from rfl]
    norm_num [List.foldl, partStep, initState, napLoop, checkExit, exitLambda, omax2,
      omax, upd]
  · norm_num [sTrue, clamp01, aw, Finset.sum_range_succ]
  · intro lam hval
    rw [sTrue, Finset.sum_range_succ, Finset.sum_range_succ, Finset.sum_range_succ,
      Finset.sum_range_zero] at hval
    norm_num [aw] at hval
    by_contra hne
    rcases lt_or_gt_of_ne hne with hlt | hgt
    · by_cases hcase : lam ≤ -(1/10)
      · have h1 : clamp01 ((9 : ℚ)/10 - lam) = 1 := clamp01_of_ge_one (by linarith)
        have h2 : (3 : ℚ)/5 ≤ clamp01 (1/2 - lam) := by
          have hm := clamp01_mono (show (3 : ℚ)/5 ≤ 1/2 - lam by linarith)
          rwa [show clamp01 ((3 : ℚ)/5) = 3/5 from by norm_num [clamp01]] at hm
        have h3 : (0 : ℚ) ≤ clamp01 (1/5 - lam) := clamp01_nonneg _
        linarith
      · push_neg at hcase
        have h1 : clamp01 ((1 : ℚ)/5 - lam) = 1/5 - lam :=
          clamp01_of_mem (by linarith) (by linarith)
        have h2 : clamp01 ((9 : ℚ)/10 - lam) = 9/10 - lam :=
          clamp01_of_mem (by linarith) (by linarith)
        have h3 : clamp01 ((1 : ℚ)/2 - lam) = 1/2 - lam :=
          clamp01_of_mem (by linarith) (by linarith)
        rw [h1, h2, h3] at hval
        linarith
    · have h1 : clamp01 ((1 : ℚ)/5 - lam) = 0 := clamp01_of_le_zero (by linarith)
      have h2 : clamp01 ((9 : ℚ)/10 - lam) < 7/10 :=
        lt_of_le_of_lt (min_le_right 1 (max 0 ((9 : ℚ)/10 - lam)))
          (max_lt (by norm_num) (by linarith))
      have h3 : clamp01 ((1 : ℚ)/2 - lam) < 3/10 :=
        lt_of_le_of_lt (min_le_right 1 (max 0 ((1 : ℚ)/2 - lam)))
          (max_lt (by norm_num) (by linarith))
      linarith

/-- Claim C7: on every non-empty heap, `deleteTop` shrinks the live region
by one, the removed element is the old root read at slot `1`, and that
root's key is the minimum of the live keys for the ascending heap and the
maximum for the descending heap. -/
theorem C7_delete_top (keys : Nat → ℚ) (h : List Nat) (hne : h ≠ []) :
    ((QPminheap_delete h keys).length = h.length - 1 ∧
      (heapOrdC cMin keys h →
        (hget h 1 ::ₘ ((QPminheap_delete h keys : List Nat) : Multiset Nat))
            = (h : Multiset Nat) ∧
        ∀ i ∈ h, keys (hget h 1) ≤ keys i)) ∧
    ((QPmaxheap_delete h keys).length = h.length - 1 ∧
      (heapOrdC cMax keys h →
        (hget h 1 ::ₘ ((QPmaxheap_delete h keys : List Nat) : Multiset Nat))
            = (h : Multiset Nat) ∧
        ∀ i ∈ h, keys i ≤ keys (hget h 1))) := by
  refine ⟨⟨heapDelete_length cMin keys h, ?_⟩, ⟨heapDelete_length cMax keys h, ?_⟩⟩
  · intro hord
    refine ⟨heapDelete_ms cMin keys h hne, ?_⟩
    intro i hi
    exact (cMin_false_iff _ _).mp (heapOrd_top_mem cMin keys cMin_T cMin_R h hord i hi)
  · intro hord
    refine ⟨heapDelete_ms cMax keys h hne, ?_⟩
    intro i hi
    exact (cMax_false_iff _ _).mp (heapOrd_top_mem cMax keys cMax_T cMax_R h hord i hi)

/-- Witness for C7 on the two-element heap `[0, 1]` with keys `1, 2` (in
ascending order for the min-heap and checked explicitly for both). -/
theorem C7_delete_top_witness :
    (([0, 1] : List Nat) ≠ [] ∧
      ((QPminheap_delete [0, 1] (fun i => if i = 0 then (1 : ℚ) else 2)).length
          = ([0, 1] : List Nat).length - 1 ∧
        (heapOrdC cMin (fun i => if i = 0 then (1 : ℚ) else 2) [0, 1] →
          (hget [0, 1] 1 ::ₘ ((QPminheap_delete [0, 1]
              (fun i => if i = 0 then (1 : ℚ) else 2) : List Nat) : Multiset Nat))
              = (([0, 1] : List Nat) : Multiset Nat) ∧
          ∀ i ∈ ([0, 1] : List Nat),
            (fun i => if i = 0 then (1 : ℚ) else 2) (hget [0, 1] 1)
              ≤ (fun i => if i = 0 then (1 : ℚ) else 2) i)) ∧
      ((QPmaxheap_delete [0, 1] (fun i => if i = 0 then (1 : ℚ) else 2)).length
          = ([0, 1] : List Nat).length - 1 ∧
        (heapOrdC cMax (fun i => if i = 0 then (1 : ℚ) else 2) [0, 1] →
          (hget [0, 1] 1 ::ₘ ((QPmaxheap_delete [0, 1]
              (fun i => if i = 0 then (1 : ℚ) else 2) : List Nat) : Multiset Nat))
              = (([0, 1] : List Nat) : Multiset Nat) ∧
          ∀ i ∈ ([0, 1] : List Nat),
            (fun i => if i = 0 then (1 : ℚ) else 2) i
              ≤ (fun i => if i = 0 then (1 : ℚ) else 2) (hget [0, 1] 1)))) :=
  ⟨by simp, C7_delete_top (fun i => if i = 0 then (1 : ℚ) else 2) [0, 1] (by simp)⟩

/-- Claim C8: `QPnapdown` never divides by zero: the closed-form step with
`a2sum == 0` returns the multiplier unmodified, and under strictly positive
weights the division-checked copy of the routine runs to completion with
the same result (every per-coordinate division has a nonzero denominator). -/
theorem C8_no_division_by_zero (x : Nat → ℚ) (n : Nat) (lam : ℚ)
    (a : Option (Nat → ℚ)) (b : ℚ) (bp0 : Nat → ℚ) (hpos : PosA a n) :
    QPnapdownC x n lam a b bp0 = some (QPnapdown x n lam a b bp0) ∧
    (∀ st : NapState, st.a2sum = 0 → exitLambda st = st.lambda) := by
  refine ⟨QPnapdownC_eq x n lam a b bp0 hpos, ?_⟩
  intro st hz
  unfold exitLambda
  rw [if_neg (by simp [hz])]

/-- Witness for C8 on a weighted two-coordinate input with weights `2, 3`. -/
theorem C8_no_division_by_zero_witness :
    PosA (some (fun i => if i = 0 then (2 : ℚ) else 3)) 2 ∧
    (QPnapdownC (fun i => if i = 0 then (1/2 : ℚ) else 3/2) 2 1
        (some (fun i => if i = 0 then (2 : ℚ) else 3)) 1 (fun _ => 0)
      = some (QPnapdown (fun i => if i = 0 then (1/2 : ℚ) else 3/2) 2 1
        (some (fun i => if i = 0 then (2 : ℚ) else 3)) 1 (fun _ => 0)) ∧
     (∀ st : NapState, st.a2sum = 0 → exitLambda st = st.lambda)) :=
  ⟨by intro i hi; dsimp only; split_ifs <;> norm_num,
    C8_no_division_by_zero (fun i => if i = 0 then (1/2 : ℚ) else 3/2) 2 1
      (some (fun i => if i = 0 then (2 : ℚ) else 3)) 1 (fun _ => 0)
      (by intro i hi; dsimp only; split_ifs <;> norm_num)⟩

/-- Claim C9: the key array `x` is read-only for the duration of the call:
at the start of every sweep round (hence throughout) the state's `x`
component is the caller's array, unchanged. -/
theorem C9_x_read_only (x : Nat → ℚ) (n : Nat) (lam : ℚ) (a : Option (Nat → ℚ))
    (b : ℚ) (bp0 : Nat → ℚ) (k : Nat) :
    (stateAtRound (partitionPass x n lam a b bp0) k).x = x := by
  rw [(stateAtRound_frame (partitionPass x n lam a b bp0) k).1]
  exact (partitionPass_go x a lam b n bp0 n (partitionPass x n lam a b bp0) rfl).1.1

/-- Claim C10: coordinate movement during the sweep is one-directional:
in each round a multiset `pF` leaves the free heap for the bound-high set
(raising `asum` by `a_i (1 - x_i)` each) and never re-enters either heap in
any later round, a multiset `pB` leaves the bound heap and joins the free
heap with refreshed breakpoints `(x_i - 1)/a_i`, and the bound-high set
never loses a member. -/
theorem C10_one_directional_movement (x : Nat → ℚ) (n : Nat) (lam : ℚ)
    (a : Option (Nat → ℚ)) (b : ℚ) (bp0 : Nat → ℚ) (k : Nat) :
    ∃ pF pB Fr : Multiset Nat,
      ((stateAtRound (partitionPass x n lam a b bp0) k).free_heap : Multiset Nat)
        = pF + Fr ∧
      ((stateAtRound (partitionPass x n lam a b bp0) (k + 1)).free_heap : Multiset Nat)
        = pB + Fr ∧
      ((stateAtRound (partitionPass x n lam a b bp0) k).bound_heap : Multiset Nat)
        = pB + ((stateAtRound (partitionPass x n lam a b bp0) (k + 1)).bound_heap :
            Multiset Nat) ∧
      (∀ e ∈ pB,
        (stateAtRound (partitionPass x n lam a b bp0) (k + 1)).breakpts e = bpF x a e) ∧
      ((stateAtRound (partitionPass x n lam a b bp0) (k + 1)).asum
        = (stateAtRound (partitionPass x n lam a b bp0) k).asum
          + msum pF (fun e => aw a e * (1 - x e)) + msum pB (fun e => aw a e * x e)) ∧
      (∀ e ∈ pF, ∀ m : Nat,
        e ∈ highs (stateAtRound (partitionPass x n lam a b bp0) (k + 1 + m))) ∧
      (∀ i ∈ highs (stateAtRound (partitionPass x n lam a b bp0) k),
        i ∈ highs (stateAtRound (partitionPass x n lam a b bp0) (k + 1))) := by
  set st0 := partitionPass x n lam a b bp0 with hst0
  have h0 : Inv st0 := partitionPass_inv x n lam a b bp0
  have hInvk := (stateAtRound_inv st0 h0 k).1
  have hHp : (k == 0) = false → HeapInv (stateAtRound st0 k) := by
    intro hk
    refine (stateAtRound_inv st0 h0 k).2 ?_
    have hk' : ¬(k = 0) := by simpa using hk
    omega
  have hsx : (stateAtRound st0 k).x = x := by
    rw [(stateAtRound_frame st0 k).1, hst0]
    exact (partitionPass_go x a lam b n bp0 n (partitionPass x n lam a b bp0) rfl).1.1
  have hsa : (stateAtRound st0 k).a = a := by
    rw [(stateAtRound_frame st0 k).2.1, hst0]
    exact (partitionPass_go x a lam b n bp0 n (partitionPass x n lam a b bp0) rfl).1.2.1
  obtain ⟨_, _, pF, pB, Fr, hm1, hm2, hm3, hm4, hm5, hm6, hm7, hm8, _⟩ :=
    roundBody_main (k == 0) (stateAtRound st0 k) hInvk hHp
  rw [hsx, hsa] at hm4 hm6
  refine ⟨pF, pB, Fr, hm1, hm2, hm3, hm4, hm6, ?_, hm8⟩
  intro e he m
  exact stateAtRound_highs_mono st0 h0 (k + 1) m e (hm7 e he)

end Mongoose
